import Mathlib

/-!
# cricut-file-finder: the discovery walk and the recency sort

A shallow embedding of `util/files.go`.

* Go strings are modelled by `String`; byte-level library routines work on the
  character list of the string.
* The file system, the user database, the environment and `filepath.Join` of the
  host platform are the fields of `World`: an oracle answering every call the
  program makes.
* A Go `(value, error)` result is a pair whose second component is an
  `Option GoError` (`none` is `nil`).
* Library routines the program calls (`strings`, `strconv`, `sort`) are modelled
  after the Go standard library, routine by routine.
-/

set_option exponentiation.threshold 200000

namespace Cricut

/-! ## Library: `strings` -/

/-- Go `unicode.IsSpace`: the white space characters `strings.TrimSpace` removes. -/
def isSpace (c : Char) : Bool :=
  let n := c.toNat
  n == 0x09 || n == 0x0A || n == 0x0B || n == 0x0C || n == 0x0D || n == 0x20 ||
  n == 0x85 || n == 0xA0 || n == 0x1680 || (0x2000 ≤ n && n ≤ 0x200A) ||
  n == 0x2028 || n == 0x2029 || n == 0x202F || n == 0x205F || n == 0x3000

/-- Go `strings.TrimSpace` on the character list: leading and trailing white space removed. -/
def trimSpaceChars (s : List Char) : List Char :=
  ((s.dropWhile isSpace).reverse.dropWhile isSpace).reverse

/-- Go `strings.TrimSpace`. -/
def TrimSpace (s : String) : String := String.mk (trimSpaceChars s.data)

/-- Go `strings.HasPrefix` on character lists. -/
def hasPrefixChars : List Char → List Char → Bool
  | _, [] => true
  | [], _ :: _ => false
  | c :: cs, p :: ps => c == p && hasPrefixChars cs ps

/-- Go `strings.Contains` on character lists: `substr` occurs somewhere within `s`. -/
def containsChars : List Char → List Char → Bool
  | [], substr => hasPrefixChars [] substr
  | c :: cs, substr => hasPrefixChars (c :: cs) substr || containsChars cs substr

/-- Go `strings.Contains`. -/
def Contains (s substr : String) : Bool := containsChars s.data substr.data

/-! ## Library: `strconv` -/

/-- The two error kinds of `strconv.NumError`: `ErrSyntax` and `ErrRange`. -/
inductive NumErr where
  | ErrSyntax
  | ErrRange
deriving DecidableEq, Repr

/-- Go `strconv.lower`: the byte with bit `0x20` set. -/
def lower (c : Char) : Nat := c.toNat ||| 0x20

/-- A decimal digit byte. -/
def isDigit (c : Char) : Bool := '0'.toNat ≤ c.toNat && c.toNat ≤ '9'.toNat

/-- The loop of `strconv.ParseUint(s, 10, 64)` over the bytes of `s`, `n` the value read so far. -/
def parseUintLoop : List Char → Nat → Nat × Option NumErr
  | [], n => (n, none)
  | c :: cs, n =>
    let maxVal := 2 ^ 64 - 1
    let cutoff := maxVal / 10 + 1
    if isDigit c then
      let d := c.toNat - '0'.toNat
      if n ≥ cutoff then (maxVal, some NumErr.ErrRange)
      else
        let n1 := n * 10 + d
        if n1 > maxVal then (maxVal, some NumErr.ErrRange)
        else parseUintLoop cs n1
    else (0, some NumErr.ErrSyntax)

/-- Go `strconv.ParseUint(s, 10, 64)`. -/
def ParseUint10 (s : List Char) : Nat × Option NumErr :=
  match s with
  | [] => (0, some NumErr.ErrSyntax)
  | _ :: _ => parseUintLoop s 0

/-- Go `strconv.ParseInt(s, 10, 64)`. -/
def ParseInt10 (s : String) : Int × Option NumErr :=
  match s.data with
  | [] => (0, some NumErr.ErrSyntax)
  | c :: cs =>
    let neg := c == '-'
    let body := if c == '+' || c == '-' then cs else c :: cs
    match ParseUint10 body with
    | (_, some NumErr.ErrSyntax) => (0, some NumErr.ErrSyntax)
    | (un, _) =>
      let cutoff := 2 ^ 63
      if !neg && un ≥ cutoff then ((cutoff : Int) - 1, some NumErr.ErrRange)
      else if neg && un > cutoff then (-(cutoff : Int), some NumErr.ErrRange)
      else (if neg then -(un : Int) else (un : Int), none)

/-- Go `strconv.commonPrefixLenIgnoreCase`: `pre` is lower case already. -/
def commonPrefixLenIgnoreCase : List Char → List Char → Nat
  | [], _ => 0
  | _ :: _, [] => 0
  | c :: cs, p :: ps =>
    let c1 := if 'A'.toNat ≤ c.toNat && c.toNat ≤ 'Z'.toNat then c.toNat + 32 else c.toNat
    if c1 == p.toNat then commonPrefixLenIgnoreCase cs ps + 1 else 0

/-- The `'i', 'I'` case of `strconv.special`, `nsign` bytes of sign before `s`. -/
def specialInf (s : List Char) (nsign : Nat) : Option Nat :=
  let n := commonPrefixLenIgnoreCase s "infinity".data
  let n := if 3 < n && n < 8 then 3 else n
  if n == 3 || n == 8 then some (nsign + n) else none

/-- Go `strconv.special`: the number of bytes of a leading infinity or NaN, when there is one. -/
def special (s : List Char) : Option Nat :=
  match s with
  | [] => none
  | c :: cs =>
    if c == '+' || c == '-' then specialInf cs 1
    else if c == 'i' || c == 'I' then specialInf (c :: cs) 0
    else if c == 'n' || c == 'N' then
      if commonPrefixLenIgnoreCase (c :: cs) "nan".data == 3 then some 3 else none
    else none

/-- The state of the digit loop of `strconv.readFloat`. `digits` is the value of all the
significant digits read (the library keeps the first 19 and a truncation flag). -/
structure Mant where
  sawdot : Bool
  sawdigits : Bool
  nd : Nat
  dp : Int
  digits : Nat
  underscores : Bool
  used : Nat
deriving DecidableEq, Repr

/-- The digit loop of `strconv.readFloat` in base 10 or 16; returns the state and the rest of
the input. -/
def mantLoop (hex : Bool) : List Char → Mant → Mant × List Char
  | [], m => (m, [])
  | c :: cs, m =>
    if c == '_' then mantLoop hex cs { m with underscores := true, used := m.used + 1 }
    else if c == '.' then
      if m.sawdot then (m, c :: cs)
      else mantLoop hex cs { m with sawdot := true, dp := m.nd, used := m.used + 1 }
    else if isDigit c then
      if c == '0' && m.nd == 0 then
        mantLoop hex cs { m with sawdigits := true, dp := m.dp - 1, used := m.used + 1 }
      else
        mantLoop hex cs { m with sawdigits := true, nd := m.nd + 1,
                                 digits := m.digits * (if hex then 16 else 10) + (c.toNat - '0'.toNat),
                                 used := m.used + 1 }
    else if hex && 'a'.toNat ≤ lower c && lower c ≤ 'f'.toNat then
      mantLoop hex cs { m with sawdigits := true, nd := m.nd + 1,
                               digits := m.digits * 16 + (lower c - 'a'.toNat + 10),
                               used := m.used + 1 }
    else (m, c :: cs)

/-- The exponent digit loop of `strconv.readFloat`: digits and underscores, the value capped
once it reaches 10000. Returns the value, whether an underscore was seen, the bytes used and
the rest. -/
def expLoop : List Char → Nat → Bool → Nat → Nat × Bool × Nat × List Char
  | [], e, u, k => (e, u, k, [])
  | c :: cs, e, u, k =>
    if c == '_' then expLoop cs e true (k + 1)
    else if isDigit c then
      expLoop cs (if e < 10000 then e * 10 + (c.toNat - '0'.toNat) else e) u (k + 1)
    else (e, u, k, c :: cs)

/-- The number loop of `strconv.underscoreOK`; `saw` is the last byte class seen:
0 a digit, 1 an underscore, 2 another byte, 3 the beginning. -/
def underscoreLoop (hex : Bool) : List Char → Nat → Bool
  | [], saw => saw != 1
  | c :: cs, saw =>
    if isDigit c || (hex && 'a'.toNat ≤ lower c && lower c ≤ 'f'.toNat) then underscoreLoop hex cs 0
    else if c == '_' then
      if saw != 0 then false else underscoreLoop hex cs 1
    else if saw == 1 then false
    else underscoreLoop hex cs 2

/-- Go `strconv.underscoreOK`: underscores only between digits or after a base prefix. -/
def underscoreOK (s : List Char) : Bool :=
  let s := match s with
    | c :: cs => if c == '-' || c == '+' then cs else c :: cs
    | [] => []
  match s with
  | c0 :: c1 :: rest =>
    if c0 == '0' && (lower c1 == 'b'.toNat || lower c1 == 'o'.toNat || lower c1 == 'x'.toNat) then
      underscoreLoop (lower c1 == 'x'.toNat) rest 0
    else underscoreLoop false s 3
  | _ => underscoreLoop false s 3

/-- The test for a hexadecimal number of `strconv.readFloat`, on the bytes from `i` on:
`i+2 < len(s) && s[i] == '0' && lower(s[i+1]) == 'x'`. -/
def hexPrefix : List Char → Bool
  | c0 :: c1 :: _ :: _ => c0 == '0' && lower c1 == 'x'.toNat
  | _ => false

/-- What `strconv.readFloat` reads off a well-formed prefix: the base, the value of the
significant digits, the exponent of the base's unit (10, or 2 for a hexadecimal number) and
the number of bytes used. -/
structure ReadFloat where
  hex : Bool
  digits : Nat
  exp : Int
  used : Nat
deriving DecidableEq, Repr

/-- Go `strconv.readFloat`: `none` when the library reports `ok = false`. -/
def readFloat (s : List Char) : Option ReadFloat :=
  match s with
  | [] => none
  | c :: cs =>
    let signed := c == '+' || c == '-'
    let body := if signed then cs else c :: cs
    let i0 := if signed then 1 else 0
    let hex := hexPrefix body
    let body1 := if hex then body.drop 2 else body
    let i1 := if hex then i0 + 2 else i0
    let (m, rest) := mantLoop hex body1 ⟨false, false, 0, 0, 0, false, i1⟩
    if !m.sawdigits then none
    else
      let dp : Int := if m.sawdot then m.dp else m.nd
      let dp := if hex then dp * 4 else dp
      let nd : Int := if hex then (m.nd : Int) * 4 else m.nd
      let expChar := if hex then 'p'.toNat else 'e'.toNat
      let finish (dp : Int) (underscores : Bool) (used : Nat) : Option ReadFloat :=
        if underscores && !underscoreOK (s.take used) then none
        else some ⟨hex, m.digits, dp - nd, used⟩
      match rest with
      | e :: rest1 =>
        if lower e == expChar then
          match rest1 with
          | [] => none
          | sg :: rest2 =>
            let esigned := sg == '+' || sg == '-'
            let esign : Int := if sg == '-' then -1 else 1
            let rest3 := if esigned then rest2 else sg :: rest2
            match rest3 with
            | [] => none
            | d :: _ =>
              if !isDigit d then none
              else
                let (ev, u, k, _) := expLoop rest3 0 m.underscores 0
                finish (dp + (ev : Int) * esign) u (m.used + 1 + (if esigned then 1 else 0) + k)
        else if hex then none
        else finish dp m.underscores m.used
      | [] => if hex then none else finish dp m.underscores m.used

/-- The least magnitude `strconv.ParseFloat(s, 64)` rounds to an infinity: half a unit in the
last place above the largest float64, `2^1024 - 2^970`. -/
def float64Overflow : Nat := 2 ^ 1024 - 2 ^ 970

/-- Whether the number read overflows float64: `digits * base^exp ≥ 2^1024 - 2^970`. -/
def overflows (r : ReadFloat) : Bool :=
  let b : Nat := if r.hex then 2 else 10
  if r.digits == 0 then false
  else if 0 ≤ r.exp then decide (r.digits * b ^ r.exp.toNat ≥ float64Overflow)
  else decide (r.digits ≥ float64Overflow * b ^ (-r.exp).toNat)

/-- Go `strconv.ParseFloat(s, 64)`, its error result only (`none` is `nil`). The conversion is
taken as correctly rounded to nearest-even, so that `ErrRange` is reported exactly when the
magnitude reaches `float64Overflow`; the float64 value itself is not modelled. -/
def ParseFloat64 (s : String) : Option NumErr :=
  let cs := s.data
  match special cs with
  | some n => if n != cs.length then some NumErr.ErrSyntax else none
  | none =>
    match readFloat cs with
    | none => some NumErr.ErrSyntax
    | some r =>
      if r.used != cs.length then some NumErr.ErrSyntax
      else if overflows r then some NumErr.ErrRange
      else none

/-! ## `util/files.go` -/

/-- The source's `isNumeric` (files.go:92-105). -/
def isNumeric (s : String) : Bool :=
  let s := TrimSpace s
  if s == "" then false
  else
    let errInt := (ParseInt10 s).2
    if errInt == none then true
    else
      let errFloat := ParseFloat64 s
      errFloat == none

/-- Go `time.Time` as a file system reports a modification time: an instant, given by its
count of nanoseconds since the epoch. -/
structure Time where
  unixNano : Int
deriving DecidableEq, Repr

/-- Go `Time.After`: `t` is a later instant than `u`. -/
def Time.After (t u : Time) : Bool := decide (t.unixNano > u.unixNano)

/-- The source's constant `CRICUT_DIR_NAME`. -/
def CRICUT_DIR_NAME : String := ".cricut-design-space"

/-- The source's record `CricutFile`. -/
structure CricutFile where
  Name : String
  Path : String
  FullPath : String
  LastModified : Time
deriving DecidableEq, Repr

/-- A Go `error` value: its `Error()` text and what `os.IsNotExist` answers on it. -/
structure GoError where
  msg : String
  notExist : Bool
deriving DecidableEq, Repr

/-- Go `fmt.Errorf`: a fresh error with the formatted text. -/
def Errorf (msg : String) : GoError := ⟨msg, false⟩

/-- Go `os.FileInfo`, the parts the program reads. -/
structure FileInfo where
  Name : String
  IsDir : Bool
  ModTime : Time
deriving DecidableEq, Repr

deriving instance DecidableEq for Except

/-- Go `os.DirEntry`: name and type as `os.ReadDir` reports them, and what `Info()` yields on
it: the modification time (name and type of the `FileInfo` are the entry's), or an error. -/
structure DirEntry where
  Name : String
  IsDir : Bool
  ModTime : Except GoError Time
deriving DecidableEq

/-- The host the program runs on, as an oracle: `user.Current`, `runtime.GOOS`, `os.Getenv`,
`filepath.Join`, `os.Stat` and `os.ReadDir`. -/
structure World where
  userCurrent : Except GoError String
  GOOS : String
  Getenv : String → String
  Join : List String → String
  Stat : String → Except GoError FileInfo
  ReadDir : String → Except GoError (List DirEntry)

/-- A file system call the program makes. -/
inductive Op where
  | Stat (path : String)
  | ReadDir (path : String)
deriving DecidableEq, Repr

/-- The source's `pathExists` (files.go:31-41). -/
def pathExists (w : World) (path : String) : Bool × Option GoError :=
  match w.Stat path with
  | .error err => if err.notExist then (false, none) else (false, some err)
  | .ok stat => (stat.IsDir, none)

/-- The source's `getHomeDir` (files.go:43-55). -/
def getHomeDir (w : World) : String :=
  let fallback := if w.GOOS == "windows" then w.Getenv "USERPROFILE" else w.Getenv "HOME"
  match w.userCurrent with
  | .ok homeDir => if homeDir != "" then homeDir else fallback
  | .error _ => fallback

/-- Whether the closure returned by `createListing filetype` includes an entry
(files.go:66-72). -/
def includes (filetype : String) (entry : DirEntry) : Bool :=
  if filetype == "file" then !entry.IsDir
  else if filetype == "dir" then entry.IsDir
  else false

/-- The loop of the closure returned by `createListing` (files.go:65-83). -/
def listingLoop (filetype : String) : List DirEntry → List FileInfo → List FileInfo × Option GoError
  | [], dirs => (dirs, none)
  | entry :: rest, dirs =>
    if includes filetype entry then
      match entry.ModTime with
      | .error err => (dirs, some err)
      | .ok t => listingLoop filetype rest (dirs ++ [⟨entry.Name, entry.IsDir, t⟩])
    else listingLoop filetype rest dirs

/-- The source's `createListing` (files.go:57-87), applied to a path. -/
def createListing (filetype : String) (w : World) (path : String) :
    List FileInfo × Option GoError :=
  match w.ReadDir path with
  | .error err => ([], some err)
  | .ok entries => listingLoop filetype entries []

/-- The source's `listDirectories` (files.go:89). -/
def listDirectories : World → String → List FileInfo × Option GoError := createListing "dir"

/-- The source's `listFiles` (files.go:90). -/
def listFiles : World → String → List FileInfo × Option GoError := createListing "file"

/-- What `GetCricutFiles` hands back: the slice, the error, and the file system calls it made,
in order. -/
structure Result where
  ret : List CricutFile
  err : Option GoError
  calls : List Op
deriving DecidableEq, Repr

/-- The loop over the files of a leaf directory (files.go:173-182). -/
def fileLoop (w : World) (canvasDir : String) : List FileInfo → List CricutFile → List CricutFile
  | [], ret => ret
  | file :: rest, ret =>
    if Contains file.Name ".png" || Contains file.Name ".PNG" then
      fileLoop w canvasDir rest
        (ret ++ [⟨file.Name, canvasDir, w.Join [canvasDir, file.Name], file.ModTime⟩])
    else fileLoop w canvasDir rest ret

/-- The loop over the directories of a `Canvas` directory (files.go:159-183). -/
def canvasLoop (w : World) (topCanvasDir : String) :
    List FileInfo → List CricutFile → List Op → Result
  | [], ret, calls => ⟨ret, none, calls⟩
  | dir :: rest, ret, calls =>
    if !isNumeric dir.Name then canvasLoop w topCanvasDir rest ret calls
    else
      let canvasDir := w.Join [topCanvasDir, dir.Name]
      let calls := calls ++ [Op.ReadDir canvasDir]
      match listFiles w canvasDir with
      | (_, some err) =>
        ⟨ret, some (Errorf ("error reading canvas directory " ++ canvasDir ++ ": " ++ err.msg)),
          calls⟩
      | (files, none) => canvasLoop w topCanvasDir rest (fileLoop w canvasDir files ret) calls

/-- The loop over the project directories (files.go:138-184). -/
def projectLoop (w : World) (topDir : String) :
    List FileInfo → List CricutFile → List Op → Result
  | [], ret, calls => ⟨ret, none, calls⟩
  | dir :: rest, ret, calls =>
    if !isNumeric dir.Name then projectLoop w topDir rest ret calls
    else
      let topCanvasDir := w.Join [topDir, dir.Name, "Canvas"]
      let calls := calls ++ [Op.Stat topCanvasDir]
      match pathExists w topCanvasDir with
      | (_, some ok) =>
        ⟨ret, some (Errorf ("error checking if canvas directory exists: " ++ ok.msg)), calls⟩
      | (false, none) => projectLoop w topDir rest ret calls
      | (true, none) =>
        let calls := calls ++ [Op.ReadDir topCanvasDir]
        match listDirectories w topCanvasDir with
        | (_, some err) =>
          ⟨ret, some (Errorf ("error reading canvas directory " ++ topCanvasDir ++ ": " ++ err.msg)),
            calls⟩
        | (canvasDirs, none) =>
          match canvasLoop w topCanvasDir canvasDirs ret calls with
          | ⟨ret, some err, calls⟩ => ⟨ret, some err, calls⟩
          | ⟨ret, none, calls⟩ => projectLoop w topDir rest ret calls

/-- The source's `GetCricutFiles` (files.go:107-187). The `fmt.Printf` progress lines are not
part of the model. -/
def GetCricutFiles (w : World) : Result :=
  let ret : List CricutFile := []
  let homeDir := getHomeDir w
  let cricutDir := w.Join [homeDir, CRICUT_DIR_NAME]
  let calls := [Op.Stat cricutDir]
  match pathExists w cricutDir with
  | (_, some ok) => ⟨ret, some (Errorf ("error checking if cricut directory exists: " ++ ok.msg)), calls⟩
  | (false, none) => ⟨ret, some (Errorf ("Cricut directory does not exist at " ++ cricutDir)), calls⟩
  | (true, none) =>
    let topDir := w.Join [cricutDir, "LocalData"]
    let calls := calls ++ [Op.Stat topDir]
    match pathExists w topDir with
    | (_, some ok) =>
      ⟨ret, some (Errorf ("error checking if cricut directory exists: " ++ ok.msg)), calls⟩
    | (false, none) => ⟨ret, some (Errorf ("Cricut directory does not exist at " ++ topDir)), calls⟩
    | (true, none) =>
      let calls := calls ++ [Op.ReadDir topDir]
      match listDirectories w topDir with
      | (_, some err) => ⟨ret, some err, calls⟩
      | (projectDirs, none) => projectLoop w topDir projectDirs ret calls

/-! ### A sample host -/

/-- A Unix-like `filepath.Join` for sample hosts: the non-empty elements joined by `/`
(the sample paths need no cleaning). -/
def sampleJoin (elems : List String) : String :=
  String.intercalate "/" (elems.filter (fun e => e != ""))

/-- A plain file entry. -/
def fileEntry (name : String) (nanos : Int) : DirEntry := ⟨name, false, .ok ⟨nanos⟩⟩

/-- A directory entry. -/
def dirEntry (name : String) : DirEntry := ⟨name, true, .ok ⟨0⟩⟩

/-- Go `os.PathError`: the text is the operation, the path and the system's message. -/
def pathError (op path text : String) (notExist : Bool) : GoError :=
  ⟨op ++ " " ++ path ++ ": " ++ text, notExist⟩

/-- The error of operation `op` on a path that is not there. -/
def enoent (op path : String) : GoError := pathError op path "no such file or directory" true

/-- The error of operation `op` on a path that may not be accessed. -/
def eacces (op path : String) : GoError := pathError op path "permission denied" false

/-- A sample tree under `/home/u/.cricut-design-space/LocalData`: project `1` with canvases
`10` (two images, a text file and a directory) and `x` (not numeric), project `2` without
`Canvas`, project `3` with canvas `30` (one image), the directory `abc` (not numeric) and a
stray file. Every listing is in the order of the names, as `os.ReadDir` returns it. -/
def sampleReadDir (path : String) : Except GoError (List DirEntry) :=
  if path == "/home/u/.cricut-design-space/LocalData" then
    .ok [dirEntry "1", dirEntry "2", dirEntry "3", dirEntry "abc", fileEntry "stray.png" 5]
  else if path == "/home/u/.cricut-design-space/LocalData/1/Canvas" then
    .ok [dirEntry "10", dirEntry "x"]
  else if path == "/home/u/.cricut-design-space/LocalData/1/Canvas/10" then
    .ok [fileEntry "b.PNG" 300, fileEntry "notes.txt" 200, fileEntry "photo.png" 100,
         dirEntry "sub.png"]
  else if path == "/home/u/.cricut-design-space/LocalData/3/Canvas" then
    .ok [dirEntry "30"]
  else if path == "/home/u/.cricut-design-space/LocalData/3/Canvas/30" then
    .ok [fileEntry "a.pngfile.txt" 50]
  else .error (enoent "open" path)

/-- The directories of the sample tree, and an anchor without `LocalData` in the home of
user `n`. -/
def sampleStat (path : String) : Except GoError FileInfo :=
  if path == "/home/u/.cricut-design-space" || path == "/home/u/.cricut-design-space/LocalData"
      || path == "/home/u/.cricut-design-space/LocalData/1/Canvas"
      || path == "/home/u/.cricut-design-space/LocalData/3/Canvas"
      || path == "/home/n/.cricut-design-space" then
    .ok ⟨"d", true, ⟨0⟩⟩
  else .error (enoent "stat" path)

/-- The sample host: user `u` on a Unix-like system with the sample tree. -/
def sampleWorld : World :=
  ⟨.ok "/home/u", "linux", fun _ => "", sampleJoin, sampleStat, sampleReadDir⟩

/-- The sample host for user `v`, who has no `.cricut-design-space`. -/
def noAnchorWorld : World := { sampleWorld with userCurrent := .ok "/home/v" }

/-- The sample host for user `n`, who has `.cricut-design-space` but no `LocalData` in it. -/
def noDataWorld : World := { sampleWorld with userCurrent := .ok "/home/n" }

/-- The sample host with project `3` closed to the user: the check of its `Canvas` fails with
a permission error after project `1` has been walked. -/
def brokenWorld : World :=
  { sampleWorld with
    Stat := fun path =>
      if path == "/home/u/.cricut-design-space/LocalData/3/Canvas" then
        .error (eacces "stat" path)
      else sampleStat path }

/-- A character of the alphabet of numbers: a decimal digit, a sign, the point, the
underscore, or a letter, in either case, among the hexadecimal digits `a` to `f` (the exponent
mark `e` is one), `p` and `x` of hexadecimal numbers, and `i`, `n`, `t`, `y` of `Infinity`
and `NaN`. -/
def numericChar (c : Char) : Bool :=
  isDigit c || c == '+' || c == '-' || c == '.' || c == '_' ||
  ('a'.toNat ≤ lower c && lower c ≤ 'f'.toNat) ||
  lower c == 'i'.toNat || lower c == 'n'.toNat || lower c == 'p'.toNat ||
  lower c == 't'.toNat || lower c == 'x'.toNat || lower c == 'y'.toNat

/-- The anchor `<home>/.cricut-design-space`. -/
def cricutDir (w : World) : String := w.Join [getHomeDir w, CRICUT_DIR_NAME]

/-- The data root `<home>/.cricut-design-space/LocalData`. -/
def localData (w : World) : String := w.Join [cricutDir w, "LocalData"]

/-- The `Canvas` directory of project `p`. -/
def canvasOf (w : World) (p : String) : String := w.Join [localData w, p, "Canvas"]

/-- The leaf directory of canvas `c` of project `p`. -/
def leafOf (w : World) (p c : String) : String := w.Join [canvasOf w p, c]

/-- The path exists and is a directory. -/
def isDirectory (w : World) (path : String) : Bool :=
  match w.Stat path with
  | .ok info => info.IsDir
  | .error _ => false

/-- The path is absent: not there, or there but not a directory. -/
def absent (w : World) (path : String) : Bool :=
  match w.Stat path with
  | .ok info => !info.IsDir
  | .error e => e.notExist

/-- The existence check of the path fails with an error other than not-found. -/
def checkFails (w : World) (path : String) : Bool :=
  match w.Stat path with
  | .ok _ => false
  | .error e => !e.notExist

/-- An `Info()` call that fails. -/
def infoFails (e : DirEntry) : Bool :=
  match e.ModTime with
  | .ok _ => false
  | .error _ => true

/-- The entries of a directory; none when it cannot be read. -/
def entries (w : World) (path : String) : List DirEntry :=
  match w.ReadDir path with
  | .ok es => es
  | .error _ => []

/-- Listing the directories (`wantDir`) or the other entries of `path` fails: the directory
cannot be read, or `Info()` fails on an entry of the wanted kind. -/
def listingFails (wantDir : Bool) (w : World) (path : String) : Bool :=
  match w.ReadDir path with
  | .ok es => es.any (fun e => e.IsDir == wantDir && infoFails e)
  | .error _ => true

/-- The names of the subdirectories of `path` that pass `isNumeric`. -/
def numericDirs (w : World) (path : String) : List String :=
  ((entries w path).filter (fun e => e.IsDir && isNumeric e.Name)).map (fun e => e.Name)

/-- The image test of the walk: the name contains `.png` or `.PNG`. -/
def isImage (name : String) : Bool := Contains name ".png" || Contains name ".PNG"

/-- The qualifying entries of a leaf directory: not directories, image names. -/
def leafImages (w : World) (leaf : String) : List (String × DirEntry) :=
  ((entries w leaf).filter (fun f => !f.IsDir && isImage f.Name)).map (fun f => (leaf, f))

/-- The qualifying entries of the whole tree, each with its leaf directory, in walk order. -/
def qualifying (w : World) : List (String × DirEntry) :=
  (numericDirs w (localData w)).flatMap (fun p =>
    if isDirectory w (canvasOf w p) then
      (numericDirs w (canvasOf w p)).flatMap (fun c => leafImages w (leafOf w p c))
    else [])

/-- The record of a qualifying entry, when its modification time is to be had. -/
def recordOf (w : World) (q : String × DirEntry) : Option CricutFile :=
  match q.2.ModTime with
  | .ok t => some ⟨q.2.Name, q.1, w.Join [q.1, q.2.Name], t⟩
  | .error _ => none

/-- The records of the qualifying entries, in walk order. -/
def expected (w : World) : List CricutFile := (qualifying w).filterMap (recordOf w)

/-- A fatal condition inside project `p`: the check of its `Canvas` fails, or `Canvas` is a
directory and listing it fails or listing one of its numeric leaf directories fails. -/
def projectFatal (w : World) (p : String) : Bool :=
  checkFails w (canvasOf w p) ||
  (isDirectory w (canvasOf w p) &&
    (listingFails true w (canvasOf w p) ||
      (numericDirs w (canvasOf w p)).any (fun c => listingFails false w (leafOf w p c))))

/-- A fatal condition is met: an anchor is absent or its check fails, listing `LocalData`
fails, or a fatal condition is met inside a numeric project directory. -/
def fatal (w : World) : Bool :=
  absent w (cricutDir w) || checkFails w (cricutDir w) ||
  absent w (localData w) || checkFails w (localData w) ||
  listingFails true w (localData w) ||
  (numericDirs w (localData w)).any (fun p => projectFatal w p)

/-- The world with the listing of `path` replaced. -/
def World.withReadDir (w : World) (path : String) (es : List DirEntry) : World :=
  { w with ReadDir := fun q => if q = path then .ok es else w.ReadDir q }

/-- The `FileInfo` of an entry whose `Info()` succeeds. -/
def infoOf (e : DirEntry) : Option FileInfo :=
  match e.ModTime with
  | .ok t => some ⟨e.Name, e.IsDir, t⟩
  | .error _ => none

/-- The record the walk builds from a listed file. -/
def mkRecord (w : World) (canvasDir : String) (file : FileInfo) : CricutFile :=
  ⟨file.Name, canvasDir, w.Join [canvasDir, file.Name], file.ModTime⟩

/-- The records of the qualifying entries of a leaf directory. -/
def leafRecords (w : World) (leaf : String) : List CricutFile :=
  (leafImages w leaf).filterMap (recordOf w)

/-- The numeric names among listed directories. -/
def numericNames (dirs : List FileInfo) : List String :=
  (dirs.filter (fun d => isNumeric d.Name)).map (fun d => d.Name)

/-- The records of a `Canvas` directory whose numeric leaf names are `names`. -/
def canvasRecords (w : World) (top : String) (names : List String) : List CricutFile :=
  names.flatMap (fun c => leafRecords w (w.Join [top, c]))

/-- The records of project `p`: those of its `Canvas` when that is a directory. -/
def projectRecords (w : World) (p : String) : List CricutFile :=
  if isDirectory w (canvasOf w p) then
    canvasRecords w (canvasOf w p) (numericDirs w (canvasOf w p))
  else []

/-- The records of the projects named `names`. -/
def walkRecords (w : World) (names : List String) : List CricutFile :=
  names.flatMap (projectRecords w)

/-- The records collected in project `p` before the first failure in it: none when its
`Canvas` is no directory or cannot be listed, else those of the numeric leaf directories that
come before the first one whose listing fails. -/
def collectedOf (w : World) (p : String) : List CricutFile :=
  if isDirectory w (canvasOf w p) && !listingFails true w (canvasOf w p) then
    ((numericDirs w (canvasOf w p)).takeWhile
      (fun c => !listingFails false w (leafOf w p c))).flatMap
        (fun c => leafRecords w (leafOf w p c))
  else []

/-- The records collected before the first failure among the projects named `names`: those of
the projects that come before the first one in which a fatal condition is met, followed by
those collected in that project before its failure. -/
def collectedFrom (w : World) (names : List String) : List CricutFile :=
  (names.takeWhile (fun p => !projectFatal w p)).flatMap (projectRecords w) ++
    (match names.find? (fun p => projectFatal w p) with
      | some p => collectedOf w p
      | none => [])

/-- The records collected before the first failure of the walk: none when an anchor is no
directory or `LocalData` cannot be listed, else those collected among the numeric projects of
`LocalData`. Without a failure these are the records of all the qualifying entries. -/
def collected (w : World) : List CricutFile :=
  if isDirectory w (cricutDir w) && isDirectory w (localData w) &&
      !listingFails true w (localData w) then
    collectedFrom w (numericDirs w (localData w))
  else []

/-- Two listings that fail alike and, when they succeed, agree on the numeric names. -/
def sameNumeric (a b : List FileInfo × Option GoError) : Prop :=
  a.2 = b.2 ∧ (b.2 = none →
    a.1.filter (fun d => isNumeric d.Name) = b.1.filter (fun d => isNumeric d.Name))


/-! ## Library: `sort`

`sort.Slice` of the Go standard library (pattern-defeating quicksort, `zsortfunc.go`). The
slice under sort is the function giving the element at each index (`Mem`); `data.Less(i, j)` is
`less (data.get i) (data.get j)` and `data.Swap(i, j)` is `swap data i j`. Indices are natural numbers:
the library's `int` arithmetic stays within the bounds of the slice. A loop whose length the
code does not state up front takes a bound on its number of rounds as first argument.
-/

section SortSlice

variable {α : Type}

/-- The slice under sort: the element at each index. -/
structure Mem (α : Type) where
  get : Nat → α

/-- Go `data.Swap(i, j)`. -/
def swap (data : Mem α) (i j : Nat) : Mem α :=
  ⟨fun k => if k = i then data.get j else if k = j then data.get i else data.get k⟩

/-- Go `bits.Len` by halving; `fuel` bounds the number of bits. -/
def bitsLenAux : Nat → Nat → Nat
  | 0, _ => 0
  | fuel + 1, n => if n = 0 then 0 else bitsLenAux fuel (n / 2) + 1

/-- Go `bits.Len(uint(n))`: the number of bits of `n`. -/
def bitsLen (n : Nat) : Nat := bitsLenAux n n

/-- The inner loop of `insertionSortLessFunc`, at index `j`:
`for ; j > a && data.Less(j, j-1); j-- { data.Swap(j, j-1) }`. -/
def insertionInner (less : α → α → Bool) (a : Nat) : Nat → Mem α → Mem α
  | 0, data => data
  | j + 1, data =>
    if j + 1 > a && less (data.get (j + 1)) (data.get j) then
      insertionInner less a j (swap data (j + 1) j)
    else data

/-- The outer loop of `insertionSortLessFunc`, at index `i` with `n` rounds to go. -/
def insertionOuter (less : α → α → Bool) (a b : Nat) : Nat → Nat → Mem α → Mem α
  | 0, _, data => data
  | n + 1, i, data =>
    if i < b then insertionOuter less a b n (i + 1) (insertionInner less a i data) else data

/-- Go `insertionSortLessFunc`: sorts `data[a:b]` by insertion. -/
def insertionSortLessFunc (less : α → α → Bool) (data : Mem α) (a b : Nat) : Mem α :=
  insertionOuter less a b (b - (a + 1)) (a + 1) data

/-- Go `siftDownLessFunc(data, lo, hi, first)`, its loop at `root`; `fuel` bounds the rounds. -/
def siftDownLessFunc (less : α → α → Bool) (hi first : Nat) :
    Nat → Nat → Mem α → Mem α
  | 0, _, data => data
  | fuel + 1, root, data =>
    let child := 2 * root + 1
    if child ≥ hi then data
    else
      let child :=
        if child + 1 < hi && less (data.get (first + child)) (data.get (first + child + 1)) then child + 1
        else child
      if !less (data.get (first + root)) (data.get (first + child)) then data
      else siftDownLessFunc less hi first fuel child (swap data (first + root) (first + child))

/-- The first loop of `heapSortLessFunc`: `siftDown` at `i`, `i - 1`, ..., `0`. -/
def heapBuild (less : α → α → Bool) (hi first : Nat) : Nat → Mem α → Mem α
  | 0, data => siftDownLessFunc less hi first hi 0 data
  | i + 1, data => heapBuild less hi first i (siftDownLessFunc less hi first hi (i + 1) data)

/-- The second loop of `heapSortLessFunc`: the largest element is popped to `first + i`, for
`i`, `i - 1`, ..., `0`. -/
def heapPop (less : α → α → Bool) (first : Nat) : Nat → Mem α → Mem α
  | 0, data => siftDownLessFunc less 0 first 0 0 (swap data first (first + 0))
  | i + 1, data =>
    heapPop less first i
      (siftDownLessFunc less (i + 1) first (i + 1) 0 (swap data first (first + (i + 1))))

/-- Go `heapSortLessFunc`: sorts `data[a:b]` by heap sort. -/
def heapSortLessFunc (less : α → α → Bool) (data : Mem α) (a b : Nat) : Mem α :=
  let first := a
  let hi := b - a
  if hi = 0 then data
  else heapPop less first (hi - 1) (heapBuild less hi first ((hi - 1) / 2) data)

/-- Go `sortedHint`. -/
inductive sortedHint where
  | unknownHint
  | increasingHint
  | decreasingHint
deriving DecidableEq, Repr

/-- Go `order2LessFunc`: the two indices in order of their elements, and the swap count. -/
def order2LessFunc (less : α → α → Bool) (data : Mem α) (a b swaps : Nat) : Nat × Nat × Nat :=
  if less (data.get b) (data.get a) then (b, a, swaps + 1) else (a, b, swaps)

/-- Go `medianLessFunc`: the index of the median of three, and the swap count. -/
def medianLessFunc (less : α → α → Bool) (data : Mem α) (a b c swaps : Nat) : Nat × Nat :=
  let r1 := order2LessFunc less data a b swaps
  let r2 := order2LessFunc less data r1.2.1 c r1.2.2
  let r3 := order2LessFunc less data r1.1 r2.1 r2.2.2
  (r3.2.1, r3.2.2)

/-- Go `medianAdjacentLessFunc`: the median of `a - 1`, `a`, `a + 1`. -/
def medianAdjacentLessFunc (less : α → α → Bool) (data : Mem α) (a swaps : Nat) : Nat × Nat :=
  medianLessFunc less data (a - 1) a (a + 1) swaps

/-- Go `choosePivotLessFunc`: a pivot index in `data[a:b]` and a hint on the order found. -/
def choosePivotLessFunc (less : α → α → Bool) (data : Mem α) (a b : Nat) : Nat × sortedHint :=
  let l := b - a
  let i := a + l / 4 * 1
  let j := a + l / 4 * 2
  let k := a + l / 4 * 3
  let r :=
    if l ≥ 8 then
      if l ≥ 50 then
        let ri := medianAdjacentLessFunc less data i 0
        let rj := medianAdjacentLessFunc less data j ri.2
        let rk := medianAdjacentLessFunc less data k rj.2
        medianLessFunc less data ri.1 rj.1 rk.1 rk.2
      else medianLessFunc less data i j k 0
    else (j, 0)
  if r.2 = 0 then (r.1, sortedHint.increasingHint)
  else if r.2 = 12 then (r.1, sortedHint.decreasingHint)
  else (r.1, sortedHint.unknownHint)

/-- The loop of `reverseRangeLessFunc`. -/
def reverseRangeLoop : Nat → Nat → Nat → Mem α → Mem α
  | 0, _, _, data => data
  | fuel + 1, i, j, data =>
    if i < j then reverseRangeLoop fuel (i + 1) (j - 1) (swap data i j) else data

/-- Go `reverseRangeLessFunc`: reverses `data[a:b]`. -/
def reverseRangeLessFunc (data : Mem α) (a b : Nat) : Mem α :=
  reverseRangeLoop (b - a) a (b - 1) data

/-- Go `xorshift.Next` on a 64-bit word. -/
def xorshiftNext (r : Nat) : Nat :=
  let r := r ^^^ ((r <<< 13) % 2 ^ 64)
  let r := r ^^^ (r >>> 7)
  r ^^^ ((r <<< 17) % 2 ^ 64)

/-- Go `nextPowerOfTwo`. -/
def nextPowerOfTwo (length : Nat) : Nat := 1 <<< bitsLen length

/-- The loop of `breakPatternsLessFunc`, at round `i` of three. -/
def breakPatternsLoop (a length modulus idx : Nat) : Nat → Nat → Nat → Mem α → Mem α
  | 0, _, _, data => data
  | fuel + 1, i, random, data =>
    if i < 3 then
      let random := xorshiftNext random
      let other := random &&& (modulus - 1)
      let other := if other ≥ length then other - length else other
      breakPatternsLoop a length modulus idx fuel (i + 1) random
        (swap data (idx + i) (a + other))
    else data

/-- Go `breakPatternsLessFunc`: the three elements of `data[a:b]` from index
`a + (length/4)*2 - 1` on, next to the candidates for the pivot, change places with elements
picked by the `xorshift` sequence. -/
def breakPatternsLessFunc (data : Mem α) (a b : Nat) : Mem α :=
  let length := b - a
  if length ≥ 8 then
    breakPatternsLoop a length (nextPowerOfTwo length) (a + (length / 4) * 2 - 1) 3 0 length data
  else data

/-- The scan of `partialInsertionSortLessFunc`:
`for i < b && !data.Less(i, i-1) { i++ }`. -/
def scanSorted (less : α → α → Bool) (data : Mem α) (b : Nat) : Nat → Nat → Nat
  | 0, i => i
  | fuel + 1, i =>
    if i < b && !less (data.get i) (data.get (i - 1)) then scanSorted less data b fuel (i + 1) else i

/-- The shift to the left of `partialInsertionSortLessFunc`, at index `j`:
`for ; j >= 1; j-- { if !data.Less(j, j-1) { break }; data.Swap(j, j-1) }`. -/
def shiftLeft (less : α → α → Bool) : Nat → Mem α → Mem α
  | 0, data => data
  | j + 1, data =>
    if !less (data.get (j + 1)) (data.get j) then data else shiftLeft less j (swap data (j + 1) j)

/-- The shift to the right of `partialInsertionSortLessFunc`, at index `j`:
`for ; j < b; j++ { if !data.Less(j, j-1) { break }; data.Swap(j, j-1) }`. -/
def shiftRight (less : α → α → Bool) (b : Nat) : Nat → Nat → Mem α → Mem α
  | 0, _, data => data
  | fuel + 1, j, data =>
    if j < b then
      if !less (data.get j) (data.get (j - 1)) then data
      else shiftRight less b fuel (j + 1) (swap data j (j - 1))
    else data

/-- The loop of `partialInsertionSortLessFunc`, with `steps` rounds of `maxSteps` to go. -/
def partialInsertionSortLoop (less : α → α → Bool) (a b : Nat) :
    Nat → Nat → Mem α → Mem α × Bool
  | 0, _, data => (data, false)
  | steps + 1, i, data =>
    let i := scanSorted less data b (b - i) i
    if i = b then (data, true)
    else if b - a < 50 then (data, false)
    else
      let data := swap data i (i - 1)
      let data := if i - a ≥ 2 then shiftLeft less (i - 1) data else data
      let data := if b - i ≥ 2 then shiftRight less b (b - (i + 1)) (i + 1) data else data
      partialInsertionSortLoop less a b steps i data

/-- Go `partialInsertionSortLessFunc`: a few insertion steps on `data[a:b]`; `true` when the
range is sorted at the end. -/
def partialInsertionSortLessFunc (less : α → α → Bool) (data : Mem α) (a b : Nat) :
    Mem α × Bool :=
  partialInsertionSortLoop less a b 5 (a + 1) data

/-- The scan `for i <= j && data.Less(i, a) { i++ }` of `partitionLessFunc`. -/
def scanUp (less : α → α → Bool) (data : Mem α) (a j : Nat) : Nat → Nat → Nat
  | 0, i => i
  | fuel + 1, i =>
    if i ≤ j && less (data.get i) (data.get a) then scanUp less data a j fuel (i + 1) else i

/-- The scan `for i <= j && !data.Less(j, a) { j-- }` of `partitionLessFunc`. -/
def scanDown (less : α → α → Bool) (data : Mem α) (a i : Nat) : Nat → Nat → Nat
  | 0, j => j
  | fuel + 1, j =>
    if i ≤ j && !less (data.get j) (data.get a) then scanDown less data a i fuel (j - 1) else j

/-- The main loop of `partitionLessFunc`; returns the slice with `i` and `j`. -/
def partitionLoop (less : α → α → Bool) (a : Nat) :
    Nat → Nat → Nat → Mem α → Mem α × Nat × Nat
  | 0, i, j, data => (data, i, j)
  | fuel + 1, i, j, data =>
    let i := scanUp less data a j (j + 1 - i) i
    let j := scanDown less data a i (j + 1 - i) j
    if i > j then (data, i, j)
    else partitionLoop less a fuel (i + 1) (j - 1) (swap data i j)

/-- Go `partitionLessFunc`: one quicksort partition of `data[a:b]` around `data[pivot]`;
returns the slice, the new index of the pivot and whether the range was partitioned already. -/
def partitionLessFunc (less : α → α → Bool) (data : Mem α) (a b pivot : Nat) :
    Mem α × Nat × Bool :=
  let data := swap data a pivot
  let i := a + 1
  let j := b - 1
  let i := scanUp less data a j (j + 1 - i) i
  let j := scanDown less data a i (j + 1 - i) j
  if i > j then (swap data j a, j, true)
  else
    let data := swap data i j
    let r := partitionLoop less a (b - a) (i + 1) (j - 1) data
    (swap r.1 r.2.2 a, r.2.2, false)

/-- The scan `for i <= j && !data.Less(a, i) { i++ }` of `partitionEqualLessFunc`. -/
def scanUpEqual (less : α → α → Bool) (data : Mem α) (a j : Nat) : Nat → Nat → Nat
  | 0, i => i
  | fuel + 1, i =>
    if i ≤ j && !less (data.get a) (data.get i) then scanUpEqual less data a j fuel (i + 1) else i

/-- The scan `for i <= j && data.Less(a, j) { j-- }` of `partitionEqualLessFunc`. -/
def scanDownEqual (less : α → α → Bool) (data : Mem α) (a i : Nat) : Nat → Nat → Nat
  | 0, j => j
  | fuel + 1, j =>
    if i ≤ j && less (data.get a) (data.get j) then scanDownEqual less data a i fuel (j - 1) else j

/-- The loop of `partitionEqualLessFunc`; returns the slice and `i`. -/
def partitionEqualLoop (less : α → α → Bool) (a : Nat) :
    Nat → Nat → Nat → Mem α → Mem α × Nat
  | 0, i, _, data => (data, i)
  | fuel + 1, i, j, data =>
    let i := scanUpEqual less data a j (j + 1 - i) i
    let j := scanDownEqual less data a i (j + 1 - i) j
    if i > j then (data, i)
    else partitionEqualLoop less a fuel (i + 1) (j - 1) (swap data i j)

/-- Go `partitionEqualLessFunc`: partitions `data[a:b]` into the elements equal to
`data[pivot]` and the greater ones; returns the slice and the start of the second part. -/
def partitionEqualLessFunc (less : α → α → Bool) (data : Mem α) (a b pivot : Nat) :
    Mem α × Nat :=
  let data := swap data a pivot
  partitionEqualLoop less a (b - a) (a + 1) (b - 1) data

/-- What one round of the loop of `pdqsortLessFunc` comes to: the range is sorted and the
function returns (`done`), or the range was partitioned into the elements equal to the pivot
and the greater ones, which start at `mid` (`equal`), or it was partitioned around the pivot,
now at `mid` (`split`). `limit` is the loop's variable after the round. -/
inductive Round (α : Type) where
  | done (data : Mem α)
  | equal (data : Mem α) (mid limit : Nat)
  | split (data : Mem α) (mid limit : Nat) (alreadyPartitioned : Bool)

/-- One round of the loop of `pdqsortLessFunc` on `data[a:b]`, up to the partition. -/
def pdqsortRound (less : α → α → Bool) (data : Mem α) (a b limit : Nat)
    (wasBalanced wasPartitioned : Bool) : Round α :=
  let length := b - a
  if length ≤ 12 then Round.done (insertionSortLessFunc less data a b)
  else if limit = 0 then Round.done (heapSortLessFunc less data a b)
  else
    let data := if !wasBalanced then breakPatternsLessFunc data a b else data
    let limit := if !wasBalanced then limit - 1 else limit
    let ph := choosePivotLessFunc less data a b
    let data := if ph.2 = sortedHint.decreasingHint then reverseRangeLessFunc data a b else data
    let pivot := if ph.2 = sortedHint.decreasingHint then (b - 1) - (ph.1 - a) else ph.1
    let hint := if ph.2 = sortedHint.decreasingHint then sortedHint.increasingHint else ph.2
    let ps :=
      if wasBalanced && wasPartitioned && hint = sortedHint.increasingHint then
        partialInsertionSortLessFunc less data a b
      else (data, false)
    if ps.2 then Round.done ps.1
    else if a > 0 && !less (ps.1.get (a - 1)) (ps.1.get pivot) then
      let pe := partitionEqualLessFunc less ps.1 a b pivot
      Round.equal pe.1 pe.2 limit
    else
      let pt := partitionLessFunc less ps.1 a b pivot
      Round.split pt.1 pt.2.1 limit pt.2.2

/-- Go `pdqsortLessFunc`: sorts `data[a:b]`. The two flags are the loop's `wasBalanced` and
`wasPartitioned`; a further round of the loop is a call on the range that is left, and `fuel`
bounds the depth of calls (every call is on a shorter range). -/
def pdqsortLessFunc (less : α → α → Bool) :
    Nat → Mem α → Nat → Nat → Nat → Bool → Bool → Mem α
  | 0, data, _, _, _, _, _ => data
  | fuel + 1, data, a, b, limit, wasBalanced, wasPartitioned =>
    match pdqsortRound less data a b limit wasBalanced wasPartitioned with
    | Round.done data => data
    | Round.equal data mid limit =>
      pdqsortLessFunc less fuel data mid b limit wasBalanced wasPartitioned
    | Round.split data mid limit alreadyPartitioned =>
      let length := b - a
      let leftLen := mid - a
      let rightLen := b - mid
      let balanceThreshold := length / 8
      if leftLen < rightLen then
        pdqsortLessFunc less fuel (pdqsortLessFunc less fuel data a mid limit true true)
          (mid + 1) b limit (decide (leftLen ≥ balanceThreshold)) alreadyPartitioned
      else
        pdqsortLessFunc less fuel (pdqsortLessFunc less fuel data (mid + 1) b limit true true)
          a mid limit (decide (rightLen ≥ balanceThreshold)) alreadyPartitioned

/-- Go `sort.Slice(x, less)` on the elements of a list: the sorted slice as a list. `less`
compares two elements (the closure of the caller reads them off the slice by index). -/
def Slice (less : α → α → Bool) (x : List α) : List α :=
  match x with
  | [] => []
  | e :: _ =>
    let length := x.length
    let limit := bitsLen length
    let data := pdqsortLessFunc less (length + 1) ⟨fun i => x.getD i e⟩ 0 length limit true true
    (List.range length).map data.get

end SortSlice

/-- The source's `SortByLastModifiedDesc` (files.go:25-29); the slice after the call. -/
def SortByLastModifiedDesc (entries : List CricutFile) : List CricutFile :=
  Slice (fun x y => x.LastModified.After y.LastModified) entries


/-- The slice `d'` is `d` with the elements of `d[a:b]` rearranged. -/
def PermOn {α : Type} (a b : Nat) (d d' : Mem α) : Prop :=
  ∃ σ : Equiv.Perm Nat, (∀ k, ¬(a ≤ k ∧ k < b) → σ k = k) ∧ ∀ k, d'.get k = d.get (σ k)

/-- The keys of `d[a:b]` are in non-decreasing order. -/
def SortedOn {α : Type} (key : α → Int) (d : Mem α) (a b : Nat) : Prop :=
  ∀ i j, a ≤ i → i < j → j < b → key (d.get i) ≤ key (d.get j)

/-- The heap property of `heapSortLessFunc` on the nodes `lo ≤ r` of the heap `d[first:first+hi]`:
no child has a greater key than its parent. -/
def HeapOn {α : Type} (key : α → Int) (d : Mem α) (first lo hi : Nat) : Prop :=
  ∀ r c, lo ≤ r → (c = 2 * r + 1 ∨ c = 2 * r + 2) → c < hi →
    key (d.get (first + c)) ≤ key (d.get (first + r))

/-- What a round of `pdqsortLessFunc` on `d[a:b]` leaves: a sorted range, or a range split
into a sorted part of equal keys and a part of greater keys, or a range partitioned around the
pivot at `mid`; in each case a rearrangement of `d[a:b]`. -/
def RoundOk {α : Type} (key : α → Int) (d : Mem α) (a b : Nat) : Round α → Prop
  | Round.done d' => SortedOn key d' a b ∧ PermOn a b d d'
  | Round.equal d' mid _ =>
    a < mid ∧ mid ≤ b ∧ PermOn a b d d' ∧ SortedOn key d' a mid ∧
      ∀ k m, a ≤ k → k < mid → mid ≤ m → m < b → key (d'.get k) ≤ key (d'.get m)
  | Round.split d' mid _ _ =>
    a ≤ mid ∧ mid < b ∧ PermOn a b d d' ∧
      (∀ k, a ≤ k → k < mid → key (d'.get k) < key (d'.get mid)) ∧
      (∀ k, mid < k → k < b → key (d'.get mid) ≤ key (d'.get k))

/-- The key `SortByLastModifiedDesc` sorts by, in increasing order: the modification time,
negated. -/
def recencyKey (x : CricutFile) : Int := -x.LastModified.unixNano

/-- Three records for samples: modification times 5, 5 and 2. -/
def sampleEntries : List CricutFile :=
  [⟨"a.png", "/d", "/d/a.png", ⟨5⟩⟩, ⟨"b.png", "/d", "/d/b.png", ⟨5⟩⟩,
   ⟨"c.png", "/d", "/d/c.png", ⟨2⟩⟩]
/-! ### Lemmas on the listing closure -/

theorem includes_dir (e : DirEntry) : includes "dir" e = e.IsDir := by
  simp [includes]

theorem listingLoop_ok (ft : String) (es : List DirEntry) (dirs : List FileInfo)
    (h : es.any (fun e => includes ft e && infoFails e) = false) :
    listingLoop ft es dirs = (dirs ++ (es.filter (includes ft)).filterMap infoOf, none) := by
  induction es generalizing dirs with
  | nil => simp [listingLoop]
  | cons e rest ih =>
    simp only [List.any_cons, Bool.or_eq_false_iff] at h
    obtain ⟨h1, h2⟩ := h
    unfold listingLoop
    by_cases hi : includes ft e = true
    · simp only [hi, Bool.true_and] at h1
      unfold infoFails at h1
      cases hm : e.ModTime with
      | error err => simp [hm] at h1
      | ok t =>
        simp [hi, ih _ h2, List.filter_cons, infoOf, hm]
    · simp [hi, ih _ h2, List.filter_cons]

theorem listingLoop_err (ft : String) (es : List DirEntry) (dirs : List FileInfo)
    (h : es.any (fun e => includes ft e && infoFails e) = true) :
    (listingLoop ft es dirs).2 ≠ none := by
  induction es generalizing dirs with
  | nil => simp at h
  | cons e rest ih =>
    unfold listingLoop
    by_cases hi : includes ft e = true
    · cases hm : e.ModTime with
      | error err => simp [hi]
      | ok t =>
        have : rest.any (fun e => includes ft e && infoFails e) = true := by
          simpa [List.any_cons, hi, infoFails, hm] using h
        simpa [hi] using ih _ this
    · have : rest.any (fun e => includes ft e && infoFails e) = true := by
        simpa [List.any_cons, hi] using h
      simpa [hi] using ih _ this

theorem createListing_err (ft : String) (wantDir : Bool) (w : World) (path : String)
    (hft : ∀ e, includes ft e = (e.IsDir == wantDir))
    (h : listingFails wantDir w path = true) : (createListing ft w path).2 ≠ none := by
  unfold createListing
  unfold listingFails at h
  cases hr : w.ReadDir path with
  | error err => simp
  | ok es =>
    rw [hr] at h
    apply listingLoop_err
    simpa [hft] using h

theorem createListing_ok (ft : String) (wantDir : Bool) (w : World) (path : String)
    (hft : ∀ e, includes ft e = (e.IsDir == wantDir))
    (h : listingFails wantDir w path = false) :
    createListing ft w path =
      (((entries w path).filter (fun e => e.IsDir == wantDir)).filterMap infoOf, none) := by
  unfold createListing entries
  unfold listingFails at h
  cases hr : w.ReadDir path with
  | error err => simp [hr] at h
  | ok es =>
    rw [hr] at h
    have h2 : es.any (fun e => includes ft e && infoFails e) = false := by
      simpa [hft] using h
    have hf : (fun e : DirEntry => e.IsDir == wantDir) = includes ft := by
      funext e; rw [hft]
    simp [listingLoop_ok ft es [] h2, hf]

theorem includes_dir_eq (e : DirEntry) : includes "dir" e = (e.IsDir == true) := by
  simp [includes]

theorem includes_file_eq (e : DirEntry) : includes "file" e = (e.IsDir == false) := by
  cases h : e.IsDir <;> simp [includes, h]

theorem listDirectories_err (w : World) (path : String) (h : listingFails true w path = true) :
    (listDirectories w path).2 ≠ none :=
  createListing_err "dir" true w path includes_dir_eq h

theorem listDirectories_ok (w : World) (path : String) (h : listingFails true w path = false) :
    listDirectories w path =
      (((entries w path).filter (fun e => e.IsDir == true)).filterMap infoOf, none) :=
  createListing_ok "dir" true w path includes_dir_eq h

theorem listFiles_err (w : World) (path : String) (h : listingFails false w path = true) :
    (listFiles w path).2 ≠ none :=
  createListing_err "file" false w path includes_file_eq h

theorem listFiles_ok (w : World) (path : String) (h : listingFails false w path = false) :
    listFiles w path =
      (((entries w path).filter (fun e => e.IsDir == false)).filterMap infoOf, none) :=
  createListing_ok "file" false w path includes_file_eq h

theorem fileLoop_eq (w : World) (canvasDir : String) (files : List FileInfo)
    (ret : List CricutFile) :
    fileLoop w canvasDir files ret =
      ret ++ (files.filter (fun f => isImage f.Name)).map (mkRecord w canvasDir) := by
  induction files generalizing ret with
  | nil => simp [fileLoop]
  | cons f rest ih =>
    unfold fileLoop
    by_cases h : isImage f.Name = true
    · have h2 : (Contains f.Name ".png" || Contains f.Name ".PNG") = true := h
      simp [h2, ih, List.filter_cons, h, mkRecord]
    · have h2 : ¬ (Contains f.Name ".png" || Contains f.Name ".PNG") = true := h
      simp [h2, ih, List.filter_cons, h]

theorem leafRecords_eq (w : World) (leaf : String) (es : List DirEntry) :
    (((es.filter (fun e => e.IsDir == false)).filterMap infoOf).filter
        (fun f => isImage f.Name)).map (mkRecord w leaf) =
      ((es.filter (fun f => !f.IsDir && isImage f.Name)).map (fun f => (leaf, f))).filterMap
        (recordOf w) := by
  induction es with
  | nil => simp
  | cons e rest ih =>
    cases hd : e.IsDir <;> cases hi : isImage e.Name <;> cases hm : e.ModTime <;>
      simp_all [List.filter_cons, infoOf, recordOf, mkRecord]

theorem fileLoop_listFiles (w : World) (leaf : String) (ret : List CricutFile)
    (h : listingFails false w leaf = false) :
    fileLoop w leaf (listFiles w leaf).1 ret = ret ++ leafRecords w leaf := by
  rw [listFiles_ok w leaf h, fileLoop_eq]
  simp only [leafRecords, leafImages]
  rw [leafRecords_eq]

/-! ### Lemmas on the loops of the walk -/

theorem canvasLoop_skip (w : World) (top : String) (d : FileInfo) (rest : List FileInfo)
    (ret : List CricutFile) (calls : List Op) (h : isNumeric d.Name = false) :
    canvasLoop w top (d :: rest) ret calls = canvasLoop w top rest ret calls := by
  rw [canvasLoop]; simp [h]

theorem canvasLoop_fail (w : World) (top : String) (d : FileInfo) (rest : List FileInfo)
    (ret : List CricutFile) (calls : List Op) (h : isNumeric d.Name = true)
    (hl : listingFails false w (w.Join [top, d.Name]) = true) :
    (canvasLoop w top (d :: rest) ret calls).ret = ret ∧
    (canvasLoop w top (d :: rest) ret calls).err ≠ none := by
  have := listFiles_err w _ hl
  rw [canvasLoop]
  rcases hf : listFiles w (w.Join [top, d.Name]) with ⟨files, _ | err⟩
  · rw [hf] at this; simp at this
  · simp [h, hf]

theorem canvasLoop_step (w : World) (top : String) (d : FileInfo) (rest : List FileInfo)
    (ret : List CricutFile) (calls : List Op) (h : isNumeric d.Name = true)
    (hl : listingFails false w (w.Join [top, d.Name]) = false) :
    canvasLoop w top (d :: rest) ret calls =
      canvasLoop w top rest (ret ++ leafRecords w (w.Join [top, d.Name]))
        (calls ++ [Op.ReadDir (w.Join [top, d.Name])]) := by
  have hf := fileLoop_listFiles w (w.Join [top, d.Name]) ret hl
  have hok := listFiles_ok w _ hl
  rw [canvasLoop]
  rcases hf2 : listFiles w (w.Join [top, d.Name]) with ⟨files, _ | err⟩
  · rw [hf2] at hf
    simp [h, hf2, hf]
  · rw [hf2] at hok; simp at hok

theorem canvasLoop_spec (w : World) (top : String) (dirs : List FileInfo)
    (ret : List CricutFile) (calls : List Op) :
    ((canvasLoop w top dirs ret calls).err = none ↔
        ∀ c ∈ numericNames dirs, listingFails false w (w.Join [top, c]) = false) ∧
    ∃ pre, (canvasLoop w top dirs ret calls).ret = ret ++ pre ∧
      pre <+: canvasRecords w top (numericNames dirs) ∧
      ((canvasLoop w top dirs ret calls).err = none →
        pre = canvasRecords w top (numericNames dirs)) := by
  induction dirs generalizing ret calls with
  | nil =>
    refine ⟨by simp [canvasLoop, numericNames], [], ?_⟩
    simp [canvasLoop, numericNames, canvasRecords]
  | cons d rest ih =>
    by_cases hn : isNumeric d.Name = true
    · have hnames : numericNames (d :: rest) = d.Name :: numericNames rest := by
        simp [numericNames, List.filter_cons, hn]
      by_cases hl : listingFails false w (w.Join [top, d.Name]) = true
      · obtain ⟨h1, h2⟩ := canvasLoop_fail w top d rest ret calls hn hl
        refine ⟨?_, [], ?_⟩
        · constructor
          · intro h; exact absurd h h2
          · intro h
            have := h d.Name (by simp [hnames])
            rw [hl] at this; simp at this
        · refine ⟨by simp [h1], List.nil_prefix, ?_⟩
          intro h; exact absurd h h2
      · have hl2 : listingFails false w (w.Join [top, d.Name]) = false := by
          simpa using hl
        rw [canvasLoop_step w top d rest ret calls hn hl2]
        obtain ⟨ih1, pre, ih2, ih3, ih4⟩ :=
          ih (ret ++ leafRecords w (w.Join [top, d.Name]))
            (calls ++ [Op.ReadDir (w.Join [top, d.Name])])
        refine ⟨?_, leafRecords w (w.Join [top, d.Name]) ++ pre, ?_, ?_, ?_⟩
        · rw [ih1, hnames]
          simp [hl2]
        · rw [ih2]; simp
        · rw [hnames]
          simp only [canvasRecords, List.flatMap_cons]
          exact (List.prefix_append_right_inj _).mpr ih3
        · intro h
          rw [hnames, ih4 h]
          simp [canvasRecords]
    · have hn2 : isNumeric d.Name = false := by simpa using hn
      have hnames : numericNames (d :: rest) = numericNames rest := by
        simp [numericNames, List.filter_cons, hn2]
      rw [canvasLoop_skip w top d rest ret calls hn2, hnames]
      exact ih ret calls

theorem stat_cases (w : World) (path : String) :
    (checkFails w path = true ∧ absent w path = false ∧ isDirectory w path = false ∧
        ∃ e, pathExists w path = (false, some e)) ∨
    (checkFails w path = false ∧ absent w path = true ∧ isDirectory w path = false ∧
        pathExists w path = (false, none)) ∨
    (checkFails w path = false ∧ absent w path = false ∧ isDirectory w path = true ∧
        pathExists w path = (true, none)) := by
  unfold checkFails absent isDirectory pathExists
  cases h : w.Stat path with
  | error e => cases hn : e.notExist <;> simp [hn]
  | ok info => cases hd : info.IsDir <;> simp [hd]

theorem numericNames_listing (es : List DirEntry)
    (h : es.any (fun e => e.IsDir == true && infoFails e) = false) :
    numericNames ((es.filter (fun e => e.IsDir == true)).filterMap infoOf) =
      (es.filter (fun e => e.IsDir && isNumeric e.Name)).map (fun e => e.Name) := by
  induction es with
  | nil => simp [numericNames]
  | cons e rest ih =>
    simp only [List.any_cons, Bool.or_eq_false_iff] at h
    obtain ⟨h1, h2⟩ := h
    have ih2 := ih h2
    unfold numericNames at ih2 ⊢
    cases hd : e.IsDir <;> cases hi : isNumeric e.Name <;> cases hm : e.ModTime <;>
      simp_all [List.filter_cons, infoOf, infoFails]

theorem numericNames_listDirectories (w : World) (path : String)
    (h : listingFails true w path = false) :
    numericNames (listDirectories w path).1 = numericDirs w path := by
  rw [listDirectories_ok w path h]
  unfold listingFails at h
  unfold numericDirs entries
  cases hr : w.ReadDir path with
  | error err => simp [hr] at h
  | ok es =>
    rw [hr] at h
    exact numericNames_listing es h

theorem projectLoop_skip (w : World) (topDir : String) (d : FileInfo) (rest : List FileInfo)
    (ret : List CricutFile) (calls : List Op) (h : isNumeric d.Name = false) :
    projectLoop w topDir (d :: rest) ret calls = projectLoop w topDir rest ret calls := by
  rw [projectLoop]; simp [h]

theorem projectLoop_checkFails (w : World) (topDir : String) (d : FileInfo)
    (rest : List FileInfo) (ret : List CricutFile) (calls : List Op)
    (h : isNumeric d.Name = true) (e : GoError)
    (hp : pathExists w (w.Join [topDir, d.Name, "Canvas"]) = (false, some e)) :
    (projectLoop w topDir (d :: rest) ret calls).ret = ret ∧
    (projectLoop w topDir (d :: rest) ret calls).err ≠ none := by
  rw [projectLoop]; simp [h, hp]

theorem projectLoop_absent (w : World) (topDir : String) (d : FileInfo)
    (rest : List FileInfo) (ret : List CricutFile) (calls : List Op)
    (h : isNumeric d.Name = true)
    (hp : pathExists w (w.Join [topDir, d.Name, "Canvas"]) = (false, none)) :
    projectLoop w topDir (d :: rest) ret calls =
      projectLoop w topDir rest ret (calls ++ [Op.Stat (w.Join [topDir, d.Name, "Canvas"])]) := by
  rw [projectLoop]; simp [h, hp]

theorem projectLoop_listFails (w : World) (topDir : String) (d : FileInfo)
    (rest : List FileInfo) (ret : List CricutFile) (calls : List Op)
    (h : isNumeric d.Name = true)
    (hp : pathExists w (w.Join [topDir, d.Name, "Canvas"]) = (true, none))
    (hl : (listDirectories w (w.Join [topDir, d.Name, "Canvas"])).2 ≠ none) :
    (projectLoop w topDir (d :: rest) ret calls).ret = ret ∧
    (projectLoop w topDir (d :: rest) ret calls).err ≠ none := by
  rw [projectLoop]
  rcases hf : listDirectories w (w.Join [topDir, d.Name, "Canvas"]) with ⟨dirs, _ | err⟩
  · rw [hf] at hl; simp at hl
  · simp [h, hp, hf]

theorem projectLoop_canvasFails (w : World) (topDir : String) (d : FileInfo)
    (rest : List FileInfo) (ret : List CricutFile) (calls : List Op)
    (h : isNumeric d.Name = true)
    (hp : pathExists w (w.Join [topDir, d.Name, "Canvas"]) = (true, none))
    (hl : (listDirectories w (w.Join [topDir, d.Name, "Canvas"])).2 = none)
    (hc : (canvasLoop w (w.Join [topDir, d.Name, "Canvas"])
            (listDirectories w (w.Join [topDir, d.Name, "Canvas"])).1 ret
            (calls ++ [Op.Stat (w.Join [topDir, d.Name, "Canvas"])] ++
              [Op.ReadDir (w.Join [topDir, d.Name, "Canvas"])])).err ≠ none) :
    projectLoop w topDir (d :: rest) ret calls =
      canvasLoop w (w.Join [topDir, d.Name, "Canvas"])
        (listDirectories w (w.Join [topDir, d.Name, "Canvas"])).1 ret
        (calls ++ [Op.Stat (w.Join [topDir, d.Name, "Canvas"])] ++
          [Op.ReadDir (w.Join [topDir, d.Name, "Canvas"])]) := by
  rw [projectLoop]
  rcases hf : listDirectories w (w.Join [topDir, d.Name, "Canvas"]) with ⟨dirs, _ | err⟩
  · rw [hf] at hc
    simp only [h, hp, hf, Bool.not_true, Bool.false_eq_true, if_false]
    rcases hr : canvasLoop w (w.Join [topDir, d.Name, "Canvas"]) dirs ret
        (calls ++ [Op.Stat (w.Join [topDir, d.Name, "Canvas"])] ++
          [Op.ReadDir (w.Join [topDir, d.Name, "Canvas"])]) with ⟨r, _ | e, c⟩
    · rw [hr] at hc; simp at hc
    · simp
  · rw [hf] at hl; simp at hl

theorem projectLoop_canvasOk (w : World) (topDir : String) (d : FileInfo)
    (rest : List FileInfo) (ret : List CricutFile) (calls : List Op)
    (h : isNumeric d.Name = true)
    (hp : pathExists w (w.Join [topDir, d.Name, "Canvas"]) = (true, none))
    (hl : (listDirectories w (w.Join [topDir, d.Name, "Canvas"])).2 = none)
    (hc : (canvasLoop w (w.Join [topDir, d.Name, "Canvas"])
            (listDirectories w (w.Join [topDir, d.Name, "Canvas"])).1 ret
            (calls ++ [Op.Stat (w.Join [topDir, d.Name, "Canvas"])] ++
              [Op.ReadDir (w.Join [topDir, d.Name, "Canvas"])])).err = none) :
    projectLoop w topDir (d :: rest) ret calls =
      projectLoop w topDir rest
        (canvasLoop w (w.Join [topDir, d.Name, "Canvas"])
          (listDirectories w (w.Join [topDir, d.Name, "Canvas"])).1 ret
          (calls ++ [Op.Stat (w.Join [topDir, d.Name, "Canvas"])] ++
            [Op.ReadDir (w.Join [topDir, d.Name, "Canvas"])])).ret
        (canvasLoop w (w.Join [topDir, d.Name, "Canvas"])
          (listDirectories w (w.Join [topDir, d.Name, "Canvas"])).1 ret
          (calls ++ [Op.Stat (w.Join [topDir, d.Name, "Canvas"])] ++
            [Op.ReadDir (w.Join [topDir, d.Name, "Canvas"])])).calls := by
  rw [projectLoop]
  rcases hf : listDirectories w (w.Join [topDir, d.Name, "Canvas"]) with ⟨dirs, _ | err⟩
  · rw [hf] at hc
    simp only [h, hp, hf, Bool.not_true, Bool.false_eq_true, if_false]
    rcases hr : canvasLoop w (w.Join [topDir, d.Name, "Canvas"]) dirs ret
        (calls ++ [Op.Stat (w.Join [topDir, d.Name, "Canvas"])] ++
          [Op.ReadDir (w.Join [topDir, d.Name, "Canvas"])]) with ⟨r, _ | e, c⟩
    · simp
    · rw [hr] at hc; simp at hc
  · rw [hf] at hl; simp at hl

theorem projectLoop_spec (w : World) (dirs : List FileInfo)
    (ret : List CricutFile) (calls : List Op) :
    ((projectLoop w (localData w) dirs ret calls).err = none ↔
        ∀ p ∈ numericNames dirs, projectFatal w p = false) ∧
    ∃ pre, (projectLoop w (localData w) dirs ret calls).ret = ret ++ pre ∧
      pre <+: walkRecords w (numericNames dirs) ∧
      ((projectLoop w (localData w) dirs ret calls).err = none →
        pre = walkRecords w (numericNames dirs)) := by
  induction dirs generalizing ret calls with
  | nil =>
    refine ⟨by simp [projectLoop, numericNames], [], ?_⟩
    simp [projectLoop, numericNames, walkRecords]
  | cons d rest ih =>
    by_cases hn : isNumeric d.Name = true
    · have hnames : numericNames (d :: rest) = d.Name :: numericNames rest := by
        simp [numericNames, List.filter_cons, hn]
      have hfatal : ∀ {P : Prop}, projectFatal w d.Name = true →
          ((∀ p ∈ numericNames (d :: rest), projectFatal w p = false) → P) := by
        intro P hf h
        have := h d.Name (by simp [hnames])
        rw [hf] at this; simp at this
      have hstop : ∀ R : Result, R.ret = ret → R.err ≠ none →
          projectFatal w d.Name = true →
          (R.err = none ↔ ∀ p ∈ numericNames (d :: rest), projectFatal w p = false) ∧
          ∃ pre, R.ret = ret ++ pre ∧ pre <+: walkRecords w (numericNames (d :: rest)) ∧
            (R.err = none → pre = walkRecords w (numericNames (d :: rest))) := by
        intro R h1 h2 hf
        refine ⟨⟨fun h => absurd h h2, hfatal hf⟩, [], by simp [h1], List.nil_prefix,
          fun h => absurd h h2⟩
      rcases stat_cases w (canvasOf w d.Name) with
        ⟨hc, _, hdir, e, hp⟩ | ⟨hc, _, hdir, hp⟩ | ⟨hc, _, hdir, hp⟩
      · -- the check of `Canvas` fails
        obtain ⟨h1, h2⟩ := projectLoop_checkFails w (localData w) d rest ret calls hn e hp
        exact hstop _ h1 h2 (by simp [projectFatal, hc])
      · -- `Canvas` is absent: the project is skipped
        have hp2 : pathExists w (w.Join [localData w, d.Name, "Canvas"]) = (false, none) := hp
        rw [projectLoop_absent w (localData w) d rest ret calls hn hp2]
        obtain ⟨ih1, pre, ih2, ih3, ih4⟩ :=
          ih ret (calls ++ [Op.Stat (w.Join [localData w, d.Name, "Canvas"])])
        have hrec : projectRecords w d.Name = [] := by simp [projectRecords, hdir]
        have hpf : projectFatal w d.Name = false := by simp [projectFatal, hc, hdir]
        refine ⟨?_, pre, ih2, ?_, ?_⟩
        · rw [ih1, hnames]; simp [hpf]
        · rw [hnames]; simpa [walkRecords, hrec] using ih3
        · intro h; rw [hnames, ih4 h]; simp [walkRecords, hrec]
      · -- `Canvas` is a directory
        have hp2 : pathExists w (w.Join [localData w, d.Name, "Canvas"]) = (true, none) := hp
        by_cases hl : listingFails true w (canvasOf w d.Name) = true
        · have hl2 := listDirectories_err w _ hl
          obtain ⟨h1, h2⟩ := projectLoop_listFails w (localData w) d rest ret calls hn hp2 hl2
          exact hstop _ h1 h2 (by simp [projectFatal, hdir, hl])
        · have hl2 : listingFails true w (canvasOf w d.Name) = false := by simpa using hl
          have hlist : (listDirectories w (w.Join [localData w, d.Name, "Canvas"])).2 = none := by
            have := listDirectories_ok w _ hl2
            unfold canvasOf at this
            rw [this]
          have hnn := numericNames_listDirectories w _ hl2
          obtain ⟨c1, cpre, c2, c3, c4⟩ :=
            canvasLoop_spec w (w.Join [localData w, d.Name, "Canvas"])
              (listDirectories w (w.Join [localData w, d.Name, "Canvas"])).1 ret
              (calls ++ [Op.Stat (w.Join [localData w, d.Name, "Canvas"])] ++
                [Op.ReadDir (w.Join [localData w, d.Name, "Canvas"])])
          have hnn2 : numericNames (listDirectories w (w.Join [localData w, d.Name, "Canvas"])).1
              = numericDirs w (canvasOf w d.Name) := hnn
          rw [hnn2] at c1 c3 c4
          have hrec : projectRecords w d.Name =
              canvasRecords w (canvasOf w d.Name) (numericDirs w (canvasOf w d.Name)) := by
            simp [projectRecords, hdir]
          have hpf : projectFatal w d.Name = false ↔
              ∀ c ∈ numericDirs w (canvasOf w d.Name),
                listingFails false w (leafOf w d.Name c) = false := by
            simp [projectFatal, hc, hdir, hl2]
          by_cases hcl : (canvasLoop w (w.Join [localData w, d.Name, "Canvas"])
              (listDirectories w (w.Join [localData w, d.Name, "Canvas"])).1 ret
              (calls ++ [Op.Stat (w.Join [localData w, d.Name, "Canvas"])] ++
                [Op.ReadDir (w.Join [localData w, d.Name, "Canvas"])])).err = none
          · rw [projectLoop_canvasOk w (localData w) d rest ret calls hn hp2 hlist hcl]
            obtain ⟨ih1, pre, ih2, ih3, ih4⟩ :=
              ih (canvasLoop w (w.Join [localData w, d.Name, "Canvas"])
                  (listDirectories w (w.Join [localData w, d.Name, "Canvas"])).1 ret
                  (calls ++ [Op.Stat (w.Join [localData w, d.Name, "Canvas"])] ++
                    [Op.ReadDir (w.Join [localData w, d.Name, "Canvas"])])).ret
                (canvasLoop w (w.Join [localData w, d.Name, "Canvas"])
                  (listDirectories w (w.Join [localData w, d.Name, "Canvas"])).1 ret
                  (calls ++ [Op.Stat (w.Join [localData w, d.Name, "Canvas"])] ++
                    [Op.ReadDir (w.Join [localData w, d.Name, "Canvas"])])).calls
            have hcp := c4 hcl
            have hpf2 : projectFatal w d.Name = false := hpf.mpr (c1.mp hcl)
            refine ⟨?_, cpre ++ pre, ?_, ?_, ?_⟩
            · rw [ih1, hnames]; simp [hpf2]
            · rw [ih2, c2]; simp
            · rw [hnames, hcp]
              simp only [walkRecords, List.flatMap_cons, hrec]
              exact (List.prefix_append_right_inj _).mpr ih3
            · intro h
              rw [hnames, ih4 h, hcp]
              simp [walkRecords, hrec, canvasOf]
          · rw [projectLoop_canvasFails w (localData w) d rest ret calls hn hp2 hlist hcl]
            have hpf2 : projectFatal w d.Name = true := by
              by_contra hne
              have hne2 : projectFatal w d.Name = false := by simpa using hne
              exact hcl (c1.mpr (hpf.mp hne2))
            refine ⟨⟨fun h => absurd h hcl, hfatal hpf2⟩, cpre, c2, ?_, fun h => absurd h hcl⟩
            rw [hnames]
            simp only [walkRecords, List.flatMap_cons, hrec]
            exact c3.trans (List.prefix_append _ _)
    · have hn2 : isNumeric d.Name = false := by simpa using hn
      have hnames : numericNames (d :: rest) = numericNames rest := by
        simp [numericNames, List.filter_cons, hn2]
      rw [projectLoop_skip w (localData w) d rest ret calls hn2, hnames]
      exact ih ret calls

/-! ### The stages of `GetCricutFiles` -/

theorem GetCricutFiles_cricutDir_checkFails (w : World) (b : Bool) (e : GoError)
    (h : pathExists w (cricutDir w) = (b, some e)) :
    GetCricutFiles w =
      ⟨[], some (Errorf ("error checking if cricut directory exists: " ++ e.msg)),
        [Op.Stat (cricutDir w)]⟩ := by
  unfold cricutDir at h
  unfold GetCricutFiles
  simp only [h]
  rfl

theorem GetCricutFiles_cricutDir_absent (w : World)
    (h : pathExists w (cricutDir w) = (false, none)) :
    GetCricutFiles w =
      ⟨[], some (Errorf ("Cricut directory does not exist at " ++ cricutDir w)),
        [Op.Stat (cricutDir w)]⟩ := by
  unfold cricutDir at h
  unfold GetCricutFiles
  simp only [h]
  rfl

theorem GetCricutFiles_localData_checkFails (w : World) (b : Bool) (e : GoError)
    (h1 : pathExists w (cricutDir w) = (true, none))
    (h : pathExists w (localData w) = (b, some e)) :
    GetCricutFiles w =
      ⟨[], some (Errorf ("error checking if cricut directory exists: " ++ e.msg)),
        [Op.Stat (cricutDir w), Op.Stat (localData w)]⟩ := by
  unfold localData at h
  unfold cricutDir at h1 h
  unfold GetCricutFiles
  simp only [h1, h]
  rfl

theorem GetCricutFiles_localData_absent (w : World)
    (h1 : pathExists w (cricutDir w) = (true, none))
    (h : pathExists w (localData w) = (false, none)) :
    GetCricutFiles w =
      ⟨[], some (Errorf ("Cricut directory does not exist at " ++ localData w)),
        [Op.Stat (cricutDir w), Op.Stat (localData w)]⟩ := by
  unfold localData at h
  unfold cricutDir at h1 h
  unfold GetCricutFiles
  simp only [h1, h]
  rfl

theorem GetCricutFiles_listing_fails (w : World)
    (h1 : pathExists w (cricutDir w) = (true, none))
    (h2 : pathExists w (localData w) = (true, none))
    (h : (listDirectories w (localData w)).2 ≠ none) :
    (GetCricutFiles w).ret = [] ∧ (GetCricutFiles w).err ≠ none := by
  unfold localData at h h2
  unfold cricutDir at h1 h2 h
  unfold GetCricutFiles
  simp only [h1, h2]
  rcases hf : listDirectories w
      (w.Join [w.Join [getHomeDir w, CRICUT_DIR_NAME], "LocalData"]) with ⟨dirs, _ | err⟩
  · rw [hf] at h; simp at h
  · simp

theorem GetCricutFiles_walk (w : World)
    (h1 : pathExists w (cricutDir w) = (true, none))
    (h2 : pathExists w (localData w) = (true, none))
    (h : (listDirectories w (localData w)).2 = none) :
    GetCricutFiles w =
      projectLoop w (localData w) (listDirectories w (localData w)).1 []
        [Op.Stat (cricutDir w), Op.Stat (localData w), Op.ReadDir (localData w)] := by
  unfold localData at h h2 ⊢
  unfold cricutDir at h1 h2 h ⊢
  unfold GetCricutFiles
  simp only [h1, h2]
  rcases hf : listDirectories w
      (w.Join [w.Join [getHomeDir w, CRICUT_DIR_NAME], "LocalData"]) with ⟨dirs, _ | err⟩
  · simp
  · rw [hf] at h; simp at h

theorem filterMap_flatMap {α β γ : Type} (f : β → Option γ) (g : α → List β) (l : List α) :
    (l.flatMap g).filterMap f = l.flatMap (fun a => (g a).filterMap f) := by
  induction l with
  | nil => simp
  | cons a rest ih => simp [List.flatMap_cons, List.filterMap_append, ih]

theorem expected_eq (w : World) :
    expected w = walkRecords w (numericDirs w (localData w)) := by
  unfold expected qualifying walkRecords
  rw [filterMap_flatMap]
  congr 1
  funext p
  unfold projectRecords
  by_cases hd : isDirectory w (canvasOf w p) = true
  · simp only [hd, if_true]
    rw [filterMap_flatMap]
    rfl
  · simp [hd]

/-- The three facts every claim about the walk rests on: the call fails exactly on a fatal
condition, what it returns is an initial segment of the expected records, and all of them when
it does not fail. -/
theorem GetCricutFiles_spec (w : World) :
    ((GetCricutFiles w).err = none ↔ fatal w = false) ∧
    (GetCricutFiles w).ret <+: expected w ∧
    ((GetCricutFiles w).err = none → (GetCricutFiles w).ret = expected w) := by
  have hstop : ∀ R : Result, R.ret = [] → R.err ≠ none → fatal w = true →
      (R.err = none ↔ fatal w = false) ∧ R.ret <+: expected w ∧
        (R.err = none → R.ret = expected w) := by
    intro R h1 h2 hf
    refine ⟨⟨fun h => absurd h h2, fun h => by rw [hf] at h; simp at h⟩, ?_,
      fun h => absurd h h2⟩
    rw [h1]; exact List.nil_prefix
  rcases stat_cases w (cricutDir w) with
    ⟨hc, ha, hdir, e, hp⟩ | ⟨hc, ha, hdir, hp⟩ | ⟨hc, ha, hdir, hp⟩
  · rw [GetCricutFiles_cricutDir_checkFails w false e hp]
    exact hstop _ rfl (by simp) (by simp [fatal, hc])
  · rw [GetCricutFiles_cricutDir_absent w hp]
    exact hstop _ rfl (by simp) (by simp [fatal, ha])
  · rcases stat_cases w (localData w) with
      ⟨hc2, ha2, hdir2, e, hp2⟩ | ⟨hc2, ha2, hdir2, hp2⟩ | ⟨hc2, ha2, hdir2, hp2⟩
    · rw [GetCricutFiles_localData_checkFails w false e hp hp2]
      exact hstop _ rfl (by simp) (by simp [fatal, hc2])
    · rw [GetCricutFiles_localData_absent w hp hp2]
      exact hstop _ rfl (by simp) (by simp [fatal, ha2])
    · by_cases hl : listingFails true w (localData w) = true
      · obtain ⟨r1, r2⟩ :=
          GetCricutFiles_listing_fails w hp hp2 (listDirectories_err w _ hl)
        exact hstop _ r1 r2 (by simp [fatal, hl])
      · have hl2 : listingFails true w (localData w) = false := by simpa using hl
        have hlist : (listDirectories w (localData w)).2 = none := by
          rw [listDirectories_ok w _ hl2]
        rw [GetCricutFiles_walk w hp hp2 hlist, expected_eq]
        obtain ⟨p1, pre, p2, p3, p4⟩ :=
          projectLoop_spec w (listDirectories w (localData w)).1 []
            [Op.Stat (cricutDir w), Op.Stat (localData w), Op.ReadDir (localData w)]
        rw [numericNames_listDirectories w _ hl2] at p1 p3 p4
        have hfat : fatal w = false ↔
            ∀ p ∈ numericDirs w (localData w), projectFatal w p = false := by
          simp [fatal, hc, ha, hc2, ha2, hl2]
        refine ⟨p1.trans hfat.symm, ?_, ?_⟩
        · rw [p2]; simpa using p3
        · intro h; rw [p2, p4 h]; simp

/-! ### What the walk has collected when it stops -/

theorem canvasLoop_ret (w : World) (top : String) (dirs : List FileInfo)
    (ret : List CricutFile) (calls : List Op) :
    (canvasLoop w top dirs ret calls).ret =
      ret ++ ((numericNames dirs).takeWhile
        (fun c => !listingFails false w (w.Join [top, c]))).flatMap
          (fun c => leafRecords w (w.Join [top, c])) := by
  induction dirs generalizing ret calls with
  | nil => simp [canvasLoop, numericNames]
  | cons d rest ih =>
    by_cases hn : isNumeric d.Name = true
    · have hnames : numericNames (d :: rest) = d.Name :: numericNames rest := by
        simp [numericNames, List.filter_cons, hn]
      by_cases hl : listingFails false w (w.Join [top, d.Name]) = true
      · rw [(canvasLoop_fail w top d rest ret calls hn hl).1, hnames]
        simp [List.takeWhile_cons, hl]
      · have hl2 : listingFails false w (w.Join [top, d.Name]) = false := by
          simpa using hl
        rw [canvasLoop_step w top d rest ret calls hn hl2, ih, hnames]
        simp [List.takeWhile_cons, hl2]
    · have hn2 : isNumeric d.Name = false := by simpa using hn
      have hnames : numericNames (d :: rest) = numericNames rest := by
        simp [numericNames, List.filter_cons, hn2]
      rw [canvasLoop_skip w top d rest ret calls hn2, hnames]
      exact ih ret calls

theorem collectedFrom_cons (w : World) (p : String) (rest : List String) :
    collectedFrom w (p :: rest) =
      if projectFatal w p = true then collectedOf w p
      else projectRecords w p ++ collectedFrom w rest := by
  unfold collectedFrom
  by_cases hf : projectFatal w p = true
  · simp [List.takeWhile_cons, List.find?_cons, hf]
  · have hf2 : projectFatal w p = false := by simpa using hf
    simp [List.takeWhile_cons, List.find?_cons, hf2]

theorem projectLoop_ret (w : World) (dirs : List FileInfo)
    (ret : List CricutFile) (calls : List Op) :
    (projectLoop w (localData w) dirs ret calls).ret =
      ret ++ collectedFrom w (numericNames dirs) := by
  induction dirs generalizing ret calls with
  | nil => simp [projectLoop, numericNames, collectedFrom]
  | cons d rest ih =>
    by_cases hn : isNumeric d.Name = true
    · have hnames : numericNames (d :: rest) = d.Name :: numericNames rest := by
        simp [numericNames, List.filter_cons, hn]
      rw [hnames, collectedFrom_cons]
      rcases stat_cases w (canvasOf w d.Name) with
        ⟨hc, _, hdir, e, hp⟩ | ⟨hc, _, hdir, hp⟩ | ⟨hc, _, hdir, hp⟩
      · -- the check of `Canvas` fails
        rw [(projectLoop_checkFails w (localData w) d rest ret calls hn e hp).1]
        simp [projectFatal, hc, collectedOf, hdir]
      · -- `Canvas` is absent: the project is skipped
        have hp2 : pathExists w (w.Join [localData w, d.Name, "Canvas"]) = (false, none) := hp
        rw [projectLoop_absent w (localData w) d rest ret calls hn hp2, ih]
        simp [projectFatal, hc, hdir, projectRecords]
      · -- `Canvas` is a directory
        have hp2 : pathExists w (w.Join [localData w, d.Name, "Canvas"]) = (true, none) := hp
        by_cases hl : listingFails true w (canvasOf w d.Name) = true
        · have hl2 := listDirectories_err w _ hl
          rw [(projectLoop_listFails w (localData w) d rest ret calls hn hp2 hl2).1]
          simp [projectFatal, hdir, hl, collectedOf]
        · have hl2 : listingFails true w (canvasOf w d.Name) = false := by simpa using hl
          have hlist : (listDirectories w (w.Join [localData w, d.Name, "Canvas"])).2 = none := by
            have := listDirectories_ok w _ hl2
            unfold canvasOf at this
            rw [this]
          have hnn : numericNames (listDirectories w (w.Join [localData w, d.Name, "Canvas"])).1
              = numericDirs w (canvasOf w d.Name) := numericNames_listDirectories w _ hl2
          obtain ⟨c1, cpre, c2, _, c4⟩ :=
            canvasLoop_spec w (w.Join [localData w, d.Name, "Canvas"])
              (listDirectories w (w.Join [localData w, d.Name, "Canvas"])).1 ret
              (calls ++ [Op.Stat (w.Join [localData w, d.Name, "Canvas"])] ++
                [Op.ReadDir (w.Join [localData w, d.Name, "Canvas"])])
          have hret := canvasLoop_ret w (w.Join [localData w, d.Name, "Canvas"])
              (listDirectories w (w.Join [localData w, d.Name, "Canvas"])).1 ret
              (calls ++ [Op.Stat (w.Join [localData w, d.Name, "Canvas"])] ++
                [Op.ReadDir (w.Join [localData w, d.Name, "Canvas"])])
          rw [hnn] at c1 c4 hret
          have hcol : collectedOf w d.Name =
              ((numericDirs w (canvasOf w d.Name)).takeWhile
                (fun c => !listingFails false w (w.Join [w.Join [localData w, d.Name, "Canvas"], c]))).flatMap
                  (fun c => leafRecords w (w.Join [w.Join [localData w, d.Name, "Canvas"], c])) := by
            unfold collectedOf
            rw [if_pos (by simp [hdir, hl2])]
            rfl
          have hrec : projectRecords w d.Name =
              canvasRecords w (canvasOf w d.Name) (numericDirs w (canvasOf w d.Name)) := by
            simp [projectRecords, hdir]
          have hpf : projectFatal w d.Name = false ↔
              ∀ c ∈ numericDirs w (canvasOf w d.Name),
                listingFails false w (leafOf w d.Name c) = false := by
            simp [projectFatal, hc, hdir, hl2]
          by_cases hcl : (canvasLoop w (w.Join [localData w, d.Name, "Canvas"])
              (listDirectories w (w.Join [localData w, d.Name, "Canvas"])).1 ret
              (calls ++ [Op.Stat (w.Join [localData w, d.Name, "Canvas"])] ++
                [Op.ReadDir (w.Join [localData w, d.Name, "Canvas"])])).err = none
          · rw [projectLoop_canvasOk w (localData w) d rest ret calls hn hp2 hlist hcl, ih]
            have hpf2 : projectFatal w d.Name = false := hpf.mpr (c1.mp hcl)
            rw [c2, c4 hcl, hrec]
            simp [hpf2, canvasOf]
          · rw [projectLoop_canvasFails w (localData w) d rest ret calls hn hp2 hlist hcl]
            have hpf2 : projectFatal w d.Name = true := by
              by_contra hne
              have hne2 : projectFatal w d.Name = false := by simpa using hne
              exact hcl (c1.mpr (hpf.mp hne2))
            rw [hret, hcol]
            simp [hpf2]
    · have hn2 : isNumeric d.Name = false := by simpa using hn
      have hnames : numericNames (d :: rest) = numericNames rest := by
        simp [numericNames, List.filter_cons, hn2]
      rw [projectLoop_skip w (localData w) d rest ret calls hn2, hnames]
      exact ih ret calls

/-- What `GetCricutFiles` returns, with or without an error, is what the walk has collected
before its first failure. -/
theorem GetCricutFiles_ret (w : World) : (GetCricutFiles w).ret = collected w := by
  rcases stat_cases w (cricutDir w) with
    ⟨hc, ha, hdir, e, hp⟩ | ⟨hc, ha, hdir, hp⟩ | ⟨hc, ha, hdir, hp⟩
  · rw [GetCricutFiles_cricutDir_checkFails w false e hp]
    simp [collected, hdir]
  · rw [GetCricutFiles_cricutDir_absent w hp]
    simp [collected, hdir]
  · rcases stat_cases w (localData w) with
      ⟨hc2, ha2, hdir2, e, hp2⟩ | ⟨hc2, ha2, hdir2, hp2⟩ | ⟨hc2, ha2, hdir2, hp2⟩
    · rw [GetCricutFiles_localData_checkFails w false e hp hp2]
      simp [collected, hdir2]
    · rw [GetCricutFiles_localData_absent w hp hp2]
      simp [collected, hdir2]
    · by_cases hl : listingFails true w (localData w) = true
      · rw [(GetCricutFiles_listing_fails w hp hp2 (listDirectories_err w _ hl)).1]
        simp [collected, hl]
      · have hl2 : listingFails true w (localData w) = false := by simpa using hl
        have hlist : (listDirectories w (localData w)).2 = none := by
          rw [listDirectories_ok w _ hl2]
        rw [GetCricutFiles_walk w hp hp2 hlist, projectLoop_ret,
          numericNames_listDirectories w _ hl2]
        simp [collected, hdir, hdir2, hl2]

theorem mem_qualifying (w : World) (q : String × DirEntry) :
    q ∈ qualifying w ↔
      ∃ p ∈ numericDirs w (localData w), isDirectory w (canvasOf w p) = true ∧
        ∃ c ∈ numericDirs w (canvasOf w p),
          q.1 = leafOf w p c ∧ q.2 ∈ entries w (leafOf w p c) ∧
            q.2.IsDir = false ∧ isImage q.2.Name = true := by
  unfold qualifying leafImages
  simp only [List.mem_flatMap]
  constructor
  · rintro ⟨p, hp, hq⟩
    by_cases hd : isDirectory w (canvasOf w p) = true
    · simp only [hd, if_true, List.mem_flatMap, List.mem_map, List.mem_filter] at hq
      obtain ⟨c, hc, f, ⟨hf1, hf2⟩, rfl⟩ := hq
      refine ⟨p, hp, hd, c, hc, rfl, hf1, ?_⟩
      simpa using hf2
    · simp [hd] at hq
  · rintro ⟨p, hp, hd, c, hc, h1, h2, h3, h4⟩
    refine ⟨p, hp, ?_⟩
    simp only [hd, if_true, List.mem_flatMap, List.mem_map, List.mem_filter]
    refine ⟨c, hc, q.2, ⟨h2, by simp [h3, h4]⟩, ?_⟩
    rw [← h1]

theorem qualifying_info_ok (w : World) (h : fatal w = false) (q : String × DirEntry)
    (hq : q ∈ qualifying w) : ∃ t, q.2.ModTime = .ok t := by
  obtain ⟨p, hp, hd, c, hc, h1, h2, h3, _⟩ := (mem_qualifying w q).mp hq
  have hpf : projectFatal w p = false := by
    simp only [fatal, Bool.or_eq_false_iff, List.any_eq_false] at h
    simpa using h.2 p hp
  have hl : listingFails false w (leafOf w p c) = false := by
    simp only [projectFatal, Bool.or_eq_false_iff, hd, Bool.true_and, List.any_eq_false] at hpf
    simpa using hpf.2.2 c hc
  unfold listingFails at hl
  unfold entries at h2
  cases hr : w.ReadDir (leafOf w p c) with
  | error e => simp [hr] at hl
  | ok es =>
    rw [hr] at hl h2
    simp only [List.any_eq_false] at hl
    have := hl q.2 h2
    simp only [h3, beq_self_eq_true, Bool.true_and] at this
    unfold infoFails at this
    cases hm : q.2.ModTime with
    | error e => simp [hm] at this
    | ok t => exact ⟨t, rfl⟩

theorem forall₂_filterMap {α β : Type} (f : α → Option β) (P : α → β → Prop) (l : List α)
    (h : ∀ a ∈ l, ∃ b, f a = some b ∧ P a b) : List.Forall₂ P l (l.filterMap f) := by
  induction l with
  | nil => simp
  | cons a rest ih =>
    obtain ⟨b, hb, hP⟩ := h a (by simp)
    rw [List.filterMap_cons_some hb]
    exact List.Forall₂.cons hP (ih (fun x hx => h x (by simp [hx])))

/-! ### The claims on the walk -/

/-- C1: when no fatal condition is met (both anchors are directories, no check and no listing
fails), `GetCricutFiles` returns no error and exactly one record per qualifying entry, in walk
order: a non-directory entry `f` of a leaf `LocalData/<p>/Canvas/<c>` with `p` and `c`
directories of numeric name and the name of `f` containing `.png` or `.PNG`. The record has the
name of `f`, the leaf as `Path`, `Join [Path, Name]` as `FullPath` and the reported modification
time of `f`; there are as many records as qualifying entries. -/
theorem GetCricutFiles_one_record_per_image (w : World) (h : fatal w = false) :
    (GetCricutFiles w).err = none ∧
    List.Forall₂
      (fun q r => r.Name = q.2.Name ∧ r.Path = q.1 ∧ r.FullPath = w.Join [r.Path, r.Name] ∧
        q.2.ModTime = .ok r.LastModified)
      (qualifying w) (GetCricutFiles w).ret ∧
    (GetCricutFiles w).ret.length = (qualifying w).length := by
  obtain ⟨s1, _, s3⟩ := GetCricutFiles_spec w
  have herr := s1.mpr h
  have hret := s3 herr
  have hall : List.Forall₂
      (fun q r => r.Name = q.2.Name ∧ r.Path = q.1 ∧ r.FullPath = w.Join [r.Path, r.Name] ∧
        q.2.ModTime = .ok r.LastModified)
      (qualifying w) ((qualifying w).filterMap (recordOf w)) := by
    apply forall₂_filterMap
    intro q hq
    obtain ⟨t, ht⟩ := qualifying_info_ok w h q hq
    exact ⟨⟨q.2.Name, q.1, w.Join [q.1, q.2.Name], t⟩, by simp [recordOf, ht], rfl, rfl, rfl, ht⟩
  refine ⟨herr, ?_, ?_⟩
  · rw [hret]; exact hall
  · rw [hret]; exact hall.length_eq.symm

/-- C1, on the sample tree: three images, three records. -/
theorem GetCricutFiles_one_record_per_image_witness :
    fatal sampleWorld = false ∧
    ((GetCricutFiles sampleWorld).err = none ∧
      List.Forall₂
        (fun q r => r.Name = q.2.Name ∧ r.Path = q.1 ∧
          r.FullPath = sampleWorld.Join [r.Path, r.Name] ∧ q.2.ModTime = .ok r.LastModified)
        (qualifying sampleWorld) (GetCricutFiles sampleWorld).ret ∧
      (GetCricutFiles sampleWorld).ret.length = (qualifying sampleWorld).length) :=
  ⟨by decide, GetCricutFiles_one_record_per_image sampleWorld (by decide)⟩

/-- C2 as stated fails: with project `3` closed to the user, the check of its `Canvas` fails,
and `GetCricutFiles` returns the error together with the two records already collected from
project `1`. -/
theorem GetCricutFiles_keeps_records_on_error :
    (GetCricutFiles brokenWorld).err =
      some (Errorf ("error checking if canvas directory exists: " ++
        "stat /home/u/.cricut-design-space/LocalData/3/Canvas: permission denied")) ∧
    (GetCricutFiles brokenWorld).ret =
      [⟨"b.PNG", "/home/u/.cricut-design-space/LocalData/1/Canvas/10",
         "/home/u/.cricut-design-space/LocalData/1/Canvas/10/b.PNG", ⟨300⟩⟩,
       ⟨"photo.png", "/home/u/.cricut-design-space/LocalData/1/Canvas/10",
         "/home/u/.cricut-design-space/LocalData/1/Canvas/10/photo.png", ⟨100⟩⟩] := by
  decide

/-- C2, amended: when `GetCricutFiles` returns an error a fatal condition was met, and the
sequence returned with the error is made of the records collected before the failure, all of
them and nothing else: the records of the projects walked before the one that failed, then
those of the leaf directories of that project walked before the failure. It is an initial
segment of the records of the qualifying entries; it is empty when the failure is at an anchor
or at the listing of `LocalData`, and need not be when the failure comes later. -/
theorem GetCricutFiles_error_result (w : World) (h : (GetCricutFiles w).err ≠ none) :
    fatal w = true ∧
    (GetCricutFiles w).ret = collected w ∧
    (GetCricutFiles w).ret <+: expected w ∧
    ((absent w (cricutDir w) || checkFails w (cricutDir w) || absent w (localData w) ||
        checkFails w (localData w) || listingFails true w (localData w)) = true →
      (GetCricutFiles w).ret = []) := by
  have hfat : fatal w = true := by
    by_contra hne
    have hne2 : fatal w = false := by simpa using hne
    exact h ((GetCricutFiles_spec w).1.mpr hne2)
  refine ⟨hfat, GetCricutFiles_ret w, (GetCricutFiles_spec w).2.1, ?_⟩
  intro hstage
  rcases stat_cases w (cricutDir w) with
    ⟨hc, ha, hdir, e, hp⟩ | ⟨hc, ha, hdir, hp⟩ | ⟨hc, ha, hdir, hp⟩
  · rw [GetCricutFiles_cricutDir_checkFails w false e hp]
  · rw [GetCricutFiles_cricutDir_absent w hp]
  · rcases stat_cases w (localData w) with
      ⟨hc2, ha2, hdir2, e, hp2⟩ | ⟨hc2, ha2, hdir2, hp2⟩ | ⟨hc2, ha2, hdir2, hp2⟩
    · rw [GetCricutFiles_localData_checkFails w false e hp hp2]
    · rw [GetCricutFiles_localData_absent w hp hp2]
    · have hl : listingFails true w (localData w) = true := by
        simpa [hc, ha, hc2, ha2] using hstage
      exact (GetCricutFiles_listing_fails w hp hp2 (listDirectories_err w _ hl)).1

/-- C2 amended, on the sample hosts: a failure inside the walk, after two records were
collected, and a failure at the anchor. -/
theorem GetCricutFiles_error_result_witness :
    ((GetCricutFiles brokenWorld).err ≠ none ∧
      (GetCricutFiles brokenWorld).ret = collected brokenWorld ∧
      collected brokenWorld =
        [⟨"b.PNG", "/home/u/.cricut-design-space/LocalData/1/Canvas/10",
           "/home/u/.cricut-design-space/LocalData/1/Canvas/10/b.PNG", ⟨300⟩⟩,
         ⟨"photo.png", "/home/u/.cricut-design-space/LocalData/1/Canvas/10",
           "/home/u/.cricut-design-space/LocalData/1/Canvas/10/photo.png", ⟨100⟩⟩]) ∧
    ((GetCricutFiles noAnchorWorld).err ≠ none ∧ (GetCricutFiles noAnchorWorld).ret = []) :=
  ⟨⟨by decide, (GetCricutFiles_error_result brokenWorld (by decide)).2.1, by decide⟩,
   ⟨by decide, (GetCricutFiles_error_result noAnchorWorld (by decide)).2.2.2 (by decide)⟩⟩

/-- C3: when `<home>/.cricut-design-space` is absent, or is a directory whose `LocalData` is
absent, `GetCricutFiles` returns the error `Cricut directory does not exist at <path>` for that
path, an empty sequence, and reads no directory. -/
theorem GetCricutFiles_anchor_missing (w : World) (path : String)
    (h : (path = cricutDir w ∧ absent w (cricutDir w) = true) ∨
         (path = localData w ∧ isDirectory w (cricutDir w) = true ∧
            absent w (localData w) = true)) :
    (GetCricutFiles w).err = some (Errorf ("Cricut directory does not exist at " ++ path)) ∧
    (GetCricutFiles w).ret = [] ∧
    ∀ q, Op.ReadDir q ∉ (GetCricutFiles w).calls := by
  rcases h with ⟨rfl, ha⟩ | ⟨rfl, hd, ha⟩
  · rcases stat_cases w (cricutDir w) with
      ⟨_, ha2, _, _, _⟩ | ⟨_, _, _, hp⟩ | ⟨_, ha2, _, _⟩
    · rw [ha] at ha2; simp at ha2
    · rw [GetCricutFiles_cricutDir_absent w hp]; simp
    · rw [ha] at ha2; simp at ha2
  · rcases stat_cases w (cricutDir w) with
      ⟨_, _, hd2, _, _⟩ | ⟨_, _, hd2, _⟩ | ⟨_, _, _, hp⟩
    · rw [hd] at hd2; simp at hd2
    · rw [hd] at hd2; simp at hd2
    · rcases stat_cases w (localData w) with
        ⟨_, ha2, _, _, _⟩ | ⟨_, _, _, hp2⟩ | ⟨_, ha2, _, _⟩
      · rw [ha] at ha2; simp at ha2
      · rw [GetCricutFiles_localData_absent w hp hp2]; simp
      · rw [ha] at ha2; simp at ha2

/-- C3, on the sample hosts: user `v` has no anchor, user `n` has no `LocalData`. -/
theorem GetCricutFiles_anchor_missing_witness :
    ((GetCricutFiles noAnchorWorld).err =
        some (Errorf ("Cricut directory does not exist at " ++ "/home/v/.cricut-design-space")) ∧
      (GetCricutFiles noAnchorWorld).ret = [] ∧
      ∀ q, Op.ReadDir q ∉ (GetCricutFiles noAnchorWorld).calls) ∧
    ((GetCricutFiles noDataWorld).err =
        some (Errorf ("Cricut directory does not exist at " ++
          "/home/n/.cricut-design-space/LocalData")) ∧
      (GetCricutFiles noDataWorld).ret = [] ∧
      ∀ q, Op.ReadDir q ∉ (GetCricutFiles noDataWorld).calls) :=
  ⟨GetCricutFiles_anchor_missing noAnchorWorld "/home/v/.cricut-design-space"
      (Or.inl ⟨by decide, by decide⟩),
   GetCricutFiles_anchor_missing noDataWorld "/home/n/.cricut-design-space/LocalData"
      (Or.inr ⟨by decide, by decide, by decide⟩)⟩

/-- C10: `GetCricutFiles` returns an error exactly when a fatal condition is met: an anchor is
absent or its check fails, listing `LocalData` fails, or for a numeric project directory the
check of its `Canvas` fails, or listing its `Canvas` directory fails, or listing one of its
numeric leaf directories fails. Nothing else (names that are not numeric, a missing `Canvas`,
files that do not match, no match at all) produces an error. -/
theorem GetCricutFiles_error_iff_fatal (w : World) :
    (GetCricutFiles w).err ≠ none ↔ fatal w = true := by
  rw [Ne, (GetCricutFiles_spec w).1]
  simp

/-- C5: in a walk that succeeds, a file `f` found in a numeric leaf directory has its record in
the result if and only if its name contains `.png` or `.PNG` somewhere (not only at the end):
`photo.png`, `photo.PNG`, `foo.pngBAR` and `a.pngfile.txt` pass the test, `photo.jpg` and
`notes.txt` do not. -/
theorem GetCricutFiles_includes_iff_image (w : World) (h : (GetCricutFiles w).err = none)
    (p c : String) (hp : p ∈ numericDirs w (localData w))
    (hd : isDirectory w (canvasOf w p) = true) (hc : c ∈ numericDirs w (canvasOf w p))
    (f : DirEntry) (hf : f ∈ entries w (leafOf w p c)) (hfile : f.IsDir = false) :
    ((∃ r ∈ (GetCricutFiles w).ret, recordOf w (leafOf w p c, f) = some r) ↔
      (Contains f.Name ".png" = true ∨ Contains f.Name ".PNG" = true)) ∧
    (Contains "photo.png" ".png" || Contains "photo.png" ".PNG") = true ∧
    (Contains "photo.PNG" ".png" || Contains "photo.PNG" ".PNG") = true ∧
    (Contains "foo.pngBAR" ".png" || Contains "foo.pngBAR" ".PNG") = true ∧
    (Contains "a.pngfile.txt" ".png" || Contains "a.pngfile.txt" ".PNG") = true ∧
    (Contains "photo.jpg" ".png" || Contains "photo.jpg" ".PNG") = false ∧
    (Contains "notes.txt" ".png" || Contains "notes.txt" ".PNG") = false := by
  refine ⟨?_, by decide, by decide, by decide, by decide, by decide, by decide⟩
  obtain ⟨s1, _, s3⟩ := GetCricutFiles_spec w
  have hfat := s1.mp h
  rw [s3 h]
  have himg : (Contains f.Name ".png" = true ∨ Contains f.Name ".PNG" = true) ↔
      isImage f.Name = true := by
    simp [isImage]
  rw [himg]
  constructor
  · rintro ⟨r, hr, hrec⟩
    obtain ⟨q, hq, hqr⟩ := List.mem_filterMap.mp hr
    obtain ⟨_, _, _, _, _, _, _, _, hqi⟩ := (mem_qualifying w q).mp hq
    have hname : q.2.Name = f.Name := by
      unfold recordOf at hrec hqr
      cases hm : q.2.ModTime with
      | error e => simp [hm] at hqr
      | ok t =>
        cases hm2 : f.ModTime with
        | error e => simp [hm2] at hrec
        | ok t2 =>
          simp only [hm] at hqr
          simp only [hm2] at hrec
          have h1 := Option.some.inj hqr
          have h2 := Option.some.inj hrec
          rw [← h1] at h2
          exact (congrArg CricutFile.Name h2).symm
    rw [← hname]; exact hqi
  · intro hi
    have hq : (leafOf w p c, f) ∈ qualifying w :=
      (mem_qualifying w _).mpr ⟨p, hp, hd, c, hc, rfl, hf, hfile, hi⟩
    obtain ⟨t, ht⟩ := qualifying_info_ok w hfat _ hq
    have ht : f.ModTime = .ok t := ht
    refine ⟨⟨f.Name, leafOf w p c, w.Join [leafOf w p c, f.Name], t⟩, ?_, ?_⟩
    · exact List.mem_filterMap.mpr ⟨_, hq, by simp [recordOf, ht]⟩
    · simp [recordOf, ht]

/-- C5, on the sample tree: `photo.png` of leaf `1/Canvas/10` is in the result. -/
theorem GetCricutFiles_includes_iff_image_witness :
    ∃ r ∈ (GetCricutFiles sampleWorld).ret,
      recordOf sampleWorld (leafOf sampleWorld "1" "10", fileEntry "photo.png" 100) = some r :=
  (GetCricutFiles_includes_iff_image sampleWorld (by decide) "1" "10" (by decide) (by decide)
    (by decide) (fileEntry "photo.png" 100) (by decide) (by decide)).1.mpr (Or.inl (by decide))

/-! ### How the walk depends on the host -/

theorem fileLoop_congr (w w' : World) (hJ : w'.Join = w.Join) (canvasDir : String)
    (files : List FileInfo) (ret : List CricutFile) :
    fileLoop w' canvasDir files ret = fileLoop w canvasDir files ret := by
  induction files generalizing ret with
  | nil => simp [fileLoop]
  | cons f rest ih => simp only [fileLoop, hJ, ih]

theorem canvasLoop_congr (w w' : World) (hJ : w'.Join = w.Join) (top : String)
    (hF : ∀ c, isNumeric c = true →
      listFiles w' (w.Join [top, c]) = listFiles w (w.Join [top, c]))
    (dirs : List FileInfo) (ret : List CricutFile) (calls : List Op) :
    canvasLoop w' top dirs ret calls = canvasLoop w top dirs ret calls := by
  induction dirs generalizing ret calls with
  | nil => simp [canvasLoop]
  | cons d rest ih =>
    by_cases hn : isNumeric d.Name = true
    · simp only [canvasLoop, hJ, hF d.Name hn, fileLoop_congr w w' hJ, ih]
    · have hn2 : isNumeric d.Name = false := by simpa using hn
      rw [canvasLoop_skip w' top d rest ret calls hn2,
        canvasLoop_skip w top d rest ret calls hn2]
      exact ih ret calls

theorem canvasLoop_filter (w : World) (top : String) (dirs : List FileInfo)
    (ret : List CricutFile) (calls : List Op) :
    canvasLoop w top (dirs.filter (fun d => isNumeric d.Name)) ret calls =
      canvasLoop w top dirs ret calls := by
  induction dirs generalizing ret calls with
  | nil => simp
  | cons d rest ih =>
    by_cases hn : isNumeric d.Name = true
    · simp only [List.filter_cons, hn, if_true]
      simp only [canvasLoop, hn, ih]
    · have hn2 : isNumeric d.Name = false := by simpa using hn
      simp only [List.filter_cons, hn, if_false]
      rw [canvasLoop_skip w top d rest ret calls hn2]
      exact ih ret calls

theorem canvasLoop_calls (w : World) (top : String) (dirs : List FileInfo)
    (ret : List CricutFile) (c1 c2 : List Op) :
    (canvasLoop w top dirs ret c1).ret = (canvasLoop w top dirs ret c2).ret ∧
    (canvasLoop w top dirs ret c1).err = (canvasLoop w top dirs ret c2).err := by
  induction dirs generalizing ret c1 c2 with
  | nil => simp [canvasLoop]
  | cons d rest ih =>
    simp only [canvasLoop]
    split
    · exact ih _ _ _
    · split
      · simp
      · exact ih _ _ _

theorem pathExists_congr (w w' : World) (hS : w'.Stat = w.Stat) (path : String) :
    pathExists w' path = pathExists w path := by
  simp only [pathExists, hS]

theorem projectLoop_congr (w w' : World) (hJ : w'.Join = w.Join) (hS : w'.Stat = w.Stat)
    (topDir : String)
    (hC : ∀ a, isNumeric a = true →
      sameNumeric (listDirectories w' (w.Join [topDir, a, "Canvas"]))
        (listDirectories w (w.Join [topDir, a, "Canvas"])))
    (hF : ∀ a c, isNumeric a = true → isNumeric c = true →
      listFiles w' (w.Join [w.Join [topDir, a, "Canvas"], c]) =
        listFiles w (w.Join [w.Join [topDir, a, "Canvas"], c]))
    (dirs : List FileInfo) (ret : List CricutFile) (calls : List Op) :
    projectLoop w' topDir dirs ret calls = projectLoop w topDir dirs ret calls := by
  induction dirs generalizing ret calls with
  | nil => simp [projectLoop]
  | cons d rest ih =>
    by_cases hn : isNumeric d.Name = true
    · obtain ⟨hc1, hc2⟩ := hC d.Name hn
      have hcl : ∀ l r c, canvasLoop w' (w.Join [topDir, d.Name, "Canvas"]) l r c =
          canvasLoop w (w.Join [topDir, d.Name, "Canvas"]) l r c :=
        canvasLoop_congr w w' hJ _ (fun c hc => hF d.Name c hn hc)
      rw [projectLoop, projectLoop]
      simp only [hJ, pathExists_congr w w' hS, hn, Bool.not_true, Bool.false_eq_true, if_false]
      rcases hp : pathExists w (w.Join [topDir, d.Name, "Canvas"]) with ⟨b, _ | e⟩
      · cases b
        · simp only [ih]
        · simp only []
          rcases h1 : listDirectories w (w.Join [topDir, d.Name, "Canvas"]) with ⟨l, _ | e⟩
          · rcases h2 : listDirectories w' (w.Join [topDir, d.Name, "Canvas"]) with ⟨l', _ | e'⟩
            · rw [h1, h2] at hc2
              have hfl := hc2 rfl
              simp only at hfl
              simp only [hcl]
              rw [← canvasLoop_filter w _ l', hfl, canvasLoop_filter w _ l]
              simp only [ih]
            · rw [h1, h2] at hc1; simp at hc1
          · rcases h2 : listDirectories w' (w.Join [topDir, d.Name, "Canvas"]) with ⟨l', _ | e'⟩
            · rw [h1, h2] at hc1; simp at hc1
            · rw [h1, h2] at hc1
              simp only [Option.some.injEq] at hc1
              simp [hc1]
      · simp
    · have hn2 : isNumeric d.Name = false := by simpa using hn
      rw [projectLoop_skip w' topDir d rest ret calls hn2,
        projectLoop_skip w topDir d rest ret calls hn2]
      exact ih ret calls

theorem projectLoop_append_rel (w : World) (topDir : String) (X Y : List FileInfo)
    (hb : ∀ ret c1 c2,
      (projectLoop w topDir X ret c1).ret = (projectLoop w topDir Y ret c2).ret ∧
      (projectLoop w topDir X ret c1).err = (projectLoop w topDir Y ret c2).err)
    (dirs : List FileInfo) (ret : List CricutFile) (c1 c2 : List Op) :
    (projectLoop w topDir (dirs ++ X) ret c1).ret =
      (projectLoop w topDir (dirs ++ Y) ret c2).ret ∧
    (projectLoop w topDir (dirs ++ X) ret c1).err =
      (projectLoop w topDir (dirs ++ Y) ret c2).err := by
  induction dirs generalizing ret c1 c2 with
  | nil => simpa using hb ret c1 c2
  | cons d rest ih =>
    simp only [List.cons_append]
    by_cases hn : isNumeric d.Name = true
    · rw [projectLoop, projectLoop]
      simp only [hn, Bool.not_true, Bool.false_eq_true, if_false]
      rcases hp : pathExists w (w.Join [topDir, d.Name, "Canvas"]) with ⟨b, _ | e⟩
      · cases b
        · exact ih _ _ _
        · simp only []
          rcases h1 : listDirectories w (w.Join [topDir, d.Name, "Canvas"]) with ⟨l, _ | e⟩
          · simp only []
            obtain ⟨k1, k2⟩ := canvasLoop_calls w (w.Join [topDir, d.Name, "Canvas"]) l ret
              (c1 ++ [Op.Stat (w.Join [topDir, d.Name, "Canvas"])] ++
                [Op.ReadDir (w.Join [topDir, d.Name, "Canvas"])])
              (c2 ++ [Op.Stat (w.Join [topDir, d.Name, "Canvas"])] ++
                [Op.ReadDir (w.Join [topDir, d.Name, "Canvas"])])
            rcases hr1 : canvasLoop w (w.Join [topDir, d.Name, "Canvas"]) l ret
              (c1 ++ [Op.Stat (w.Join [topDir, d.Name, "Canvas"])] ++
                [Op.ReadDir (w.Join [topDir, d.Name, "Canvas"])]) with ⟨r1, e1, k1'⟩
            rcases hr2 : canvasLoop w (w.Join [topDir, d.Name, "Canvas"]) l ret
              (c2 ++ [Op.Stat (w.Join [topDir, d.Name, "Canvas"])] ++
                [Op.ReadDir (w.Join [topDir, d.Name, "Canvas"])]) with ⟨r2, e2, k2'⟩
            rw [hr1, hr2] at k1 k2
            simp only at k1 k2
            subst k1 k2
            cases e1
            · exact ih _ _ _
            · simp
          · simp
      · simp
    · have hn2 : isNumeric d.Name = false := by simpa using hn
      rw [projectLoop_skip w topDir d _ ret c1 hn2, projectLoop_skip w topDir d _ ret c2 hn2]
      exact ih ret c1 c2

theorem projectLoop_calls (w : World) (topDir : String) (dirs : List FileInfo)
    (ret : List CricutFile) (c1 c2 : List Op) :
    (projectLoop w topDir dirs ret c1).ret = (projectLoop w topDir dirs ret c2).ret ∧
    (projectLoop w topDir dirs ret c1).err = (projectLoop w topDir dirs ret c2).err := by
  have := projectLoop_append_rel w topDir [] [] (by simp [projectLoop]) dirs ret c1 c2
  simpa using this

theorem projectLoop_remove_absent (w : World) (topDir : String) (d : FileInfo)
    (hp : pathExists w (w.Join [topDir, d.Name, "Canvas"]) = (false, none))
    (A B : List FileInfo) (ret : List CricutFile) (c1 c2 : List Op) :
    (projectLoop w topDir (A ++ d :: B) ret c1).ret =
      (projectLoop w topDir (A ++ B) ret c2).ret ∧
    (projectLoop w topDir (A ++ d :: B) ret c1).err =
      (projectLoop w topDir (A ++ B) ret c2).err := by
  apply projectLoop_append_rel
  intro ret c1 c2
  by_cases hn : isNumeric d.Name = true
  · rw [projectLoop_absent w topDir d B ret c1 hn hp]
    exact projectLoop_calls w topDir B ret _ _
  · have hn2 : isNumeric d.Name = false := by simpa using hn
    rw [projectLoop_skip w topDir d B ret c1 hn2]
    exact projectLoop_calls w topDir B ret _ _

/-! ### Removing an entry from a listing -/

theorem listingLoop_err_indep (ft : String) (es : List DirEntry) (d1 d2 : List FileInfo) :
    (listingLoop ft es d1).2 = (listingLoop ft es d2).2 := by
  induction es generalizing d1 d2 with
  | nil => simp [listingLoop]
  | cons e rest ih =>
    simp only [listingLoop]
    split
    · split
      · simp
      · exact ih _ _
    · exact ih _ _

theorem listingLoop_remove_err (ft : String) (pre : List DirEntry) (e : DirEntry)
    (post : List DirEntry) (dirs : List FileInfo) (he : infoFails e = false) :
    (listingLoop ft (pre ++ e :: post) dirs).2 = (listingLoop ft (pre ++ post) dirs).2 := by
  induction pre generalizing dirs with
  | nil =>
    simp only [List.nil_append]
    rw [listingLoop]
    unfold infoFails at he
    split
    · split
      · rename_i hm; simp [hm] at he
      · exact listingLoop_err_indep _ _ _ _
    · rfl
  | cons a rest ih =>
    simp only [List.cons_append, listingLoop]
    split
    · split
      · simp
      · exact ih _
    · exact ih _

theorem listingLoop_none (ft : String) (es : List DirEntry) (dirs : List FileInfo)
    (h : (listingLoop ft es dirs).2 = none) :
    listingLoop ft es dirs = (dirs ++ (es.filter (includes ft)).filterMap infoOf, none) := by
  apply listingLoop_ok
  by_contra hne
  have : es.any (fun e => includes ft e && infoFails e) = true := by simpa using hne
  exact listingLoop_err ft es dirs this h

theorem createListing_withReadDir_ne (ft : String) (w : World) (path : String)
    (es : List DirEntry) (q : String) (h : q ≠ path) :
    createListing ft (w.withReadDir path es) q = createListing ft w q := by
  simp [createListing, World.withReadDir, h]

theorem createListing_withReadDir_eq (ft : String) (w : World) (path : String)
    (es : List DirEntry) :
    createListing ft (w.withReadDir path es) path = listingLoop ft es [] := by
  simp [createListing, World.withReadDir]

theorem createListing_of_readDir (ft : String) (w : World) (path : String)
    (es : List DirEntry) (h : w.ReadDir path = .ok es) :
    createListing ft w path = listingLoop ft es [] := by
  simp [createListing, h]

theorem sameNumeric_refl (a : List FileInfo × Option GoError) : sameNumeric a a :=
  ⟨rfl, fun _ => rfl⟩

theorem GetCricutFiles_listing_fails_eq (w : World)
    (h1 : pathExists w (cricutDir w) = (true, none))
    (h2 : pathExists w (localData w) = (true, none))
    (err : GoError) (h : (listDirectories w (localData w)).2 = some err) :
    GetCricutFiles w =
      ⟨[], some err, [Op.Stat (cricutDir w), Op.Stat (localData w), Op.ReadDir (localData w)]⟩ := by
  unfold localData at h h2 ⊢
  unfold cricutDir at h1 h2 h ⊢
  unfold GetCricutFiles
  simp only [h1, h2]
  rcases hf : listDirectories w
      (w.Join [w.Join [getHomeDir w, CRICUT_DIR_NAME], "LocalData"]) with ⟨dirs, _ | err2⟩
  · rw [hf] at h; simp at h
  · rw [hf] at h
    simp only [Option.some.injEq] at h
    simp [h]

theorem numericDirs_of_readDir (w : World) (path : String) (es : List DirEntry)
    (h : w.ReadDir path = .ok es) :
    numericDirs w path = (es.filter (fun d => d.IsDir && isNumeric d.Name)).map (fun d => d.Name) := by
  simp [numericDirs, entries, h]

/-- C7: a numeric project directory without a `Canvas` directory (its `Info()` succeeding) is
skipped. It contributes no record and meets no fatal condition, and `GetCricutFiles` returns
the same sequence and the same error, or none, as on the host whose `LocalData` listing lacks
that project. When that host meets no fatal condition, `GetCricutFiles` returns no error and
the result is made of all the records of the numeric projects listed before the skipped one,
followed by all the records of those listed after it. The path of `LocalData` is taken to
differ from the paths of the `Canvas` and leaf directories of numeric names below it. -/
theorem GetCricutFiles_skips_project_without_canvas (w : World)
    (pre post : List DirEntry) (e : DirEntry)
    (hlist : w.ReadDir (localData w) = .ok (pre ++ e :: post))
    (hdir : e.IsDir = true) (hnum : isNumeric e.Name = true) (hinfo : infoFails e = false)
    (habs : absent w (canvasOf w e.Name) = true)
    (hproper : ∀ a c, isNumeric a = true → isNumeric c = true →
      canvasOf w a ≠ localData w ∧ leafOf w a c ≠ localData w) :
    (GetCricutFiles (w.withReadDir (localData w) (pre ++ post))).ret = (GetCricutFiles w).ret ∧
    (GetCricutFiles (w.withReadDir (localData w) (pre ++ post))).err = (GetCricutFiles w).err ∧
    projectRecords w e.Name = [] ∧ projectFatal w e.Name = false ∧
    (fatal (w.withReadDir (localData w) (pre ++ post)) = false →
      (GetCricutFiles w).err = none ∧
      (GetCricutFiles w).ret =
        walkRecords w ((pre.filter (fun d => d.IsDir && isNumeric d.Name)).map (fun d => d.Name)) ++
        walkRecords w
          ((post.filter (fun d => d.IsDir && isNumeric d.Name)).map (fun d => d.Name))) := by
  have hskip : isDirectory w (canvasOf w e.Name) = false ∧
      checkFails w (canvasOf w e.Name) = false := by
    rcases stat_cases w (canvasOf w e.Name) with
      ⟨_, ha, _, _, _⟩ | ⟨hc, _, hd, _⟩ | ⟨_, ha, _, _⟩
    · rw [habs] at ha; simp at ha
    · exact ⟨hd, hc⟩
    · rw [habs] at ha; simp at ha
  have hrec0 : projectRecords w e.Name = [] := by simp [projectRecords, hskip.1]
  have hfat0 : projectFatal w e.Name = false := by simp [projectFatal, hskip.1, hskip.2]
  suffices hmain :
      (GetCricutFiles (w.withReadDir (localData w) (pre ++ post))).ret = (GetCricutFiles w).ret ∧
      (GetCricutFiles (w.withReadDir (localData w) (pre ++ post))).err =
        (GetCricutFiles w).err by
    refine ⟨hmain.1, hmain.2, hrec0, hfat0, ?_⟩
    intro hok
    have herr' := (GetCricutFiles_spec (w.withReadDir (localData w) (pre ++ post))).1.mpr hok
    have herr : (GetCricutFiles w).err = none := by rw [← hmain.2]; exact herr'
    refine ⟨herr, ?_⟩
    rw [(GetCricutFiles_spec w).2.2 herr, expected_eq, numericDirs_of_readDir w _ _ hlist]
    simp [walkRecords, List.filter_cons, hdir, hnum, hrec0]
  have hS : ∀ q, pathExists (w.withReadDir (localData w) (pre ++ post)) q = pathExists w q :=
    fun q => pathExists_congr w _ rfl q
  have hcd : cricutDir (w.withReadDir (localData w) (pre ++ post)) = cricutDir w := rfl
  have hld : localData (w.withReadDir (localData w) (pre ++ post)) = localData w := rfl
  rcases stat_cases w (cricutDir w) with
    ⟨_, _, _, e1, hp⟩ | ⟨_, _, _, hp⟩ | ⟨_, _, _, hp⟩
  · rw [GetCricutFiles_cricutDir_checkFails w false e1 hp,
      GetCricutFiles_cricutDir_checkFails _ false e1 (by rw [hcd, hS]; exact hp)]
    simp
  · rw [GetCricutFiles_cricutDir_absent w hp,
      GetCricutFiles_cricutDir_absent _ (by rw [hcd, hS]; exact hp)]
    simp [hcd]
  · have hp' : pathExists (w.withReadDir (localData w) (pre ++ post))
        (cricutDir (w.withReadDir (localData w) (pre ++ post))) = (true, none) := by
      rw [hcd, hS]; exact hp
    rcases stat_cases w (localData w) with
      ⟨_, _, _, e2, hp2⟩ | ⟨_, _, _, hp2⟩ | ⟨_, _, _, hp2⟩
    · rw [GetCricutFiles_localData_checkFails w false e2 hp hp2,
        GetCricutFiles_localData_checkFails _ false e2 hp' (by rw [hld, hS]; exact hp2)]
      simp
    · rw [GetCricutFiles_localData_absent w hp hp2,
        GetCricutFiles_localData_absent _ hp' (by rw [hld, hS]; exact hp2)]
      simp [hld]
    · have hp2' : pathExists (w.withReadDir (localData w) (pre ++ post))
          (localData (w.withReadDir (localData w) (pre ++ post))) = (true, none) := by
        rw [hld, hS]; exact hp2
      have hl : listDirectories w (localData w) = listingLoop "dir" (pre ++ e :: post) [] :=
        createListing_of_readDir "dir" w _ _ hlist
      have hl' : listDirectories (w.withReadDir (localData w) (pre ++ post))
          (localData (w.withReadDir (localData w) (pre ++ post))) =
          listingLoop "dir" (pre ++ post) [] := by
        rw [hld]; exact createListing_withReadDir_eq "dir" w _ _
      have herr := listingLoop_remove_err "dir" pre e post [] hinfo
      cases hres : (listingLoop "dir" (pre ++ e :: post) []).2 with
      | some err =>
        rw [GetCricutFiles_listing_fails_eq w hp hp2 err (by rw [hl]; exact hres),
          GetCricutFiles_listing_fails_eq _ hp' hp2' err (by rw [hl', ← herr]; exact hres)]
        simp
      | none =>
        have hres' : (listingLoop "dir" (pre ++ post) []).2 = none := by rw [← herr]; exact hres
        rw [GetCricutFiles_walk w hp hp2 (by rw [hl]; exact hres),
          GetCricutFiles_walk _ hp' hp2' (by rw [hl']; exact hres')]
        rw [hl', hld, hl]
        have hloop := projectLoop_congr w (w.withReadDir (localData w) (pre ++ post)) rfl rfl
          (localData w)
          (fun a ha => by
            have : listDirectories (w.withReadDir (localData w) (pre ++ post))
                (w.Join [localData w, a, "Canvas"]) =
                listDirectories w (w.Join [localData w, a, "Canvas"]) :=
              createListing_withReadDir_ne "dir" w _ _ _ (hproper a a ha ha).1
            rw [this]; exact sameNumeric_refl _)
          (fun a c ha hc => createListing_withReadDir_ne "file" w _ _ _ (hproper a c ha hc).2)
        rw [hloop]
        rw [listingLoop_none "dir" _ [] hres, listingLoop_none "dir" _ [] hres']
        simp only [List.nil_append, List.filter_append, List.filterMap_append]
        have hinc : includes "dir" e = true := by rw [includes_dir]; exact hdir
        unfold infoFails at hinfo
        cases hm : e.ModTime with
        | error err => simp [hm] at hinfo
        | ok t =>
          have hcons : List.filterMap infoOf (List.filter (includes "dir") (e :: post)) =
              ⟨e.Name, e.IsDir, t⟩ :: List.filterMap infoOf (List.filter (includes "dir") post) := by
            simp [List.filter_cons, hinc, infoOf, hm]
          rw [hcons]
          have hpe : pathExists w (w.Join [localData w,
              (⟨e.Name, e.IsDir, t⟩ : FileInfo).Name, "Canvas"]) = (false, none) := by
            rcases stat_cases w (canvasOf w e.Name) with
              ⟨_, ha, _, _, _⟩ | ⟨_, _, _, hq⟩ | ⟨_, ha, _, _⟩
            · rw [habs] at ha; simp at ha
            · exact hq
            · rw [habs] at ha; simp at ha
          obtain ⟨r1, r2⟩ := projectLoop_remove_absent w (localData w) ⟨e.Name, e.IsDir, t⟩ hpe
            (List.filterMap infoOf (List.filter (includes "dir") pre))
            (List.filterMap infoOf (List.filter (includes "dir") post)) []
            [Op.Stat (cricutDir w), Op.Stat (localData w), Op.ReadDir (localData w)]
            [Op.Stat (cricutDir (w.withReadDir (localData w) (pre ++ post))),
              Op.Stat (localData w), Op.ReadDir (localData w)]
          exact ⟨r1.symm, r2.symm⟩

theorem sampleJoin_three_length (x a : String) (hx : x ≠ "") :
    x.length < (sampleJoin [x, a, "Canvas"]).length := by
  unfold sampleJoin
  have hs : ("/" : String).length = 1 := by decide
  have hcv : ("Canvas" : String).length = 6 := by decide
  have hx2 : (x != "") = true := by simpa using hx
  by_cases ha : a = ""
  · subst ha
    have h0 : (("" : String) != "") = false := by decide
    simp only [List.filter, hx2, h0, String.intercalate, String.intercalate.go,
      String.length_append]
    omega
  · have ha2 : (a != "") = true := by simpa using ha
    simp only [List.filter, hx2, ha2, String.intercalate, String.intercalate.go,
      String.length_append]
    omega

theorem sampleJoin_two_length (y c : String) (hy : y ≠ "") :
    y.length ≤ (sampleJoin [y, c]).length := by
  unfold sampleJoin
  have hy2 : (y != "") = true := by simpa using hy
  by_cases hc : c = ""
  · subst hc
    have h0 : (("" : String) != "") = false := by decide
    simp only [List.filter, hy2, h0, String.intercalate, String.intercalate.go]
    omega
  · have hc2 : (c != "") = true := by simpa using hc
    simp only [List.filter, hy2, hc2, String.intercalate, String.intercalate.go,
      String.length_append]
    omega

theorem sampleWorld_proper (a c : String) :
    canvasOf sampleWorld a ≠ localData sampleWorld ∧
    leafOf sampleWorld a c ≠ localData sampleWorld := by
  have hL : localData sampleWorld ≠ "" := by decide
  have h1 : (localData sampleWorld).length < (canvasOf sampleWorld a).length :=
    sampleJoin_three_length _ a hL
  have hy : canvasOf sampleWorld a ≠ "" := by
    intro h; rw [h] at h1; simp at h1
  have h2 : (canvasOf sampleWorld a).length ≤ (leafOf sampleWorld a c).length :=
    sampleJoin_two_length _ c hy
  constructor
  · intro h; rw [h] at h1; omega
  · intro h; rw [h] at h2; omega

/-- C7, on the sample tree: project `2` has no `Canvas`; the result is that of the tree
without it, and holds the two records of project `1`, listed before it, and the record of
project `3`, listed after it. -/
theorem GetCricutFiles_skips_project_without_canvas_witness :
    ((GetCricutFiles (sampleWorld.withReadDir (localData sampleWorld)
        ([dirEntry "1"] ++ [dirEntry "3", dirEntry "abc", fileEntry "stray.png" 5]))).ret =
      (GetCricutFiles sampleWorld).ret ∧
    (GetCricutFiles (sampleWorld.withReadDir (localData sampleWorld)
        ([dirEntry "1"] ++ [dirEntry "3", dirEntry "abc", fileEntry "stray.png" 5]))).err =
      (GetCricutFiles sampleWorld).err) ∧
    ((GetCricutFiles sampleWorld).err = none ∧
      (GetCricutFiles sampleWorld).ret =
        walkRecords sampleWorld ["1"] ++ walkRecords sampleWorld ["3"]) ∧
    walkRecords sampleWorld ["1"] =
      [⟨"b.PNG", "/home/u/.cricut-design-space/LocalData/1/Canvas/10",
         "/home/u/.cricut-design-space/LocalData/1/Canvas/10/b.PNG", ⟨300⟩⟩,
       ⟨"photo.png", "/home/u/.cricut-design-space/LocalData/1/Canvas/10",
         "/home/u/.cricut-design-space/LocalData/1/Canvas/10/photo.png", ⟨100⟩⟩] ∧
    walkRecords sampleWorld ["3"] =
      [⟨"a.pngfile.txt", "/home/u/.cricut-design-space/LocalData/3/Canvas/30",
         "/home/u/.cricut-design-space/LocalData/3/Canvas/30/a.pngfile.txt", ⟨50⟩⟩] :=
  have h := GetCricutFiles_skips_project_without_canvas sampleWorld [dirEntry "1"]
    [dirEntry "3", dirEntry "abc", fileEntry "stray.png" 5] (dirEntry "2") (by decide)
    (by decide) (by decide) (by decide) (by decide) (fun a c _ _ => sampleWorld_proper a c)
  ⟨⟨h.1, h.2.1⟩, h.2.2.2.2 (by decide), by decide, by decide⟩

/-! ### `isNumeric` -/

theorem ParseInt10_range (t : String) (n : Int) (h : ParseInt10 t = (n, none)) :
    -(2 : Int) ^ 63 ≤ n ∧ n < (2 : Int) ^ 63 := by
  unfold ParseInt10 at h
  cases hd : t.data with
  | nil => rw [hd] at h; simp at h
  | cons c cs =>
    rw [hd] at h
    simp only at h
    generalize (if (c == '+' || c == '-') = true then cs else c :: cs) = body at h
    rcases hu : ParseUint10 body with ⟨un, _ | err⟩
    · rw [hu] at h
      simp only at h
      split_ifs at h with h1 h2 h3
      · simp at h
      · simp at h
      · simp only [Prod.mk.injEq, and_true] at h
        simp at h1 h2
        have := h2 (by simpa using h3)
        omega
      · simp only [Prod.mk.injEq, and_true] at h
        simp at h1 h2
        have hc : (c == '-') = false := by simpa using h3
        have := h1 (by simpa using h3)
        omega
    · cases err
      · rw [hu] at h; simp at h
      · rw [hu] at h
        simp only at h
        split_ifs at h with h1 h2 h3
        · simp at h
        · simp at h
        · simp only [Prod.mk.injEq, and_true] at h
          simp at h1 h2
          have := h2 (by simpa using h3)
          omega
        · simp only [Prod.mk.injEq, and_true] at h
          simp at h1 h2
          have := h1 (by simpa using h3)
          omega

/-! ### `isNumeric`: the white space around a name -/

theorem dropWhile_append_all {α : Type} (p : α → Bool) (pre l : List α)
    (h : ∀ c ∈ pre, p c = true) : (pre ++ l).dropWhile p = l.dropWhile p := by
  induction pre with
  | nil => rfl
  | cons a rest ih =>
    have ha := h a (by simp)
    simp only [List.cons_append, List.dropWhile_cons, ha, if_true]
    exact ih (fun c hc => h c (by simp [hc]))

theorem dropWhile_append_ne_nil {α : Type} (p : α → Bool) (l post : List α)
    (h : l.dropWhile p ≠ []) : (l ++ post).dropWhile p = l.dropWhile p ++ post := by
  induction l with
  | nil => simp at h
  | cons a rest ih =>
    by_cases ha : p a = true
    · simp only [List.cons_append, List.dropWhile_cons, ha, if_true] at h ⊢
      exact ih h
    · simp [List.dropWhile_cons, ha]

theorem dropWhile_all_false {α : Type} (p : α → Bool) (l : List α)
    (h : ∀ c, l.head? = some c → p c = false) : l.dropWhile p = l := by
  cases l with
  | nil => rfl
  | cons a rest => simp [List.dropWhile_cons, h a rfl]

theorem trimSpaceChars_pad (pre l post : List Char) (h1 : ∀ c ∈ pre, isSpace c = true)
    (h2 : ∀ c ∈ post, isSpace c = true) :
    trimSpaceChars (pre ++ l ++ post) = trimSpaceChars l := by
  unfold trimSpaceChars
  rw [List.append_assoc, dropWhile_append_all isSpace pre _ h1]
  by_cases hl : l.dropWhile isSpace = []
  · have hall : ∀ c ∈ l ++ post, isSpace c = true := by
      intro c hc
      rcases List.mem_append.mp hc with hc | hc
      · exact (List.dropWhile_eq_nil_iff.mp hl) c hc
      · exact h2 c hc
    rw [List.dropWhile_eq_nil_iff.mpr hall, hl]
  · rw [dropWhile_append_ne_nil isSpace l post hl, List.reverse_append,
      dropWhile_append_all isSpace post.reverse _ (by simpa using h2)]

theorem trimSpaceChars_id (l : List Char) (h : ∀ c ∈ l, isSpace c = false) :
    trimSpaceChars l = l := by
  unfold trimSpaceChars
  rw [dropWhile_all_false isSpace l (fun c hc => h c (List.mem_of_mem_head? hc)),
    dropWhile_all_false isSpace l.reverse (fun c hc => h c (by
      have := List.mem_of_mem_head? hc
      simpa using this)),
    List.reverse_reverse]

theorem isNumeric_pad (pre post : List Char) (s : String) (h1 : ∀ c ∈ pre, isSpace c = true)
    (h2 : ∀ c ∈ post, isSpace c = true) :
    isNumeric (String.mk (pre ++ s.data ++ post)) = isNumeric s := by
  unfold isNumeric TrimSpace
  simp only [trimSpaceChars_pad pre s.data post h1 h2]
/-! ### `isNumeric`: the alphabet of the names it accepts -/

theorem numericChar_of_isDigit (c : Char) (h : isDigit c = true) : numericChar c = true := by
  simp [numericChar, h]

theorem parseUintLoop_digits (cs : List Char) (n : Nat)
    (hn : (parseUintLoop cs n).2 = none) : ∀ c ∈ cs, isDigit c = true := by
  induction cs generalizing n with
  | nil => intro c hc; simp at hc
  | cons a rest ih =>
    intro c hc
    rw [parseUintLoop] at hn
    by_cases ha : isDigit a = true
    · simp only [ha, if_true] at hn
      split_ifs at hn with h1 h2
      rcases List.mem_cons.mp hc with rfl | hc
      · exact ha
      · exact ih _ hn c hc
    · simp [ha] at hn

theorem parseUintLoop_range (cs : List Char) (n : Nat)
    (h : (parseUintLoop cs n).2 = some NumErr.ErrRange) : (parseUintLoop cs n).1 = 2 ^ 64 - 1 := by
  induction cs generalizing n with
  | nil => simp [parseUintLoop] at h
  | cons a rest ih =>
    rw [parseUintLoop] at h ⊢
    by_cases ha : isDigit a = true
    · simp only [ha, if_true] at h ⊢
      split_ifs at h ⊢ with h1 h2
      · rfl
      · rfl
      · exact ih _ h
    · simp [ha] at h

theorem ParseInt10_chars (t : String) (h : (ParseInt10 t).2 = none) :
    ∀ c ∈ t.data, numericChar c = true := by
  unfold ParseInt10 at h
  cases hd : t.data with
  | nil => rw [hd] at h; simp at h
  | cons c cs =>
    rw [hd] at h
    simp only at h
    have hbody : ∀ body, (match ParseUint10 body with
        | (_, some NumErr.ErrSyntax) => ((0 : Int), some NumErr.ErrSyntax)
        | (un, _) =>
          if (!(c == '-') && decide (un ≥ 2 ^ 63)) = true then
            (((2 ^ 63 : Nat) : Int) - 1, some NumErr.ErrRange)
          else if ((c == '-') && decide (un > 2 ^ 63)) = true then
            (-((2 ^ 63 : Nat) : Int), some NumErr.ErrRange)
          else (if (c == '-') = true then -(un : Int) else (un : Int), none)).2 = none →
        ∀ x ∈ body, isDigit x = true := by
      intro body hb
      cases body with
      | nil => intro x hx; simp at hx
      | cons b bs =>
        rcases hu : ParseUint10 (b :: bs) with ⟨un, _ | err⟩
        · have hu2 : parseUintLoop (b :: bs) 0 = (un, none) := hu
          exact parseUintLoop_digits (b :: bs) 0 (by rw [hu2])
        · cases err
          · rw [hu] at hb; simp at hb
          · have hu2 : parseUintLoop (b :: bs) 0 = (un, some NumErr.ErrRange) := hu
            have hv := parseUintLoop_range (b :: bs) 0 (by rw [hu2])
            rw [hu2] at hv
            simp only at hv
            rw [hu] at hb
            simp only at hb
            subst hv
            cases hneg : (c == '-') <;> simp [hneg] at hb
    intro x hx
    by_cases hs : (c == '+' || c == '-') = true
    · simp only [hs, if_true] at h
      rcases List.mem_cons.mp hx with rfl | hx
      · simp only [Bool.or_eq_true, beq_iff_eq] at hs
        rcases hs with rfl | rfl <;> decide
      · exact numericChar_of_isDigit x (hbody cs h x hx)
    · simp only [hs] at h
      exact numericChar_of_isDigit x (hbody (c :: cs) h x hx)
theorem numericChar_of_letter (c : Char)
    (h : c.toNat = 105 ∨ c.toNat = 110 ∨ c.toNat = 102 ∨ c.toNat = 116 ∨ c.toNat = 121 ∨
      c.toNat = 97 ∨ c.toNat = 73 ∨ c.toNat = 78 ∨ c.toNat = 70 ∨ c.toNat = 84 ∨ c.toNat = 89 ∨
      c.toNat = 65) : numericChar c = true := by
  rcases h with h | h | h | h | h | h | h | h | h | h | h | h <;>
    simp [numericChar, lower, isDigit, h]

theorem commonPrefixLenIgnoreCase_chars (cs ps : List Char)
    (hps : ∀ p ∈ ps, p.toNat = 105 ∨ p.toNat = 110 ∨ p.toNat = 102 ∨ p.toNat = 116 ∨
      p.toNat = 121 ∨ p.toNat = 97) :
    ∀ c ∈ cs.take (commonPrefixLenIgnoreCase cs ps), numericChar c = true := by
  induction cs generalizing ps with
  | nil => intro c hc; simp at hc
  | cons a rest ih =>
    cases ps with
    | nil => intro c hc; simp [commonPrefixLenIgnoreCase] at hc
    | cons p ps =>
      intro c hc
      rw [commonPrefixLenIgnoreCase] at hc
      have hp := hps p (by simp)
      by_cases he : ((if ('A'.toNat ≤ a.toNat && a.toNat ≤ 'Z'.toNat) = true then a.toNat + 32
          else a.toNat) == p.toNat) = true
      · rw [if_pos he] at hc
        simp only [List.take_succ_cons, List.mem_cons] at hc
        rcases hc with rfl | hc
        · apply numericChar_of_letter
          simp only [beq_iff_eq] at he
          split_ifs at he <;> omega
        · exact ih ps (fun q hq => hps q (by simp [hq])) c hc
      · rw [if_neg he] at hc
        simp at hc

theorem commonPrefixLenIgnoreCase_le (cs ps : List Char) :
    commonPrefixLenIgnoreCase cs ps ≤ cs.length := by
  induction cs generalizing ps with
  | nil => simp [commonPrefixLenIgnoreCase]
  | cons a rest ih =>
    cases ps with
    | nil => simp [commonPrefixLenIgnoreCase]
    | cons p ps =>
      rw [commonPrefixLenIgnoreCase]
      split_ifs
      · simpa using ih ps
      · simp
      · simpa using ih ps
      · simp

theorem specialInf_chars (s : List Char) (nsign k : Nat) (h : specialInf s nsign = some k)
    (hk : k = nsign + s.length) : ∀ c ∈ s, numericChar c = true := by
  unfold specialInf at h
  have hle := commonPrefixLenIgnoreCase_le s "infinity".data
  have hch := commonPrefixLenIgnoreCase_chars s "infinity".data (by decide)
  generalize commonPrefixLenIgnoreCase s "infinity".data = n at h hle hch
  simp only at h
  split_ifs at h with h1 h2
  · simp only [Option.some.injEq] at h
    have : s.take n = s := by
      apply List.take_of_length_le
      simp only [Bool.and_eq_true, decide_eq_true_eq] at h1
      omega
    rw [this] at hch; exact hch
  · simp only [Option.some.injEq] at h
    have : s.take n = s := by
      apply List.take_of_length_le
      omega
    rw [this] at hch; exact hch

theorem special_chars (s : List Char) (k : Nat) (h : special s = some k) (hk : k = s.length) :
    ∀ c ∈ s, numericChar c = true := by
  cases s with
  | nil => simp [special] at h
  | cons c cs =>
    rw [special] at h
    split_ifs at h with h1 h2 h3 h4
    · intro x hx
      rcases List.mem_cons.mp hx with rfl | hx
      · simp only [Bool.or_eq_true, beq_iff_eq] at h1
        rcases h1 with rfl | rfl <;> decide
      · exact specialInf_chars cs 1 k h (by simp at hk; omega) x hx
    · exact specialInf_chars (c :: cs) 0 k h (by simpa using hk)
    · simp only [Option.some.injEq] at h
      have hch := commonPrefixLenIgnoreCase_chars (c :: cs) "nan".data (by decide)
      have h4' : commonPrefixLenIgnoreCase (c :: cs) "nan".data = 3 := by simpa using h4
      rw [h4'] at hch
      have ht : List.take 3 (c :: cs) = c :: cs := List.take_of_length_le (by omega)
      rw [ht] at hch
      exact hch
theorem mantLoop_consume (hex : Bool) (cs : List Char) (m : Mant) :
    ∃ pre, cs = pre ++ (mantLoop hex cs m).2 ∧
      (mantLoop hex cs m).1.used = m.used + pre.length ∧
      ∀ c ∈ pre, numericChar c = true := by
  induction cs generalizing m with
  | nil => exact ⟨[], by simp [mantLoop]⟩
  | cons c cs ih =>
    have step : ∀ m' : Mant, m'.used = m.used + 1 → numericChar c = true →
        ∃ pre, c :: cs = pre ++ (mantLoop hex cs m').2 ∧
          (mantLoop hex cs m').1.used = m.used + pre.length ∧
          ∀ x ∈ pre, numericChar x = true := by
      intro m' hm' hc
      obtain ⟨pre, h1, h2, h3⟩ := ih m'
      refine ⟨c :: pre, by rw [List.cons_append, ← h1], by rw [h2, hm']; simp; omega, ?_⟩
      intro x hx
      rcases List.mem_cons.mp hx with rfl | hx
      · exact hc
      · exact h3 x hx
    have stop : ∃ pre, c :: cs = pre ++ ((m, c :: cs) : Mant × List Char).2 ∧
          ((m, c :: cs) : Mant × List Char).1.used = m.used + pre.length ∧
          ∀ x ∈ pre, numericChar x = true := ⟨[], by simp⟩
    rw [mantLoop]
    by_cases h1 : (c == '_') = true
    · rw [if_pos h1]; exact step _ rfl (by simp [numericChar, h1])
    rw [if_neg h1]
    by_cases h2 : (c == '.') = true
    · rw [if_pos h2]
      by_cases h3 : m.sawdot = true
      · rw [if_pos h3]; exact stop
      · rw [if_neg h3]; exact step _ rfl (by simp [numericChar, h2])
    rw [if_neg h2]
    by_cases h4 : isDigit c = true
    · rw [if_pos h4]
      by_cases h5 : (c == '0' && m.nd == 0) = true
      · rw [if_pos h5]; exact step _ rfl (numericChar_of_isDigit c h4)
      · rw [if_neg h5]; exact step _ rfl (numericChar_of_isDigit c h4)
    rw [if_neg h4]
    by_cases h6 : (hex && decide ('a'.toNat ≤ lower c) && decide (lower c ≤ 'f'.toNat)) = true
    · rw [if_pos h6]
      refine step _ rfl ?_
      simp only [Bool.and_eq_true, decide_eq_true_eq] at h6
      have h61 : 97 ≤ lower c := h6.1.2
      have h62 : lower c ≤ 102 := h6.2
      simp [numericChar, h61, h62]
    · rw [if_neg h6]; exact stop

theorem expLoop_consume (cs : List Char) (e : Nat) (u : Bool) (k : Nat) :
    ∃ pre, cs = pre ++ (expLoop cs e u k).2.2.2 ∧
      (expLoop cs e u k).2.2.1 = k + pre.length ∧
      ∀ c ∈ pre, numericChar c = true := by
  induction cs generalizing e u k with
  | nil => exact ⟨[], by simp [expLoop]⟩
  | cons c cs ih =>
    have step : ∀ e' u', numericChar c = true →
        ∃ pre, c :: cs = pre ++ (expLoop cs e' u' (k + 1)).2.2.2 ∧
          (expLoop cs e' u' (k + 1)).2.2.1 = k + pre.length ∧
          ∀ x ∈ pre, numericChar x = true := by
      intro e' u' hc
      obtain ⟨pre, h1, h2, h3⟩ := ih e' u' (k + 1)
      refine ⟨c :: pre, by rw [List.cons_append, ← h1], by rw [h2]; simp; omega, ?_⟩
      intro x hx
      rcases List.mem_cons.mp hx with rfl | hx
      · exact hc
      · exact h3 x hx
    rw [expLoop]
    by_cases h1 : (c == '_') = true
    · rw [if_pos h1]; exact step _ _ (by simp [numericChar, h1])
    rw [if_neg h1]
    by_cases h2 : isDigit c = true
    · rw [if_pos h2]; exact step _ _ (numericChar_of_isDigit c h2)
    · rw [if_neg h2]; exact ⟨[], by simp⟩
theorem ite_none_some {α : Type} (c : Prop) [Decidable c] (x r : α)
    (h : (if c then none else some x) = some r) : x = r := by
  split_ifs at h
  exact Option.some.inj h

theorem ite_none_eq {α : Type} (c : Prop) [Decidable c] (y : Option α) (r : α)
    (h : (if c then none else y) = some r) : y = some r := by
  split_ifs at h
  exact h

theorem hexPrefix_split (body : List Char) (h : hexPrefix body = true) :
    ∃ c0 c1 t, body = c0 :: c1 :: t ∧ List.drop 2 body = t ∧
      numericChar c0 = true ∧ numericChar c1 = true := by
  rcases body with _ | ⟨c0, _ | ⟨c1, _ | ⟨c2, t⟩⟩⟩
  · simp [hexPrefix] at h
  · simp [hexPrefix] at h
  · simp [hexPrefix] at h
  · simp only [hexPrefix, Bool.and_eq_true, beq_iff_eq] at h
    refine ⟨c0, c1, c2 :: t, rfl, rfl, ?_, ?_⟩
    · rw [h.1]; decide
    · have h2 : lower c1 = 120 := h.2
      simp [numericChar, h2]

theorem readFloat_chars (s : List Char) (r : ReadFloat) (h : readFloat s = some r)
    (hu : r.used = s.length) : ∀ x ∈ s, numericChar x = true := by
  cases s with
  | nil => simp [readFloat] at h
  | cons c cs =>
    rw [readFloat] at h
    dsimp only at h
    generalize hb : (if (c == '+' || c == '-') = true then cs else c :: cs) = body at h
    generalize hh : hexPrefix body = hexv at h
    generalize hi0 : (if (c == '+' || c == '-') = true then 1 else 0) = i0 at h
    rcases hm : mantLoop hexv (if hexv = true then List.drop 2 body else body)
      ⟨false, false, 0, 0, 0, false, if hexv = true then i0 + 2 else i0⟩ with ⟨m, rest⟩
    rw [hm] at h
    dsimp only at h
    -- the sign
    have hsign : ∃ sp, c :: cs = sp ++ body ∧ sp.length = i0 ∧
        ∀ x ∈ sp, numericChar x = true := by
      by_cases hs : (c == '+' || c == '-') = true
      · rw [if_pos hs] at hb hi0
        refine ⟨[c], by simp [hb], by simp [← hi0], ?_⟩
        intro x hx
        simp only [List.mem_singleton] at hx
        subst hx
        simp only [Bool.or_eq_true, beq_iff_eq] at hs
        rcases hs with rfl | rfl <;> decide
      · rw [if_neg hs] at hb hi0
        exact ⟨[], by simp [hb], by simp [← hi0], by simp⟩
    -- the base prefix
    have hpre : ∃ hp, body = hp ++ (if hexv = true then List.drop 2 body else body) ∧
        hp.length + i0 = (if hexv = true then i0 + 2 else i0) ∧
        ∀ x ∈ hp, numericChar x = true := by
      by_cases hx : hexv = true
      · rw [hx] at hh
        obtain ⟨c0, c1, t, h1, h2, h3, h4⟩ := hexPrefix_split body hh
        refine ⟨[c0, c1], by simp [hx, h1], by simp [hx]; omega, ?_⟩
        intro x hx2
        simp only [List.mem_cons, List.mem_singleton, List.not_mem_nil, or_false] at hx2
        rcases hx2 with rfl | rfl
        · exact h3
        · exact h4
      · exact ⟨[], by simp [hx], by simp [hx], by simp⟩
    obtain ⟨sp, hs1, hs2, hs3⟩ := hsign
    obtain ⟨hp, hp1, hp2, hp3⟩ := hpre
    obtain ⟨mp, hm1, hm2, hm3⟩ := mantLoop_consume hexv
      (if hexv = true then List.drop 2 body else body)
      ⟨false, false, 0, 0, 0, false, if hexv = true then i0 + 2 else i0⟩
    rw [hm] at hm1 hm2
    simp only at hm1 hm2
    -- what was read before `rest`
    have hall : c :: cs = (sp ++ hp ++ mp) ++ rest := by
      rw [hs1]
      conv_lhs => rw [hp1, hm1]
      simp
    have hlen : (sp ++ hp ++ mp).length = m.used := by
      simp only [List.length_append]
      omega
    have hnum : ∀ x ∈ sp ++ hp ++ mp, numericChar x = true := by
      intro x hx
      simp only [List.mem_append] at hx
      rcases hx with (hx | hx) | hx
      · exact hs3 x hx
      · exact hp3 x hx
      · exact hm3 x hx
    generalize sp ++ hp ++ mp = consumed at hall hlen hnum
    rw [hall] at hu ⊢
    clear hm hm1 hm2 hm3 hp1 hp2 hp3 hs1 hs2 hs3 hb hh hi0 hall
    by_cases hsd : (!m.sawdigits) = true
    · rw [if_pos hsd] at h; simp at h
    rw [if_neg hsd] at h
    rcases rest with _ | ⟨e, rest1⟩
    · intro x hx; exact hnum x (by simpa using hx)
    · dsimp only at h
      by_cases he : (lower e == if hexv = true then 'p'.toNat else 'e'.toNat) = true
      · rw [if_pos he] at h
        have hen : numericChar e = true := by
          simp only [beq_iff_eq] at he
          by_cases hx : hexv = true
          · rw [if_pos hx] at he
            have : lower e = 112 := he
            simp [numericChar, this]
          · rw [if_neg hx] at he
            have : lower e = 101 := he
            simp [numericChar, this]
        rcases rest1 with _ | ⟨sg, rest2⟩
        · simp at h
        · dsimp only at h
          obtain ⟨ep, he1, he2, he3⟩ := expLoop_consume
            (if (sg == '+' || sg == '-') = true then rest2 else sg :: rest2) 0 m.underscores 0
          generalize hr3 : (if (sg == '+' || sg == '-') = true then rest2 else sg :: rest2)
            = rest3 at h he1 he2
          generalize hes : (if (sg == '+' || sg == '-') = true then 1 else 0) = es at h
          have hsg : ∃ gp, sg :: rest2 = gp ++ rest3 ∧ gp.length = es ∧
              ∀ x ∈ gp, numericChar x = true := by
            by_cases hs : (sg == '+' || sg == '-') = true
            · rw [if_pos hs] at hr3 hes
              refine ⟨[sg], by simp [hr3], by simp [← hes], ?_⟩
              intro x hx
              simp only [List.mem_singleton] at hx
              subst hx
              simp only [Bool.or_eq_true, beq_iff_eq] at hs
              rcases hs with rfl | rfl <;> decide
            · rw [if_neg hs] at hr3 hes
              exact ⟨[], by simp [hr3], by simp [← hes], by simp⟩
          obtain ⟨gp, hg1, hg2, hg3⟩ := hsg
          rcases rest3 with _ | ⟨d, tail⟩
          · simp at h
          · rcases hexp : expLoop (d :: tail) 0 m.underscores 0 with ⟨ev, u, k, erest⟩
            rw [hexp] at h he1 he2
            dsimp only at h he1 he2
            have hx := ite_none_some _ _ _ (ite_none_eq _ _ _ h)
            rw [← hx] at hu
            dsimp only at hu
            rw [hg1] at hu ⊢
            simp only [List.length_append, List.length_cons] at hu
            have hlen2 : erest = [] := by
              have := congrArg List.length he1
              simp only [List.length_append, List.length_cons] at this
              apply List.eq_nil_of_length_eq_zero
              omega
            rw [hlen2, List.append_nil] at he1
            intro x hx
            rcases List.mem_append.mp hx with hx | hx
            · exact hnum x hx
            · rcases List.mem_cons.mp hx with rfl | hx
              · exact hen
              · rcases List.mem_append.mp hx with hx | hx
                · exact hg3 x hx
                · rw [he1] at hx; exact he3 x hx
      · rw [if_neg he] at h
        have hx := ite_none_some _ _ _ (ite_none_eq _ _ _ h)
        rw [← hx] at hu
        simp only [List.length_append, List.length_cons] at hu
        omega
theorem ParseFloat64_chars (s : String) (h : ParseFloat64 s = none) :
    ∀ c ∈ s.data, numericChar c = true := by
  unfold ParseFloat64 at h
  dsimp only at h
  cases hsp : special s.data with
  | some n =>
    rw [hsp] at h
    dsimp only at h
    by_cases hn : (n != s.data.length) = true
    · rw [if_pos hn] at h; simp at h
    · exact special_chars s.data n hsp (by simpa using hn)
  | none =>
    rw [hsp] at h
    dsimp only at h
    cases hr : readFloat s.data with
    | none => rw [hr] at h; simp at h
    | some r =>
      rw [hr] at h
      dsimp only at h
      by_cases hn : (r.used != s.data.length) = true
      · rw [if_pos hn] at h; simp at h
      · exact readFloat_chars s.data r hr (by simpa using hn)

theorem isNumeric_chars (s : String) (h : isNumeric s = true) :
    ∀ c ∈ (TrimSpace s).data, numericChar c = true := by
  unfold isNumeric at h
  dsimp only at h
  by_cases h0 : (TrimSpace s == "") = true
  · rw [if_pos h0] at h; simp at h
  rw [if_neg h0] at h
  by_cases h1 : ((ParseInt10 (TrimSpace s)).2 == none) = true
  · exact ParseInt10_chars _ (by simpa using h1)
  · rw [if_neg h1] at h
    exact ParseFloat64_chars _ (by simpa using h)
/-! ### `isNumeric`: plain decimal numbers are accepted -/

theorem isDigit_toNat (c : Char) (h : isDigit c = true) : 48 ≤ c.toNat ∧ c.toNat ≤ 57 := by
  simpa [isDigit] using h

theorem isDigit_ne (c d : Char) (h : isDigit c = true) (hd : isDigit d = false) :
    (c == d) = false := by
  cases hc : (c == d) with
  | false => rfl
  | true =>
    have : c = d := by simpa using hc
    rw [this, hd] at h
    exact absurd h (by simp)

theorem mantLoop_digits (ds rest : List Char) (m : Mant) (h : ∀ c ∈ ds, isDigit c = true) :
    ∃ m', mantLoop false (ds ++ rest) m = mantLoop false rest m' ∧
      m'.sawdot = m.sawdot ∧ m'.underscores = m.underscores ∧
      m'.used = m.used + ds.length ∧ (ds ≠ [] → m'.sawdigits = true) ∧
      (m.sawdigits = true → m'.sawdigits = true) ∧ m'.nd ≤ m.nd + ds.length ∧
      (m.digits < 10 ^ m.nd → m'.digits < 10 ^ m'.nd) ∧ (m.dp ≤ m.nd → m'.dp ≤ m'.nd) := by
  induction ds generalizing m with
  | nil => exact ⟨m, rfl, rfl, rfl, rfl, by simp, id, by simp, id, id⟩
  | cons c ds ih =>
    have hc := h c (by simp)
    have hb := isDigit_toNat c hc
    rw [List.cons_append, mantLoop, if_neg (by rw [isDigit_ne c '_' hc (by decide)]; simp),
      if_neg (by rw [isDigit_ne c '.' hc (by decide)]; simp), if_pos hc]
    by_cases h0 : (c == '0' && m.nd == 0) = true
    · rw [if_pos h0]
      obtain ⟨m', e1, e2, e3, e4, _, e6, e7, e8, e9⟩ :=
        ih { m with sawdigits := true, dp := m.dp - 1, used := m.used + 1 }
          (fun x hx => h x (by simp [hx]))
      refine ⟨m', e1, e2, e3, ?_, fun _ => e6 rfl, fun _ => e6 rfl, ?_, e8, ?_⟩
      · rw [e4]; simp only [List.length_cons]; omega
      · simp only [List.length_cons] at e7 ⊢; omega
      · intro hdp; apply e9; simp only; omega
    · rw [if_neg h0]
      obtain ⟨m', e1, e2, e3, e4, _, e6, e7, e8, e9⟩ :=
        ih { m with sawdigits := true, nd := m.nd + 1,
                    digits := m.digits * (if false = true then 16 else 10) + (c.toNat - '0'.toNat),
                    used := m.used + 1 }
          (fun x hx => h x (by simp [hx]))
      refine ⟨m', e1, e2, e3, ?_, fun _ => e6 rfl, fun _ => e6 rfl, ?_, ?_, ?_⟩
      · rw [e4]; simp only [List.length_cons]; omega
      · simp only [List.length_cons] at e7 ⊢; omega
      · intro hdg
        apply e8
        have h48 : '0'.toNat = 48 := rfl
        simp only [Bool.false_eq_true, if_false, h48, pow_succ]
        omega
      · intro hdp; apply e9; simp only; omega

theorem lower_ne_x (c : Char) (h : isDigit c = true ∨ c = '.') : (lower c == 'x'.toNat) = false := by
  rcases h with h | rfl
  · have hb := isDigit_toNat c h
    have h2 : ∀ n, 48 ≤ n → n ≤ 57 → (n ||| 0x20 == 120) = false := by
      intro n h1 h2
      interval_cases n <;> rfl
    exact h2 c.toNat hb.1 hb.2
  · rfl

theorem hexPrefix_plain (b : List Char) (h : ∀ c ∈ b, isDigit c = true ∨ c = '.') :
    hexPrefix b = false := by
  rcases b with _ | ⟨c0, _ | ⟨c1, _ | ⟨c2, t⟩⟩⟩
  · rfl
  · rfl
  · rfl
  · simp only [hexPrefix, lower_ne_x c1 (h c1 (by simp)), Bool.and_false]

theorem ten_pow_lt_overflow : 10 ^ 300 < float64Overflow := by
  unfold float64Overflow
  norm_num

/-- The digit loop on a plain decimal mantissa: all of it is read. -/
theorem mantLoop_plain (ints fracs : List Char) (point : Bool) (i : Nat)
    (hi : ∀ c ∈ ints, isDigit c = true) (hf : ∀ c ∈ fracs, isDigit c = true)
    (hp : point = false → fracs = []) (hpos : 0 < ints.length + fracs.length)
    (hlen : ints.length + fracs.length ≤ 300) :
    ∃ m, mantLoop false (ints ++ (if point then ['.'] else []) ++ fracs)
        ⟨false, false, 0, 0, 0, false, i⟩ = (m, []) ∧
      m.sawdigits = true ∧ m.underscores = false ∧
      m.used = i + (ints ++ (if point then ['.'] else []) ++ fracs).length ∧
      m.digits < 10 ^ 300 ∧ (if m.sawdot = true then m.dp else (m.nd : Int)) ≤ m.nd := by
  obtain ⟨m1, a1, a2, a3, a4, a5, _, a7, a8, a9⟩ :=
    mantLoop_digits ints ((if point then ['.'] else []) ++ fracs) ⟨false, false, 0, 0, 0, false, i⟩ hi
  simp only at a2 a3 a4 a7 a8 a9
  have hd1 := a8 (by norm_num)
  cases point with
  | false =>
    have hf0 : fracs = [] := hp rfl
    subst hf0
    have hne : ints ≠ [] := by
      intro h0; subst h0; simp at hpos
    simp only [Bool.false_eq_true, if_false, List.append_nil, List.nil_append] at a1 ⊢
    rw [a1, mantLoop]
    refine ⟨m1, rfl, a5 hne, a3, by rw [a4], ?_, ?_⟩
    · exact lt_of_lt_of_le hd1 (Nat.pow_le_pow_right (by norm_num) (by simp at hlen; omega))
    · rw [a2]; simp
  | true =>
    simp only [if_true, List.append_assoc, List.singleton_append] at a1 ⊢
    rw [a1, mantLoop, if_neg (by decide), if_pos (by decide), if_neg (by rw [a2]; simp)]
    obtain ⟨m2, b1, b2, b3, b4, b5, b6, b7, b8, b9⟩ :=
      mantLoop_digits fracs [] { m1 with sawdot := true, dp := m1.nd, used := m1.used + 1 } hf
    simp only [List.append_nil] at b1
    simp only at b2 b3 b4 b6 b7 b8 b9
    rw [b1, mantLoop]
    refine ⟨m2, rfl, ?_, by rw [b3, a3], ?_, ?_, ?_⟩
    · by_cases hne : ints = []
      · subst hne
        apply b5
        intro h0; subst h0; simp at hpos
      · exact b6 (a5 hne)
    · rw [b4, a4]; simp only [List.length_append, List.length_cons]; omega
    · exact lt_of_lt_of_le (b8 hd1) (Nat.pow_le_pow_right (by norm_num) (by omega))
    · rw [b2]; simp only [if_true]; exact b9 (le_refl _)
theorem readFloat_plain (c : Char) (cs b : List Char) (i0 : Nat) (m : Mant)
    (hb : (if (c == '+' || c == '-') = true then cs else c :: cs) = b)
    (hi0 : (if (c == '+' || c == '-') = true then 1 else 0) = i0)
    (hhex : hexPrefix b = false)
    (hm : mantLoop false b ⟨false, false, 0, 0, 0, false, i0⟩ = (m, []))
    (hsd : m.sawdigits = true) (hus : m.underscores = false) :
    readFloat (c :: cs) =
      some ⟨false, m.digits, (if m.sawdot = true then m.dp else (m.nd : Int)) - m.nd, m.used⟩ := by
  rw [readFloat]
  dsimp only
  rw [hb, hi0, hhex]
  simp only [Bool.false_eq_true, if_false]
  rw [hm]
  simp [hsd, hus]

theorem overflows_plain (digits used : Nat) (exp : Int) (hd : digits < 10 ^ 300)
    (he : exp ≤ 0) : overflows ⟨false, digits, exp, used⟩ = false := by
  have hF := ten_pow_lt_overflow
  unfold overflows
  dsimp only
  by_cases h0 : (digits == 0) = true
  · rw [if_pos h0]
  rw [if_neg h0]
  simp only [Bool.false_eq_true, if_false]
  by_cases h1 : 0 ≤ exp
  · rw [if_pos h1]
    have : exp = 0 := le_antisymm he h1
    subst this
    simp only [Int.toNat_zero, pow_zero, mul_one, decide_eq_false_iff_not, ge_iff_le, not_le]
    omega
  · rw [if_neg h1]
    simp only [decide_eq_false_iff_not, ge_iff_le, not_le]
    have h2 : 1 ≤ 10 ^ (-exp).toNat := Nat.one_le_pow _ _ (by norm_num)
    calc digits < float64Overflow := by omega
      _ = float64Overflow * 1 := by rw [mul_one]
      _ ≤ float64Overflow * 10 ^ (-exp).toNat := Nat.mul_le_mul_left _ h2

theorem plain_first (c x : Char) (h : isDigit c = true ∨ c = '.') (hx : isDigit x = false)
    (hx2 : x ≠ '.') : (c == x) = false := by
  rcases h with h | rfl
  · exact isDigit_ne c x h hx
  · simpa using fun h => hx2 h.symm

theorem commonPrefixLenIgnoreCase_plain (c : Char) (cs ps : List Char)
    (h : isDigit c = true ∨ c = '.') (hps : ∀ p ∈ ps.head?, 97 ≤ p.toNat) :
    commonPrefixLenIgnoreCase (c :: cs) ps = 0 := by
  cases ps with
  | nil => rfl
  | cons p ps =>
    have hp := hps p (by simp)
    rw [commonPrefixLenIgnoreCase]
    have hc : c.toNat ≤ 57 := by
      rcases h with h | rfl
      · exact (isDigit_toNat c h).2
      · decide
    have h65 : 'A'.toNat = 65 := rfl
    rw [if_neg]
    simp only [h65, Bool.and_eq_true, decide_eq_true_eq, beq_iff_eq]
    split_ifs <;> omega

theorem special_plain (sign b : List Char) (hs : sign = [] ∨ sign = ['+'] ∨ sign = ['-'])
    (hb : ∀ c ∈ b, isDigit c = true ∨ c = '.') (hne : b ≠ []) : special (sign ++ b) = none := by
  obtain ⟨c, cs, rfl⟩ := List.exists_cons_of_ne_nil hne
  have hc := hb c (by simp)
  have hinf : specialInf (c :: cs) 1 = none := by
    unfold specialInf
    rw [commonPrefixLenIgnoreCase_plain c cs _ hc (by decide)]
    rfl
  rcases hs with rfl | rfl | rfl
  · rw [List.nil_append, special]
    rw [if_neg (by rw [plain_first c '+' hc (by decide) (by decide),
        plain_first c '-' hc (by decide) (by decide)]; simp),
      if_neg (by rw [plain_first c 'i' hc (by decide) (by decide),
        plain_first c 'I' hc (by decide) (by decide)]; simp),
      if_neg (by rw [plain_first c 'n' hc (by decide) (by decide),
        plain_first c 'N' hc (by decide) (by decide)]; simp)]
  · exact hinf
  · exact hinf

theorem isSpace_plain (c : Char) (h : isDigit c = true ∨ c = '.' ∨ c = '+' ∨ c = '-') :
    isSpace c = false := by
  rcases h with h | rfl | rfl | rfl
  · have hb := isDigit_toNat c h
    unfold isSpace
    simp only [Bool.or_eq_false_iff, Bool.and_eq_false_iff, beq_eq_false_iff_ne, ne_eq,
      decide_eq_false_iff_not]
    omega
  · decide
  · decide
  · decide

/-- A plain decimal number passes `strconv.ParseFloat`. -/
theorem ParseFloat64_plain (sign ints fracs : List Char) (point : Bool)
    (hs : sign = [] ∨ sign = ['+'] ∨ sign = ['-'])
    (hi : ∀ c ∈ ints, isDigit c = true) (hf : ∀ c ∈ fracs, isDigit c = true)
    (hp : point = false → fracs = []) (hpos : 0 < ints.length + fracs.length)
    (hlen : ints.length + fracs.length ≤ 300) :
    ParseFloat64 (String.mk (sign ++ (ints ++ (if point then ['.'] else []) ++ fracs))) = none := by
  have hb : ∀ c ∈ ints ++ (if point then ['.'] else []) ++ fracs, isDigit c = true ∨ c = '.' := by
    intro c hc
    simp only [List.mem_append] at hc
    rcases hc with (hc | hc) | hc
    · exact Or.inl (hi c hc)
    · cases point <;> simp at hc
      exact Or.inr hc
    · exact Or.inl (hf c hc)
  have hne : ints ++ (if point then ['.'] else []) ++ fracs ≠ [] := by
    intro h0
    have := congrArg List.length h0
    simp only [List.length_append, List.length_nil] at this
    omega
  obtain ⟨m, m1, m2, m3, m4, m5, m6⟩ :=
    mantLoop_plain ints fracs point sign.length hi hf hp hpos hlen
  have hsp := special_plain sign _ hs hb hne
  generalize ints ++ (if point then ['.'] else []) ++ fracs = b at hb hne m1 m4 hsp
  have hrf : readFloat (sign ++ b) =
      some ⟨false, m.digits, (if m.sawdot = true then m.dp else (m.nd : Int)) - m.nd, m.used⟩ := by
    obtain ⟨c, cs, rfl⟩ := List.exists_cons_of_ne_nil hne
    have hc := hb c (by simp)
    rcases hs with rfl | rfl | rfl
    · exact readFloat_plain c cs (c :: cs) 0 m
        (by rw [if_neg (by rw [plain_first c '+' hc (by decide) (by decide),
          plain_first c '-' hc (by decide) (by decide)]; simp)])
        (by rw [if_neg (by rw [plain_first c '+' hc (by decide) (by decide),
          plain_first c '-' hc (by decide) (by decide)]; simp)])
        (hexPrefix_plain _ hb) m1 m2 m3
    · exact readFloat_plain '+' (c :: cs) (c :: cs) 1 m rfl rfl (hexPrefix_plain _ hb) m1 m2 m3
    · exact readFloat_plain '-' (c :: cs) (c :: cs) 1 m rfl rfl (hexPrefix_plain _ hb) m1 m2 m3
  unfold ParseFloat64
  dsimp only
  rw [hsp]
  dsimp only
  rw [hrf]
  dsimp only
  rw [if_neg (by simp [m4]), overflows_plain _ _ _ m5 (by omega)]
  rfl

/-- A plain decimal number, with white space around it or not, is numeric. -/
theorem isNumeric_plain (pre post sign ints fracs : List Char) (point : Bool)
    (h1 : ∀ c ∈ pre, isSpace c = true) (h2 : ∀ c ∈ post, isSpace c = true)
    (hs : sign = [] ∨ sign = ['+'] ∨ sign = ['-'])
    (hi : ∀ c ∈ ints, isDigit c = true) (hf : ∀ c ∈ fracs, isDigit c = true)
    (hp : point = false → fracs = []) (hpos : 0 < ints.length + fracs.length)
    (hlen : ints.length + fracs.length ≤ 300) :
    isNumeric (String.mk
      (pre ++ (sign ++ (ints ++ (if point then ['.'] else []) ++ fracs)) ++ post)) = true := by
  have hpf := ParseFloat64_plain sign ints fracs point hs hi hf hp hpos hlen
  have hsp : ∀ c ∈ sign ++ (ints ++ (if point then ['.'] else []) ++ fracs),
      isSpace c = false := by
    intro c hc
    apply isSpace_plain
    simp only [List.mem_append] at hc
    rcases hc with hc | (hc | hc) | hc
    · rcases hs with rfl | rfl | rfl
      · simp at hc
      · simp at hc; simp [hc]
      · simp at hc; simp [hc]
    · exact Or.inl (hi c hc)
    · cases point <;> simp at hc
      simp [hc]
    · exact Or.inl (hf c hc)
  have hne : sign ++ (ints ++ (if point then ['.'] else []) ++ fracs) ≠ [] := by
    intro h0
    have := congrArg List.length h0
    simp only [List.length_append, List.length_nil] at this
    omega
  generalize sign ++ (ints ++ (if point then ['.'] else []) ++ fracs) = t at hpf hsp hne
  have hpad := isNumeric_pad pre post (String.mk t) h1 h2
  simp only at hpad
  rw [hpad]
  unfold isNumeric TrimSpace
  dsimp only
  rw [trimSpaceChars_id t hsp]
  rw [if_neg (by
    intro h0
    have : String.mk t = "" := by simpa using h0
    exact hne (congrArg String.data this))]
  by_cases hint : ((ParseInt10 (String.mk t)).2 == none) = true
  · rw [if_pos hint]
  · rw [if_neg hint, hpf]
    rfl
/-- C8: `isNumeric s` holds exactly when `s` with the surrounding white space trimmed is not
empty and `strconv.ParseInt(s, 10, 64)` or else `strconv.ParseFloat(s, 64)` reports no error;
a value `ParseInt` accepts is a signed 64-bit integer. White space around a name does not
count: with any white space put before and after it, a name is numeric exactly when it is
without. A numeric name, trimmed, is made of characters of numbers only (digits, signs, the
point, the underscore, the letters of hexadecimal numbers, exponents, `Infinity` and `NaN`):
any other character, white space inside the name included, disqualifies it. Every plain
decimal number (an optional sign, up to 300 digits, at most one point), with or without white
space around it, is numeric. `isNumeric` accepts `123` and `12.5`, also with white space
around, and rejects the empty name, `12a`, a name of blanks, `1 2`, `abc`, `12x` and a number
beyond the range of float64. -/
theorem isNumeric_iff (s : String) :
    (isNumeric s = true ↔
      (TrimSpace s ≠ "" ∧
        ((ParseInt10 (TrimSpace s)).2 = none ∨ ParseFloat64 (TrimSpace s) = none))) ∧
    (∀ t n, ParseInt10 t = (n, none) → -(2 : Int) ^ 63 ≤ n ∧ n < (2 : Int) ^ 63) ∧
    (∀ pre post : List Char, (∀ c ∈ pre, isSpace c = true) → (∀ c ∈ post, isSpace c = true) →
      isNumeric (String.mk (pre ++ s.data ++ post)) = isNumeric s) ∧
    (isNumeric s = true → ∀ c ∈ (TrimSpace s).data, numericChar c = true) ∧
    (∀ (pre post sign ints fracs : List Char) (point : Bool),
      (∀ c ∈ pre, isSpace c = true) → (∀ c ∈ post, isSpace c = true) →
      (sign = [] ∨ sign = ['+'] ∨ sign = ['-']) →
      (∀ c ∈ ints, isDigit c = true) → (∀ c ∈ fracs, isDigit c = true) →
      (point = false → fracs = []) → 0 < ints.length + fracs.length →
      ints.length + fracs.length ≤ 300 →
      isNumeric (String.mk
        (pre ++ (sign ++ (ints ++ (if point then ['.'] else []) ++ fracs)) ++ post)) = true) ∧
    isNumeric "123" = true ∧ isNumeric "12.5" = true ∧
    isNumeric "" = false ∧ isNumeric "12a" = false ∧ isNumeric "  " = false ∧
    isNumeric " 123 " = true ∧ isNumeric "\t12.5\n" = true ∧ isNumeric "-7" = true ∧
    isNumeric "1 2" = false ∧ isNumeric "abc" = false ∧ isNumeric "12x" = false ∧
    isNumeric "1e308" = true ∧ isNumeric "1e309" = false ∧
    numericChar ' ' = false ∧ numericChar 'g' = false ∧ numericChar '/' = false := by
  refine ⟨?_, ParseInt10_range, fun pre post h1 h2 => isNumeric_pad pre post s h1 h2,
    isNumeric_chars s, isNumeric_plain, ?_⟩
  swap
  · decide
  unfold isNumeric
  by_cases h0 : TrimSpace s = ""
  · simp [h0]
  · by_cases h1 : (ParseInt10 (TrimSpace s)).2 = none
    · simp [h0, h1]
    · simp [h0, h1]
section SortProofs

variable {α : Type}

theorem swap_get (data : Mem α) (i j k : Nat) :
    (swap data i j).get k =
      if k = i then data.get j else if k = j then data.get i else data.get k := rfl

theorem swap_get_left (data : Mem α) (i j : Nat) : (swap data i j).get i = data.get j := by
  simp [swap_get]

theorem swap_get_right (data : Mem α) (i j : Nat) : (swap data i j).get j = data.get i := by
  by_cases h : j = i
  · simp [swap_get, h]
  · simp [swap_get, h]

theorem swap_get_other (data : Mem α) (i j k : Nat) (h1 : k ≠ i) (h2 : k ≠ j) :
    (swap data i j).get k = data.get k := by
  simp [swap_get, h1, h2]

theorem PermOn.refl (a b : Nat) (d : Mem α) : PermOn a b d d :=
  ⟨1, fun _ _ => rfl, fun _ => rfl⟩

theorem PermOn.trans {a b : Nat} {d1 d2 d3 : Mem α} (h1 : PermOn a b d1 d2)
    (h2 : PermOn a b d2 d3) : PermOn a b d1 d3 := by
  obtain ⟨σ, hσ, e1⟩ := h1
  obtain ⟨τ, hτ, e2⟩ := h2
  refine ⟨σ * τ, ?_, ?_⟩
  · intro k hk
    simp [Equiv.Perm.mul_apply, hτ k hk, hσ k hk]
  · intro k
    rw [e2, e1]
    rfl

theorem PermOn.swap {a b : Nat} (d : Mem α) (i j : Nat) (hi : a ≤ i ∧ i < b)
    (hj : a ≤ j ∧ j < b) : PermOn a b d (swap d i j) := by
  refine ⟨Equiv.swap i j, ?_, ?_⟩
  · intro k hk
    apply Equiv.swap_apply_of_ne_of_ne
    · rintro rfl; exact hk hi
    · rintro rfl; exact hk hj
  · intro k
    rw [swap_get, Equiv.swap_apply_def]
    split_ifs <;> rfl

theorem PermOn.mono {a b a' b' : Nat} {d d' : Mem α} (h : PermOn a b d d') (ha : a' ≤ a)
    (hb : b ≤ b') : PermOn a' b' d d' := by
  obtain ⟨σ, hσ, e⟩ := h
  exact ⟨σ, fun k hk => hσ k (fun h => hk ⟨by omega, by omega⟩), e⟩

theorem PermOn.get_outside {a b : Nat} {d d' : Mem α} (h : PermOn a b d d') (k : Nat)
    (hk : k < a ∨ b ≤ k) : d'.get k = d.get k := by
  obtain ⟨σ, hσ, e⟩ := h
  rw [e, hσ k (by omega)]

theorem PermOn.exists_source {a b : Nat} {d d' : Mem α} (h : PermOn a b d d') (k : Nat)
    (hk : a ≤ k ∧ k < b) : ∃ m, (a ≤ m ∧ m < b) ∧ d'.get k = d.get m := by
  obtain ⟨σ, hσ, e⟩ := h
  refine ⟨σ k, ?_, e k⟩
  by_contra hm
  have h1 := hσ (σ k) hm
  have h2 : σ k = k := σ.injective h1
  rw [h2] at hm
  exact hm hk

theorem PermOn.forall {a b : Nat} {d d' : Mem α} (h : PermOn a b d d') (P : α → Prop)
    (hP : ∀ k, a ≤ k → k < b → P (d.get k)) : ∀ k, a ≤ k → k < b → P (d'.get k) := by
  intro k h1 h2
  obtain ⟨m, hm, e⟩ := h.exists_source k ⟨h1, h2⟩
  rw [e]
  exact hP m hm.1 hm.2

end SortProofs
section InsertionProofs

variable {α : Type} (less : α → α → Bool) (key : α → Int)

theorem insertionInner_spec (hk : ∀ x y, less x y = true ↔ key x < key y) (a i : Nat) :
    ∀ (j : Nat) (d : Mem α), a ≤ j → j ≤ i →
      (∀ p q, a ≤ p → p < q → q ≤ i → p ≠ j → q ≠ j → key (d.get p) ≤ key (d.get q)) →
      (∀ q, j < q → q ≤ i → key (d.get j) ≤ key (d.get q)) →
      SortedOn key (insertionInner less a j d) a (i + 1) ∧
        PermOn a (i + 1) d (insertionInner less a j d) := by
  intro j
  induction j with
  | zero =>
    intro d haj _ h1 h2
    refine ⟨?_, PermOn.refl _ _ _⟩
    intro p q hp hpq hq
    simp only [insertionInner]
    by_cases hp0 : p = 0
    · subst hp0; exact h2 q hpq (by omega)
    · exact h1 p q hp hpq (by omega) hp0 (by omega)
  | succ j ih =>
    intro d haj hji h1 h2
    rw [insertionInner]
    by_cases hc : (decide (j + 1 > a) && less (d.get (j + 1)) (d.get j)) = true
    · rw [if_pos hc]
      simp only [Bool.and_eq_true, decide_eq_true_eq] at hc
      obtain ⟨hgt, hlt⟩ := hc
      rw [hk] at hlt
      have hsw : ∀ k, key ((swap d (j + 1) j).get k) =
          if k = j + 1 then key (d.get j) else if k = j then key (d.get (j + 1))
          else key (d.get k) := by
        intro k; rw [swap_get]; split_ifs <;> rfl
      obtain ⟨s, p⟩ := ih (swap d (j + 1) j) (by omega) (by omega)
        (by
          intro p q hp hpq hq hpj hqj
          rw [hsw p, hsw q]
          by_cases hq1 : q = j + 1
          · subst hq1
            have hpj1 : p ≠ j + 1 := by omega
            simp only [hpj1, hpj, if_false, if_true]
            exact h1 p j hp (by omega) (by omega) (by omega) (by omega)
          · by_cases hp1 : p = j + 1
            · subst hp1
              simp only [hq1, hqj, if_false, if_true]
              have := h1 j q (by omega) (by omega) hq (by omega) hq1
              exact this
            · simp only [hq1, hqj, hp1, hpj, if_false]
              exact h1 p q hp hpq hq hp1 hq1)
        (by
          intro q hjq hq
          rw [hsw j, hsw q]
          have hj1 : j ≠ j + 1 := by omega
          simp only [hj1, if_false, if_true]
          by_cases hq1 : q = j + 1
          · subst hq1; simp only [if_true]; omega
          · have hqj : q ≠ j := by omega
            simp only [hq1, hqj, if_false]
            exact h2 q (by omega) hq)
      exact ⟨s, (PermOn.swap d (j + 1) j ⟨by omega, by omega⟩ ⟨by omega, by omega⟩).trans p⟩
    · rw [if_neg hc]
      refine ⟨?_, PermOn.refl _ _ _⟩
      simp only [Bool.and_eq_true, decide_eq_true_eq, not_and, Bool.not_eq_true] at hc
      intro p q hp hpq hq
      by_cases hp1 : p = j + 1
      · subst hp1; exact h2 q hpq (by omega)
      · by_cases hq1 : q = j + 1
        · subst hq1
          have hlt := hc (by omega)
          have hle : key (d.get j) ≤ key (d.get (j + 1)) := by
            by_contra hcon
            have : less (d.get (j + 1)) (d.get j) = true := (hk _ _).mpr (by omega)
            rw [hlt] at this; exact Bool.noConfusion this
          by_cases hpj : p = j
          · subst hpj; exact hle
          · have := h1 p j hp (by omega) (by omega) hp1 (by omega)
            omega
        · exact h1 p q hp hpq (by omega) hp1 hq1

theorem insertionOuter_spec (hk : ∀ x y, less x y = true ↔ key x < key y) (a b : Nat) :
    ∀ (n i : Nat) (d : Mem α), a < i → i ≤ b → b ≤ i + n → SortedOn key d a i →
      SortedOn key (insertionOuter less a b n i d) a b ∧
        PermOn a b d (insertionOuter less a b n i d) := by
  intro n
  induction n with
  | zero =>
    intro i d _ hib hbn hs
    have : i = b := by omega
    subst this
    exact ⟨hs, PermOn.refl _ _ _⟩
  | succ n ih =>
    intro i d hai hib hbn hs
    rw [insertionOuter]
    by_cases hlt : i < b
    · rw [if_pos hlt]
      obtain ⟨s1, p1⟩ := insertionInner_spec less key hk a i i d (by omega) (by omega)
        (fun p q hp hpq hq _ hqi => hs p q hp hpq (by omega))
        (fun q hq1 hq2 => by omega)
      obtain ⟨s2, p2⟩ := ih (i + 1) _ (by omega) (by omega) (by omega) s1
      exact ⟨s2, (p1.mono (Nat.le_refl a) (by omega)).trans p2⟩
    · rw [if_neg hlt]
      have : i = b := by omega
      subst this
      exact ⟨hs, PermOn.refl _ _ _⟩

theorem insertionSortLessFunc_spec (hk : ∀ x y, less x y = true ↔ key x < key y)
    (d : Mem α) (a b : Nat) :
    SortedOn key (insertionSortLessFunc less d a b) a b ∧
      PermOn a b d (insertionSortLessFunc less d a b) := by
  unfold insertionSortLessFunc
  by_cases h : a + 1 ≤ b
  · exact insertionOuter_spec less key hk a b (b - (a + 1)) (a + 1) d (by omega) h (by omega)
      (fun i j hi hij hj => by omega)
  · have h0 : b - (a + 1) = 0 := by omega
    rw [h0]
    simp only [insertionOuter]
    exact ⟨fun i j hi hij hj => by omega, PermOn.refl _ _ _⟩

end InsertionProofs
section HeapProofs

variable {α : Type} (less : α → α → Bool) (key : α → Int)

theorem less_false (hk : ∀ x y, less x y = true ↔ key x < key y) (x y : α) :
    less x y = false ↔ key y ≤ key x := by
  constructor
  · intro h
    by_contra hc
    have : less x y = true := (hk x y).mpr (by omega)
    rw [h] at this; exact Bool.noConfusion this
  · intro h
    cases hl : less x y with
    | false => rfl
    | true => have := (hk x y).mp hl; omega

theorem siftDownLessFunc_spec (hk : ∀ x y, less x y = true ↔ key x < key y)
    (hi first lo : Nat) :
    ∀ (fuel root : Nat) (d : Mem α), hi ≤ fuel + root → lo ≤ root →
      (∀ r c, lo ≤ r → r ≠ root → (c = 2 * r + 1 ∨ c = 2 * r + 2) → c < hi →
        key (d.get (first + c)) ≤ key (d.get (first + r))) →
      (∀ r c, lo ≤ r → (root = 2 * r + 1 ∨ root = 2 * r + 2) →
        (c = 2 * root + 1 ∨ c = 2 * root + 2) → c < hi →
        key (d.get (first + c)) ≤ key (d.get (first + r))) →
      HeapOn key (siftDownLessFunc less hi first fuel root d) first lo hi ∧
        PermOn (first + root) (first + hi) d (siftDownLessFunc less hi first fuel root d) := by
  intro fuel
  induction fuel with
  | zero =>
    intro root d hf _ h1 _
    refine ⟨?_, PermOn.refl _ _ _⟩
    intro r c hr hc hch
    simp only [siftDownLessFunc]
    exact h1 r c hr (by omega) hc hch
  | succ fuel ih =>
    intro root d hf hlo h1 h2
    rw [siftDownLessFunc]
    simp only []
    by_cases hge : 2 * root + 1 ≥ hi
    · rw [if_pos hge]
      refine ⟨?_, PermOn.refl _ _ _⟩
      intro r c hr hc hch
      exact h1 r c hr (by omega) hc hch
    · rw [if_neg hge]
      -- the greater child
      obtain ⟨ch, hch_def, hch1, hch2, hch3⟩ : ∃ ch,
          ch = (if (decide (2 * root + 1 + 1 < hi) &&
              less (d.get (first + (2 * root + 1))) (d.get (first + (2 * root + 1) + 1))) = true
            then 2 * root + 1 + 1 else 2 * root + 1) ∧
          (ch = 2 * root + 1 ∨ ch = 2 * root + 2) ∧ ch < hi ∧
          ∀ c, (c = 2 * root + 1 ∨ c = 2 * root + 2) → c < hi →
            key (d.get (first + c)) ≤ key (d.get (first + ch)) := by
        refine ⟨_, rfl, ?_⟩
        by_cases hc : (decide (2 * root + 1 + 1 < hi) &&
            less (d.get (first + (2 * root + 1))) (d.get (first + (2 * root + 1) + 1))) = true
        · rw [if_pos hc]
          simp only [Bool.and_eq_true, decide_eq_true_eq] at hc
          obtain ⟨hc1, hc2⟩ := hc
          rw [hk] at hc2
          refine ⟨Or.inr rfl, hc1, ?_⟩
          intro c hc hch
          rcases hc with rfl | rfl
          · have e : first + (2 * root + 1) + 1 = first + (2 * root + 1 + 1) := by omega
            rw [e] at hc2; omega
          · exact le_refl _
        · rw [if_neg hc]
          simp only [Bool.and_eq_true, decide_eq_true_eq, not_and, Bool.not_eq_true] at hc
          refine ⟨Or.inl rfl, by omega, ?_⟩
          intro c hcc hch
          rcases hcc with rfl | rfl
          · exact le_refl _
          · have := (less_false less key hk _ _).mp (hc (by omega))
            have e : first + (2 * root + 1) + 1 = first + (2 * root + 2) := by omega
            rw [e] at this; exact this
      rw [← hch_def]
      by_cases hnl : (!less (d.get (first + root)) (d.get (first + ch))) = true
      · rw [if_pos hnl]
        refine ⟨?_, PermOn.refl _ _ _⟩
        simp only [Bool.not_eq_true', ] at hnl
        have hle := (less_false less key hk _ _).mp hnl
        intro r c hr hc hchi
        by_cases hrr : r = root
        · subst hrr
          have := hch3 c hc hchi
          omega
        · exact h1 r c hr hrr hc hchi
      · rw [if_neg hnl]
        simp only [Bool.not_eq_true', Bool.not_eq_false] at hnl
        rw [hk] at hnl
        have hsw : ∀ x, key ((swap d (first + root) (first + ch)).get (first + x)) =
            if x = root then key (d.get (first + ch)) else if x = ch then key (d.get (first + root))
            else key (d.get (first + x)) := by
          intro x
          rw [swap_get]
          by_cases hx1 : x = root
          · subst hx1; simp
          · by_cases hx2 : x = ch
            · subst hx2
              have : first + x ≠ first + root := by omega
              simp [this, hx1]
            · have e1 : first + x ≠ first + root := by omega
              have e2 : first + x ≠ first + ch := by omega
              simp [e1, e2, hx1, hx2]
        obtain ⟨s, p⟩ := ih ch (swap d (first + root) (first + ch)) (by omega) (by omega)
          (by
            intro r c hr hrc hc hchi
            rw [hsw c, hsw r]
            by_cases hrr : r = root
            · subst hrr
              have hcr : c ≠ r := by omega
              simp only [hcr, if_false, if_true]
              by_cases hcc : c = ch
              · simp only [hcc, if_true]; omega
              · simp only [hcc, if_false]
                exact hch3 c hc hchi
            · simp only [hrr, hrc, if_false]
              by_cases hcr : c = root
              · simp only [hcr, if_true]
                exact h2 r ch hr (by omega) hch1 hch2
              · have hcc : c ≠ ch := by omega
                simp only [hcr, hcc, if_false]
                exact h1 r c hr hrr hc hchi)
          (by
            intro r c hr hrc hc hchi
            have hrr : r = root := by omega
            subst hrr
            rw [hsw c, hsw r]
            have hc1 : c ≠ r := by omega
            have hc2 : c ≠ ch := by omega
            simp only [hc1, hc2, if_false, if_true]
            exact h1 ch c (by omega) (by omega) hc hchi)
        refine ⟨s, ?_⟩
        exact (PermOn.swap d (first + root) (first + ch) ⟨by omega, by omega⟩
          ⟨by omega, by omega⟩).trans (p.mono (by omega) (Nat.le_refl _))

end HeapProofs
section HeapProofs2

variable {α : Type} (less : α → α → Bool) (key : α → Int)

theorem heapBuild_spec (hk : ∀ x y, less x y = true ↔ key x < key y) (hi first : Nat) :
    ∀ (i : Nat) (d : Mem α), HeapOn key d first (i + 1) hi →
      HeapOn key (heapBuild less hi first i d) first 0 hi ∧
        PermOn first (first + hi) d (heapBuild less hi first i d) := by
  intro i
  induction i with
  | zero =>
    intro d h
    rw [heapBuild]
    obtain ⟨s, p⟩ := siftDownLessFunc_spec less key hk hi first 0 hi 0 d (by omega) (by omega)
      (fun r c hr hr0 hc hch => h r c (by omega) hc hch)
      (fun r c _ hr _ _ => by omega)
    exact ⟨s, p.mono (by omega) (Nat.le_refl _)⟩
  | succ i ih =>
    intro d h
    rw [heapBuild]
    obtain ⟨s, p⟩ := siftDownLessFunc_spec less key hk hi first (i + 1) hi (i + 1) d
      (by omega) (by omega)
      (fun r c hr hr0 hc hch => h r c (by omega) hc hch)
      (fun r c hr hrc _ _ => by omega)
    obtain ⟨s2, p2⟩ := ih _ s
    exact ⟨s2, (p.mono (by omega) (Nat.le_refl _)).trans p2⟩

theorem heap_root_max (d : Mem α) (first hi : Nat) (h : HeapOn key d first 0 hi) :
    ∀ r, r < hi → key (d.get (first + r)) ≤ key (d.get (first + 0)) := by
  intro r
  induction r using Nat.strong_induction_on with
  | _ r ih =>
    intro hr
    by_cases h0 : r = 0
    · subst h0; exact le_refl _
    · have hp := ih ((r - 1) / 2) (by omega) (by omega)
      have hc := h ((r - 1) / 2) r (by omega) (by omega) hr
      omega

theorem heapPop_spec (hk : ∀ x y, less x y = true ↔ key x < key y) (first hi : Nat) :
    ∀ (i : Nat) (d : Mem α), i < hi → HeapOn key d first 0 (i + 1) →
      SortedOn key d (first + (i + 1)) (first + hi) →
      (∀ x y, x ≤ i → i < y → y < hi → key (d.get (first + x)) ≤ key (d.get (first + y))) →
      SortedOn key (heapPop less first i d) first (first + hi) ∧
        PermOn first (first + hi) d (heapPop less first i d) := by
  intro i
  induction i with
  | zero =>
    intro d h0 _ hs hb
    rw [heapPop]
    simp only [siftDownLessFunc]
    have hsame : ∀ k, (swap d first (first + 0)).get k = d.get k := by
      intro k
      rw [swap_get]
      by_cases hk1 : k = first
      · subst hk1; simp
      · simp [hk1]
    refine ⟨?_, PermOn.swap d first (first + 0) ⟨by omega, by omega⟩ ⟨by omega, by omega⟩⟩
    intro p q hp hpq hq
    rw [hsame p, hsame q]
    by_cases hpf : p = first
    · subst hpf
      have := hb 0 (q - p) (by omega) (by omega) (by omega)
      have e1 : p + 0 = p := by omega
      have e2 : p + (q - p) = q := by omega
      rw [e1, e2] at this; exact this
    · exact hs p q (by omega) hpq hq
  | succ i ih =>
    intro d hih hheap hs hb
    rw [heapPop]
    have hmax := heap_root_max key d first (i + 1 + 1) hheap
    have hsw : ∀ x, key ((swap d first (first + (i + 1))).get (first + x)) =
        if x = 0 then key (d.get (first + (i + 1))) else if x = i + 1 then key (d.get (first + 0))
        else key (d.get (first + x)) := by
      intro x
      rw [swap_get]
      by_cases hx1 : x = 0
      · subst hx1; simp
      · by_cases hx2 : x = i + 1
        · subst hx2
          simp
        · have e1 : first + x ≠ first := by omega
          have e2 : first + x ≠ first + (i + 1) := by omega
          simp [e1, e2, hx1, hx2]
    obtain ⟨s, p⟩ := siftDownLessFunc_spec less key hk (i + 1) first 0 (i + 1) 0
      (swap d first (first + (i + 1))) (by omega) (by omega)
      (by
        intro r c hr hr0 hc hch
        rw [hsw c, hsw r]
        have h1 : c ≠ 0 := by omega
        have h2 : c ≠ i + 1 := by omega
        have h3 : r ≠ i + 1 := by omega
        simp only [h1, h2, h3, hr0, if_false]
        exact hheap r c (by omega) hc (by omega))
      (fun r c _ hr _ _ => by omega)
    have p' : PermOn first (first + (i + 1)) (swap d first (first + (i + 1)))
        (siftDownLessFunc less (i + 1) first (i + 1) 0 (swap d first (first + (i + 1)))) :=
      p.mono (by omega) (Nat.le_refl _)
    have hout : ∀ y, i + 1 ≤ y →
        (siftDownLessFunc less (i + 1) first (i + 1) 0 (swap d first (first + (i + 1)))).get
          (first + y) = (swap d first (first + (i + 1))).get (first + y) :=
      fun y hy => p'.get_outside (first + y) (by omega)
    -- after the swap every element of the heap is at most the elements from `i + 1` on
    have hb1 : ∀ x y, x ≤ i → i < y → y < hi →
        key ((swap d first (first + (i + 1))).get (first + x)) ≤
          key ((swap d first (first + (i + 1))).get (first + y)) := by
      intro x y hx hy hyh
      rw [hsw x, hsw y]
      have hy0 : y ≠ 0 := by omega
      have hxi : x ≠ i + 1 := by omega
      simp only [hy0, hxi, if_false]
      by_cases hx0 : x = 0
      · simp only [hx0, if_true]
        by_cases hy1 : y = i + 1
        · simp only [hy1, if_true]
          exact hmax (i + 1) (by omega)
        · simp only [hy1, if_false]
          exact hb (i + 1) y (by omega) (by omega) hyh
      · simp only [hx0, if_false]
        by_cases hy1 : y = i + 1
        · simp only [hy1, if_true]
          exact hmax x (by omega)
        · simp only [hy1, if_false]
          exact hb x y (by omega) (by omega) hyh
    obtain ⟨s2, p2⟩ := ih
      (siftDownLessFunc less (i + 1) first (i + 1) 0 (swap d first (first + (i + 1))))
      (by omega) s
      (by
        intro p q hp hpq hq
        have ep : p = first + (p - first) := by omega
        have eq : q = first + (q - first) := by omega
        rw [ep, eq, hout _ (by omega), hout _ (by omega), hsw, hsw]
        have h1 : p - first ≠ 0 := by omega
        have h2 : q - first ≠ 0 := by omega
        have h3 : q - first ≠ i + 1 := by omega
        simp only [h1, h2, h3, if_false]
        by_cases hp1 : p - first = i + 1
        · simp only [hp1, if_true]
          exact hb 0 (q - first) (by omega) (by omega) (by omega)
        · simp only [hp1, if_false]
          rw [← ep, ← eq]
          exact hs p q (by omega) hpq hq)
      (by
        intro x y hx hy hyh
        rw [hout y (by omega)]
        have := p'.forall
          (fun e => key e ≤ key ((swap d first (first + (i + 1))).get (first + y)))
          (by
            intro k hk1 hk2
            have ek : k = first + (k - first) := by omega
            rw [ek]
            exact hb1 (k - first) y (by omega) hy hyh)
          (first + x) (by omega) (by omega)
        exact this)
    refine ⟨s2, ?_⟩
    exact ((PermOn.swap d first (first + (i + 1)) ⟨by omega, by omega⟩
      ⟨by omega, by omega⟩).trans (p'.mono (Nat.le_refl _) (by omega))).trans p2

theorem heapSortLessFunc_spec (hk : ∀ x y, less x y = true ↔ key x < key y)
    (d : Mem α) (a b : Nat) :
    SortedOn key (heapSortLessFunc less d a b) a b ∧
      PermOn a b d (heapSortLessFunc less d a b) := by
  unfold heapSortLessFunc
  simp only []
  by_cases h0 : b - a = 0
  · rw [if_pos h0]
    exact ⟨fun i j hi hij hj => by omega, PermOn.refl _ _ _⟩
  · rw [if_neg h0]
    obtain ⟨s, p⟩ := heapBuild_spec less key hk (b - a) a ((b - a - 1) / 2) d
      (fun r c hr hc hch => by omega)
    obtain ⟨s2, p2⟩ := heapPop_spec less key hk a (b - a) (b - a - 1) _ (by omega)
      (by
        have e : b - a - 1 + 1 = b - a := by omega
        rw [e]; exact s)
      (fun i j hi hij hj => by omega)
      (fun x y hx hy hyh => by omega)
    have e : a + (b - a) = b := by omega
    rw [e] at p p2 s2
    exact ⟨s2, p.trans p2⟩

end HeapProofs2
section PartitionProofs

variable {α : Type} (less : α → α → Bool) (key : α → Int)

theorem scanUp_spec (hk : ∀ x y, less x y = true ↔ key x < key y) (d : Mem α) (a j : Nat) :
    ∀ (fuel i : Nat), j + 1 ≤ i + fuel → i ≤ j + 1 →
      i ≤ scanUp less d a j fuel i ∧ scanUp less d a j fuel i ≤ j + 1 ∧
      (∀ k, i ≤ k → k < scanUp less d a j fuel i → key (d.get k) < key (d.get a)) ∧
      (scanUp less d a j fuel i ≤ j → key (d.get a) ≤ key (d.get (scanUp less d a j fuel i))) := by
  intro fuel
  induction fuel with
  | zero =>
    intro i h1 h2
    simp only [scanUp]
    exact ⟨le_refl _, h2, fun k hk1 hk2 => by omega, fun h => by omega⟩
  | succ fuel ih =>
    intro i h1 h2
    rw [scanUp]
    by_cases hc : (decide (i ≤ j) && less (d.get i) (d.get a)) = true
    · rw [if_pos hc]
      simp only [Bool.and_eq_true, decide_eq_true_eq] at hc
      obtain ⟨hij, hlt⟩ := hc
      rw [hk] at hlt
      obtain ⟨r1, r2, r3, r4⟩ := ih (i + 1) (by omega) (by omega)
      refine ⟨by omega, r2, ?_, r4⟩
      intro k hk1 hk2
      by_cases hki : k = i
      · subst hki; exact hlt
      · exact r3 k (by omega) hk2
    · rw [if_neg hc]
      simp only [Bool.and_eq_true, decide_eq_true_eq, not_and, Bool.not_eq_true] at hc
      exact ⟨le_refl _, h2, fun k hk1 hk2 => by omega,
        fun h => (less_false less key hk _ _).mp (hc h)⟩

theorem scanDown_spec (hk : ∀ x y, less x y = true ↔ key x < key y) (d : Mem α) (a i : Nat)
    (hi : 1 ≤ i) :
    ∀ (fuel j : Nat), j + 1 ≤ i + fuel → i ≤ j + 1 →
      scanDown less d a i fuel j ≤ j ∧ i ≤ scanDown less d a i fuel j + 1 ∧
      (∀ k, scanDown less d a i fuel j < k → k ≤ j → key (d.get a) ≤ key (d.get k)) ∧
      (i ≤ scanDown less d a i fuel j →
        key (d.get (scanDown less d a i fuel j)) < key (d.get a)) := by
  intro fuel
  induction fuel with
  | zero =>
    intro j h1 h2
    simp only [scanDown]
    exact ⟨le_refl _, h2, fun k hk1 hk2 => by omega, fun h => by omega⟩
  | succ fuel ih =>
    intro j h1 h2
    rw [scanDown]
    by_cases hc : (decide (i ≤ j) && !less (d.get j) (d.get a)) = true
    · rw [if_pos hc]
      simp only [Bool.and_eq_true, decide_eq_true_eq, Bool.not_eq_true'] at hc
      obtain ⟨hij, hge⟩ := hc
      have hge' := (less_false less key hk _ _).mp hge
      obtain ⟨r1, r2, r3, r4⟩ := ih (j - 1) (by omega) (by omega)
      refine ⟨by omega, r2, ?_, r4⟩
      intro k hk1 hk2
      by_cases hkj : k = j
      · subst hkj; exact hge'
      · exact r3 k hk1 (by omega)
    · rw [if_neg hc]
      simp only [Bool.and_eq_true, decide_eq_true_eq, not_and, Bool.not_eq_true,
        Bool.not_eq_false'] at hc
      exact ⟨le_refl _, h2, fun k hk1 hk2 => by omega, fun h => (hk _ _).mp (hc h)⟩

theorem partitionLoop_spec (hk : ∀ x y, less x y = true ↔ key x < key y) (a b : Nat) :
    ∀ (fuel i j : Nat) (d : Mem α), j + 1 ≤ i + fuel → a < i → i ≤ j + 1 → j < b →
      (∀ k, a < k → k < i → key (d.get k) < key (d.get a)) →
      (∀ k, j < k → k < b → key (d.get a) ≤ key (d.get k)) →
      a ≤ (partitionLoop less a fuel i j d).2.2 ∧ (partitionLoop less a fuel i j d).2.2 < b ∧
      (partitionLoop less a fuel i j d).1.get a = d.get a ∧
      PermOn (a + 1) b d (partitionLoop less a fuel i j d).1 ∧
      (∀ k, a < k → k ≤ (partitionLoop less a fuel i j d).2.2 →
        key ((partitionLoop less a fuel i j d).1.get k) < key (d.get a)) ∧
      (∀ k, (partitionLoop less a fuel i j d).2.2 < k → k < b →
        key (d.get a) ≤ key ((partitionLoop less a fuel i j d).1.get k)) := by
  intro fuel
  induction fuel with
  | zero =>
    intro i j d h1 h2 h3 h4 h5 h6
    simp only [partitionLoop]
    exact ⟨by omega, h4, trivial, PermOn.refl _ _ _, fun k hk1 hk2 => h5 k hk1 (by omega), h6⟩
  | succ fuel ih =>
    intro i j d h1 h2 h3 h4 h5 h6
    rw [partitionLoop]
    obtain ⟨u1, u2, u3, u4⟩ := scanUp_spec less key hk d a j (j + 1 - i) i (by omega) h3
    generalize scanUp less d a j (j + 1 - i) i = i1 at u1 u2 u3 u4 ⊢
    obtain ⟨v1, v2, v3, v4⟩ := scanDown_spec less key hk d a i1 (by omega) (j + 1 - i1) j
      (by omega) u2
    generalize scanDown less d a i1 (j + 1 - i1) j = j1 at v1 v2 v3 v4 ⊢
    by_cases hgt : i1 > j1
    · rw [if_pos hgt]
      dsimp only
      refine ⟨by omega, by omega, rfl, PermOn.refl _ _ _, ?_, ?_⟩
      · intro k hk1 hk2
        by_cases hki : k < i
        · exact h5 k hk1 hki
        · exact u3 k (by omega) (by omega)
      · intro k hk1 hk2
        by_cases hkj : j < k
        · exact h6 k hkj hk2
        · exact v3 k hk1 (by omega)
    · rw [if_neg hgt]
      have hA := u4 (by omega)
      have hB := v4 (by omega)
      have hne : i1 ≠ j1 := by
        intro e; rw [e] at hA; omega
      have hsw : ∀ k, key ((swap d i1 j1).get k) =
          if k = i1 then key (d.get j1) else if k = j1 then key (d.get i1)
          else key (d.get k) := by
        intro k; rw [swap_get]; split_ifs <;> rfl
      have hsa : (swap d i1 j1).get a = d.get a :=
        swap_get_other d i1 j1 a (by omega) (by omega)
      have := ih (i1 + 1) (j1 - 1) (swap d i1 j1) (by omega) (by omega) (by omega) (by omega)
        (by
          intro k hk1 hk2
          rw [hsw k, hsa]
          by_cases hki : k = i1
          · simp only [hki, if_true]; exact hB
          · have hkj : k ≠ j1 := by omega
            simp only [hki, hkj, if_false]
            by_cases hki2 : k < i
            · exact h5 k hk1 hki2
            · exact u3 k (by omega) (by omega))
        (by
          intro k hk1 hk2
          rw [hsw k, hsa]
          have hki : k ≠ i1 := by omega
          by_cases hkj : k = j1
          · rw [if_neg hki, if_pos hkj]; exact hA
          · rw [if_neg hki, if_neg hkj]
            by_cases hkj2 : j < k
            · exact h6 k hkj2 hk2
            · exact v3 k (by omega) (by omega))
      rw [hsa] at this
      obtain ⟨w1, w2, w3, w4, w5, w6⟩ := this
      exact ⟨w1, w2, w3,
        (PermOn.swap d i1 j1 ⟨by omega, by omega⟩ ⟨by omega, by omega⟩).trans w4, w5, w6⟩

theorem partitionLessFunc_spec (hk : ∀ x y, less x y = true ↔ key x < key y)
    (d : Mem α) (a b pivot : Nat) (hp1 : a ≤ pivot) (hp2 : pivot < b) :
    a ≤ (partitionLessFunc less d a b pivot).2.1 ∧ (partitionLessFunc less d a b pivot).2.1 < b ∧
    PermOn a b d (partitionLessFunc less d a b pivot).1 ∧
    (∀ k, a ≤ k → k < (partitionLessFunc less d a b pivot).2.1 →
      key ((partitionLessFunc less d a b pivot).1.get k) <
        key ((partitionLessFunc less d a b pivot).1.get (partitionLessFunc less d a b pivot).2.1)) ∧
    (∀ k, (partitionLessFunc less d a b pivot).2.1 < k → k < b →
      key ((partitionLessFunc less d a b pivot).1.get (partitionLessFunc less d a b pivot).2.1) ≤
        key ((partitionLessFunc less d a b pivot).1.get k)) := by
  unfold partitionLessFunc
  simp only []
  have p0 : PermOn a b d (swap d a pivot) :=
    PermOn.swap d a pivot ⟨by omega, by omega⟩ ⟨by omega, by omega⟩
  generalize swap d a pivot = d0 at p0 ⊢
  obtain ⟨u1, u2, u3, u4⟩ := scanUp_spec less key hk d0 a (b - 1) (b - 1 + 1 - (a + 1)) (a + 1)
    (by omega) (by omega)
  generalize scanUp less d0 a (b - 1) (b - 1 + 1 - (a + 1)) (a + 1) = i1 at u1 u2 u3 u4 ⊢
  obtain ⟨v1, v2, v3, v4⟩ := scanDown_spec less key hk d0 a i1 (by omega) (b - 1 + 1 - i1) (b - 1)
    (by omega) u2
  generalize scanDown less d0 a i1 (b - 1 + 1 - i1) (b - 1) = j1 at v1 v2 v3 v4 ⊢
  -- the closing swap of the pivot into its place
  have hfinal : ∀ (d1 : Mem α) (j : Nat), a ≤ j → j < b → d1.get a = d0.get a →
      PermOn a b d0 d1 →
      (∀ k, a < k → k ≤ j → key (d1.get k) < key (d0.get a)) →
      (∀ k, j < k → k < b → key (d0.get a) ≤ key (d1.get k)) →
      PermOn a b d (swap d1 j a) ∧
      (∀ k, a ≤ k → k < j → key ((swap d1 j a).get k) < key ((swap d1 j a).get j)) ∧
      (∀ k, j < k → k < b → key ((swap d1 j a).get j) ≤ key ((swap d1 j a).get k)) := by
    intro d1 j hj1 hj2 ha hperm hlo hhi
    have hsw : ∀ k, key ((swap d1 j a).get k) =
        if k = j then key (d1.get a) else if k = a then key (d1.get j)
        else key (d1.get k) := by
      intro k; rw [swap_get]; split_ifs <;> rfl
    refine ⟨(p0.trans hperm).trans
      (PermOn.swap d1 j a ⟨by omega, by omega⟩ ⟨by omega, by omega⟩), ?_, ?_⟩
    · intro k hk1 hk2
      rw [hsw k, hsw j, ha]
      have hkj : k ≠ j := by omega
      simp only [hkj, if_false, if_true]
      by_cases hka : k = a
      · simp only [hka, if_true]
        exact hlo j (by omega) (le_refl _)
      · simp only [hka, if_false]
        exact hlo k (by omega) (by omega)
    · intro k hk1 hk2
      rw [hsw k, hsw j, ha]
      have hkj : k ≠ j := by omega
      have hka : k ≠ a := by omega
      simp only [hkj, hka, if_false, if_true]
      exact hhi k hk1 hk2
  by_cases hgt : i1 > j1
  · rw [if_pos hgt]
    dsimp only
    obtain ⟨f1, f2, f3⟩ := hfinal d0 j1 (by omega) (by omega) rfl (PermOn.refl _ _ _)
      (fun k hk1 hk2 => u3 k (by omega) (by omega))
      (fun k hk1 hk2 => v3 k hk1 (by omega))
    exact ⟨by omega, by omega, f1, f2, f3⟩
  · rw [if_neg hgt]
    dsimp only
    have hA := u4 (by omega)
    have hB := v4 (by omega)
    have hne : i1 ≠ j1 := by
      intro e; rw [e] at hA; omega
    have hsw : ∀ k, key ((swap d0 i1 j1).get k) =
        if k = i1 then key (d0.get j1) else if k = j1 then key (d0.get i1)
        else key (d0.get k) := by
      intro k; rw [swap_get]; split_ifs <;> rfl
    have hsa : (swap d0 i1 j1).get a = d0.get a :=
      swap_get_other d0 i1 j1 a (by omega) (by omega)
    have := partitionLoop_spec less key hk a b (b - a) (i1 + 1) (j1 - 1) (swap d0 i1 j1)
      (by omega) (by omega) (by omega) (by omega)
      (by
        intro k hk1 hk2
        rw [hsw k, hsa]
        by_cases hki : k = i1
        · simp only [hki, if_true]; exact hB
        · have hkj : k ≠ j1 := by omega
          simp only [hki, hkj, if_false]
          exact u3 k (by omega) (by omega))
      (by
        intro k hk1 hk2
        rw [hsw k, hsa]
        have hki : k ≠ i1 := by omega
        by_cases hkj : k = j1
        · rw [if_neg hki, if_pos hkj]; exact hA
        · rw [if_neg hki, if_neg hkj]
          exact v3 k (by omega) (by omega))
    rw [hsa] at this
    obtain ⟨w1, w2, w3, w4, w5, w6⟩ := this
    obtain ⟨f1, f2, f3⟩ := hfinal _ _ w1 w2 w3
      ((PermOn.swap d0 i1 j1 ⟨by omega, by omega⟩ ⟨by omega, by omega⟩).trans
        (w4.mono (by omega) (Nat.le_refl _))) w5 w6
    exact ⟨w1, w2, f1, f2, f3⟩

end PartitionProofs
section PartitionEqualProofs

variable {α : Type} (less : α → α → Bool) (key : α → Int)

theorem scanUpEqual_spec (hk : ∀ x y, less x y = true ↔ key x < key y) (d : Mem α)
    (a j : Nat) :
    ∀ (fuel i : Nat), j + 1 ≤ i + fuel → i ≤ j + 1 →
      i ≤ scanUpEqual less d a j fuel i ∧ scanUpEqual less d a j fuel i ≤ j + 1 ∧
      (∀ k, i ≤ k → k < scanUpEqual less d a j fuel i → key (d.get k) ≤ key (d.get a)) ∧
      (scanUpEqual less d a j fuel i ≤ j →
        key (d.get a) < key (d.get (scanUpEqual less d a j fuel i))) := by
  intro fuel
  induction fuel with
  | zero =>
    intro i h1 h2
    simp only [scanUpEqual]
    exact ⟨le_refl _, h2, fun k hk1 hk2 => by omega, fun h => by omega⟩
  | succ fuel ih =>
    intro i h1 h2
    rw [scanUpEqual]
    by_cases hc : (decide (i ≤ j) && !less (d.get a) (d.get i)) = true
    · rw [if_pos hc]
      simp only [Bool.and_eq_true, decide_eq_true_eq, Bool.not_eq_true'] at hc
      obtain ⟨hij, hle⟩ := hc
      have hle' := (less_false less key hk _ _).mp hle
      obtain ⟨r1, r2, r3, r4⟩ := ih (i + 1) (by omega) (by omega)
      refine ⟨by omega, r2, ?_, r4⟩
      intro k hk1 hk2
      by_cases hki : k = i
      · subst hki; exact hle'
      · exact r3 k (by omega) hk2
    · rw [if_neg hc]
      simp only [Bool.and_eq_true, decide_eq_true_eq, not_and, Bool.not_eq_true,
        Bool.not_eq_false'] at hc
      exact ⟨le_refl _, h2, fun k hk1 hk2 => by omega, fun h => (hk _ _).mp (hc h)⟩

theorem scanDownEqual_spec (hk : ∀ x y, less x y = true ↔ key x < key y) (d : Mem α)
    (a i : Nat) (hi : 1 ≤ i) :
    ∀ (fuel j : Nat), j + 1 ≤ i + fuel → i ≤ j + 1 →
      scanDownEqual less d a i fuel j ≤ j ∧ i ≤ scanDownEqual less d a i fuel j + 1 ∧
      (∀ k, scanDownEqual less d a i fuel j < k → k ≤ j → key (d.get a) < key (d.get k)) ∧
      (i ≤ scanDownEqual less d a i fuel j →
        key (d.get (scanDownEqual less d a i fuel j)) ≤ key (d.get a)) := by
  intro fuel
  induction fuel with
  | zero =>
    intro j h1 h2
    simp only [scanDownEqual]
    exact ⟨le_refl _, h2, fun k hk1 hk2 => by omega, fun h => by omega⟩
  | succ fuel ih =>
    intro j h1 h2
    rw [scanDownEqual]
    by_cases hc : (decide (i ≤ j) && less (d.get a) (d.get j)) = true
    · rw [if_pos hc]
      simp only [Bool.and_eq_true, decide_eq_true_eq] at hc
      obtain ⟨hij, hlt⟩ := hc
      rw [hk] at hlt
      obtain ⟨r1, r2, r3, r4⟩ := ih (j - 1) (by omega) (by omega)
      refine ⟨by omega, r2, ?_, r4⟩
      intro k hk1 hk2
      by_cases hkj : k = j
      · subst hkj; exact hlt
      · exact r3 k hk1 (by omega)
    · rw [if_neg hc]
      simp only [Bool.and_eq_true, decide_eq_true_eq, not_and, Bool.not_eq_true] at hc
      exact ⟨le_refl _, h2, fun k hk1 hk2 => by omega,
        fun h => (less_false less key hk _ _).mp (hc h)⟩

theorem partitionEqualLoop_spec (hk : ∀ x y, less x y = true ↔ key x < key y) (a b : Nat) :
    ∀ (fuel i j : Nat) (d : Mem α), j + 1 ≤ i + fuel → a < i → i ≤ j + 1 → j < b →
      (∀ k, a < k → k < i → key (d.get k) ≤ key (d.get a)) →
      (∀ k, j < k → k < b → key (d.get a) < key (d.get k)) →
      a < (partitionEqualLoop less a fuel i j d).2 ∧ (partitionEqualLoop less a fuel i j d).2 ≤ b ∧
      (partitionEqualLoop less a fuel i j d).1.get a = d.get a ∧
      PermOn (a + 1) b d (partitionEqualLoop less a fuel i j d).1 ∧
      (∀ k, a < k → k < (partitionEqualLoop less a fuel i j d).2 →
        key ((partitionEqualLoop less a fuel i j d).1.get k) ≤ key (d.get a)) ∧
      (∀ k, (partitionEqualLoop less a fuel i j d).2 ≤ k → k < b →
        key (d.get a) < key ((partitionEqualLoop less a fuel i j d).1.get k)) := by
  intro fuel
  induction fuel with
  | zero =>
    intro i j d h1 h2 h3 h4 h5 h6
    simp only [partitionEqualLoop]
    exact ⟨h2, by omega, trivial, PermOn.refl _ _ _, h5, fun k hk1 hk2 => h6 k (by omega) hk2⟩
  | succ fuel ih =>
    intro i j d h1 h2 h3 h4 h5 h6
    rw [partitionEqualLoop]
    obtain ⟨u1, u2, u3, u4⟩ := scanUpEqual_spec less key hk d a j (j + 1 - i) i (by omega) h3
    generalize scanUpEqual less d a j (j + 1 - i) i = i1 at u1 u2 u3 u4 ⊢
    obtain ⟨v1, v2, v3, v4⟩ := scanDownEqual_spec less key hk d a i1 (by omega) (j + 1 - i1) j
      (by omega) u2
    generalize scanDownEqual less d a i1 (j + 1 - i1) j = j1 at v1 v2 v3 v4 ⊢
    by_cases hgt : i1 > j1
    · rw [if_pos hgt]
      dsimp only
      refine ⟨by omega, by omega, rfl, PermOn.refl _ _ _, ?_, ?_⟩
      · intro k hk1 hk2
        by_cases hki : k < i
        · exact h5 k hk1 hki
        · exact u3 k (by omega) (by omega)
      · intro k hk1 hk2
        by_cases hkj : j < k
        · exact h6 k hkj hk2
        · exact v3 k (by omega) (by omega)
    · rw [if_neg hgt]
      have hA := u4 (by omega)
      have hB := v4 (by omega)
      have hne : i1 ≠ j1 := by
        intro e; rw [e] at hA; omega
      have hsw : ∀ k, key ((swap d i1 j1).get k) =
          if k = i1 then key (d.get j1) else if k = j1 then key (d.get i1)
          else key (d.get k) := by
        intro k; rw [swap_get]; split_ifs <;> rfl
      have hsa : (swap d i1 j1).get a = d.get a :=
        swap_get_other d i1 j1 a (by omega) (by omega)
      have := ih (i1 + 1) (j1 - 1) (swap d i1 j1) (by omega) (by omega) (by omega) (by omega)
        (by
          intro k hk1 hk2
          rw [hsw k, hsa]
          by_cases hki : k = i1
          · rw [if_pos hki]; exact hB
          · have hkj : k ≠ j1 := by omega
            rw [if_neg hki, if_neg hkj]
            by_cases hki2 : k < i
            · exact h5 k hk1 hki2
            · exact u3 k (by omega) (by omega))
        (by
          intro k hk1 hk2
          rw [hsw k, hsa]
          have hki : k ≠ i1 := by omega
          by_cases hkj : k = j1
          · rw [if_neg hki, if_pos hkj]; exact hA
          · rw [if_neg hki, if_neg hkj]
            by_cases hkj2 : j < k
            · exact h6 k hkj2 hk2
            · exact v3 k (by omega) (by omega))
      rw [hsa] at this
      obtain ⟨w1, w2, w3, w4, w5, w6⟩ := this
      exact ⟨w1, w2, w3,
        (PermOn.swap d i1 j1 ⟨by omega, by omega⟩ ⟨by omega, by omega⟩).trans w4, w5, w6⟩

theorem partitionEqualLessFunc_spec (hk : ∀ x y, less x y = true ↔ key x < key y)
    (d : Mem α) (a b pivot : Nat) (hp1 : a ≤ pivot) (hp2 : pivot < b) :
    a < (partitionEqualLessFunc less d a b pivot).2 ∧
    (partitionEqualLessFunc less d a b pivot).2 ≤ b ∧
    PermOn a b d (partitionEqualLessFunc less d a b pivot).1 ∧
    (∀ k, a ≤ k → k < (partitionEqualLessFunc less d a b pivot).2 →
      key ((partitionEqualLessFunc less d a b pivot).1.get k) ≤ key (d.get pivot)) ∧
    (∀ k, (partitionEqualLessFunc less d a b pivot).2 ≤ k → k < b →
      key (d.get pivot) < key ((partitionEqualLessFunc less d a b pivot).1.get k)) := by
  unfold partitionEqualLessFunc
  simp only []
  have p0 : PermOn a b d (swap d a pivot) :=
    PermOn.swap d a pivot ⟨by omega, by omega⟩ ⟨by omega, by omega⟩
  have ha0 : (swap d a pivot).get a = d.get pivot := swap_get_left d a pivot
  generalize swap d a pivot = d0 at p0 ha0 ⊢
  obtain ⟨w1, w2, w3, w4, w5, w6⟩ := partitionEqualLoop_spec less key hk a b (b - a) (a + 1)
    (b - 1) d0 (by omega) (by omega) (by omega) (by omega)
    (fun k hk1 hk2 => by omega) (fun k hk1 hk2 => by omega)
  rw [ha0] at w5 w6
  refine ⟨w1, w2, p0.trans (w4.mono (by omega) (Nat.le_refl _)), ?_, w6⟩
  intro k hk1 hk2
  by_cases hka : k = a
  · subst hka; rw [w3, ha0]
  · exact w5 k (by omega) hk2

end PartitionEqualProofs
section PivotProofs

variable {α : Type} (less : α → α → Bool) (key : α → Int)

theorem order2LessFunc_cases (d : Mem α) (x y s : Nat) :
    ((order2LessFunc less d x y s).1 = x ∧ (order2LessFunc less d x y s).2.1 = y) ∨
    ((order2LessFunc less d x y s).1 = y ∧ (order2LessFunc less d x y s).2.1 = x) := by
  unfold order2LessFunc
  by_cases h : less (d.get y) (d.get x) = true
  · rw [if_pos h]; exact Or.inr ⟨rfl, rfl⟩
  · rw [if_neg h]; exact Or.inl ⟨rfl, rfl⟩

theorem medianLessFunc_mem (d : Mem α) (x y z s : Nat) :
    (medianLessFunc less d x y z s).1 = x ∨ (medianLessFunc less d x y z s).1 = y ∨
      (medianLessFunc less d x y z s).1 = z := by
  unfold medianLessFunc
  simp only []
  have c1 := order2LessFunc_cases less d x y s
  generalize order2LessFunc less d x y s = r1 at c1 ⊢
  obtain ⟨p1, q1, s1⟩ := r1
  simp only at c1 ⊢
  have c2 := order2LessFunc_cases less d q1 z s1
  generalize order2LessFunc less d q1 z s1 = r2 at c2 ⊢
  obtain ⟨p2, q2, s2⟩ := r2
  simp only at c2 ⊢
  have c3 := order2LessFunc_cases less d p1 p2 s2
  generalize order2LessFunc less d p1 p2 s2 = r3 at c3 ⊢
  obtain ⟨p3, q3, s3⟩ := r3
  simp only at c3 ⊢
  rcases c1 with ⟨rfl, rfl⟩ | ⟨rfl, rfl⟩ <;> rcases c2 with ⟨rfl, rfl⟩ | ⟨rfl, rfl⟩ <;>
    rcases c3 with ⟨rfl, rfl⟩ | ⟨rfl, rfl⟩ <;> simp

theorem medianLessFunc_range (d : Mem α) (x y z s lo hi : Nat)
    (hx : lo ≤ x ∧ x < hi) (hy : lo ≤ y ∧ y < hi) (hz : lo ≤ z ∧ z < hi) :
    lo ≤ (medianLessFunc less d x y z s).1 ∧ (medianLessFunc less d x y z s).1 < hi := by
  rcases medianLessFunc_mem less d x y z s with h | h | h <;> rw [h] <;> assumption

theorem choosePivotLessFunc_range (d : Mem α) (a b : Nat) (h : 8 ≤ b - a) :
    a ≤ (choosePivotLessFunc less d a b).1 ∧ (choosePivotLessFunc less d a b).1 < b := by
  have hfst : ∀ (r : Nat × Nat),
      (if r.2 = 0 then (r.1, sortedHint.increasingHint)
        else if r.2 = 12 then (r.1, sortedHint.decreasingHint)
        else (r.1, sortedHint.unknownHint)).1 = r.1 := by
    intro r; split_ifs <;> rfl
  unfold choosePivotLessFunc
  simp only []
  rw [hfst, if_pos h]
  by_cases h50 : b - a ≥ 50
  · rw [if_pos h50]
    unfold medianAdjacentLessFunc
    apply medianLessFunc_range
    · apply medianLessFunc_range <;> omega
    · apply medianLessFunc_range <;> omega
    · apply medianLessFunc_range <;> omega
  · rw [if_neg h50]
    apply medianLessFunc_range <;> omega

theorem order2LessFunc_sorted (hk : ∀ x y, less x y = true ↔ key x < key y) (d : Mem α)
    (x y s : Nat) (h : key (d.get x) ≤ key (d.get y)) :
    order2LessFunc less d x y s = (x, y, s) := by
  unfold order2LessFunc
  rw [if_neg]
  intro hl
  rw [hk] at hl
  omega

theorem medianLessFunc_sorted (hk : ∀ x y, less x y = true ↔ key x < key y) (d : Mem α)
    (x y z s : Nat) (h1 : key (d.get x) ≤ key (d.get y)) (h2 : key (d.get y) ≤ key (d.get z)) :
    medianLessFunc less d x y z s = (y, s) := by
  unfold medianLessFunc
  simp only [order2LessFunc_sorted less key hk d x y s h1,
    order2LessFunc_sorted less key hk d y z s h2]

theorem choosePivotLessFunc_sorted (hk : ∀ x y, less x y = true ↔ key x < key y) (d : Mem α)
    (a b : Nat) (h : 12 < b - a) (hs : SortedOn key d a b) :
    (choosePivotLessFunc less d a b).2 = sortedHint.increasingHint := by
  unfold choosePivotLessFunc
  simp only []
  have h8 : b - a ≥ 8 := by omega
  rw [if_pos h8]
  by_cases h50 : b - a ≥ 50
  · rw [if_pos h50]
    unfold medianAdjacentLessFunc
    rw [medianLessFunc_sorted less key hk d _ _ _ 0 (hs _ _ (by omega) (by omega) (by omega))
        (hs _ _ (by omega) (by omega) (by omega))]
    simp only []
    rw [medianLessFunc_sorted less key hk d _ _ _ 0 (hs _ _ (by omega) (by omega) (by omega))
        (hs _ _ (by omega) (by omega) (by omega))]
    simp only []
    rw [medianLessFunc_sorted less key hk d _ _ _ 0 (hs _ _ (by omega) (by omega) (by omega))
        (hs _ _ (by omega) (by omega) (by omega))]
    simp only []
    rw [medianLessFunc_sorted less key hk d _ _ _ 0 (hs _ _ (by omega) (by omega) (by omega))
        (hs _ _ (by omega) (by omega) (by omega))]
    simp
  · rw [if_neg h50]
    rw [medianLessFunc_sorted less key hk d _ _ _ 0 (hs _ _ (by omega) (by omega) (by omega))
        (hs _ _ (by omega) (by omega) (by omega))]
    simp

theorem reverseRangeLoop_perm (a b : Nat) :
    ∀ (fuel i j : Nat) (d : Mem α), a ≤ i → j < b →
      PermOn a b d (reverseRangeLoop fuel i j d) := by
  intro fuel
  induction fuel with
  | zero => intro i j d _ _; exact PermOn.refl _ _ _
  | succ fuel ih =>
    intro i j d hi hj
    rw [reverseRangeLoop]
    by_cases hlt : i < j
    · rw [if_pos hlt]
      exact (PermOn.swap d i j ⟨by omega, by omega⟩ ⟨by omega, by omega⟩).trans
        (ih (i + 1) (j - 1) _ (by omega) (by omega))
    · rw [if_neg hlt]; exact PermOn.refl _ _ _

theorem reverseRangeLessFunc_perm (d : Mem α) (a b : Nat) (h : a < b) :
    PermOn a b d (reverseRangeLessFunc d a b) :=
  reverseRangeLoop_perm a b (b - a) a (b - 1) d (Nat.le_refl a) (by omega)

theorem bitsLenAux_pow (fuel : Nat) : ∀ n, 1 ≤ n → 2 ^ bitsLenAux fuel n ≤ 2 * n := by
  induction fuel with
  | zero => intro n hn; simp only [bitsLenAux]; omega
  | succ fuel ih =>
    intro n hn
    rw [bitsLenAux]
    have hn0 : n ≠ 0 := by omega
    rw [if_neg hn0, pow_succ]
    by_cases h2 : n / 2 = 0
    · rw [h2]
      have : bitsLenAux fuel 0 = 0 := by
        cases fuel with
        | zero => rfl
        | succ f => simp [bitsLenAux]
      rw [this]; omega
    · have := ih (n / 2) (by omega)
      omega

theorem nextPowerOfTwo_le (n : Nat) (hn : 1 ≤ n) : nextPowerOfTwo n ≤ 2 * n := by
  unfold nextPowerOfTwo bitsLen
  rw [Nat.one_shiftLeft]
  exact bitsLenAux_pow n n hn

theorem breakPatternsLoop_perm (a b length modulus idx : Nat) (hl : b = a + length)
    (hm : modulus ≤ 2 * length) (hl1 : 1 ≤ length) (hidx1 : a ≤ idx) (hidx2 : idx + 3 ≤ b) :
    ∀ (fuel i random : Nat) (d : Mem α),
      PermOn a b d (breakPatternsLoop a length modulus idx fuel i random d) := by
  intro fuel
  induction fuel with
  | zero => intro i random d; exact PermOn.refl _ _ _
  | succ fuel ih =>
    intro i random d
    rw [breakPatternsLoop]
    by_cases h3 : i < 3
    · rw [if_pos h3]
      simp only []
      have hand : xorshiftNext random &&& (modulus - 1) ≤ modulus - 1 := Nat.and_le_right
      refine (PermOn.swap d _ _ ⟨by omega, by omega⟩ ⟨by omega, ?_⟩).trans (ih _ _ _)
      split_ifs with hge
      · omega
      · omega
    · rw [if_neg h3]; exact PermOn.refl _ _ _

theorem breakPatternsLessFunc_perm (d : Mem α) (a b : Nat) :
    PermOn a b d (breakPatternsLessFunc d a b) := by
  unfold breakPatternsLessFunc
  simp only []
  by_cases h : b - a ≥ 8
  · rw [if_pos h]
    exact breakPatternsLoop_perm a b (b - a) _ _ (by omega)
      (nextPowerOfTwo_le _ (by omega)) (by omega) (by omega) (by omega) 3 0 (b - a) d
  · rw [if_neg h]; exact PermOn.refl _ _ _

end PivotProofs
section PartialInsertionProofs

variable {α : Type} (less : α → α → Bool) (key : α → Int)

theorem scanSorted_spec (hk : ∀ x y, less x y = true ↔ key x < key y) (d : Mem α) (a b : Nat) :
    ∀ (fuel i : Nat), a < i → i ≤ b → b ≤ i + fuel → SortedOn key d a i →
      i ≤ scanSorted less d b fuel i ∧ scanSorted less d b fuel i ≤ b ∧
      SortedOn key d a (scanSorted less d b fuel i) ∧
      (scanSorted less d b fuel i < b →
        key (d.get (scanSorted less d b fuel i)) < key (d.get (scanSorted less d b fuel i - 1))) := by
  intro fuel
  induction fuel with
  | zero =>
    intro i h1 h2 h3 hs
    simp only [scanSorted]
    exact ⟨le_refl _, h2, hs, fun h => by omega⟩
  | succ fuel ih =>
    intro i h1 h2 h3 hs
    rw [scanSorted]
    by_cases hc : (decide (i < b) && !less (d.get i) (d.get (i - 1))) = true
    · rw [if_pos hc]
      simp only [Bool.and_eq_true, decide_eq_true_eq, Bool.not_eq_true'] at hc
      obtain ⟨hib, hle⟩ := hc
      have hle' := (less_false less key hk _ _).mp hle
      obtain ⟨r1, r2, r3, r4⟩ := ih (i + 1) (by omega) (by omega) (by omega)
        (by
          intro p q hp hpq hq
          by_cases hqi : q = i
          · subst hqi
            by_cases hpi : p = q - 1
            · subst hpi; exact hle'
            · have := hs p (q - 1) hp (by omega) (by omega)
              omega
          · exact hs p q hp hpq (by omega))
      exact ⟨by omega, r2, r3, r4⟩
    · rw [if_neg hc]
      simp only [Bool.and_eq_true, decide_eq_true_eq, not_and, Bool.not_eq_true,
        Bool.not_eq_false'] at hc
      exact ⟨le_refl _, h2, hs, fun h => (hk _ _).mp (hc h)⟩

theorem shiftLeft_eq (hk : ∀ x y, less x y = true ↔ key x < key y) (a : Nat) :
    ∀ (j : Nat) (d : Mem α), a ≤ j →
      (0 < a → ∀ k, a ≤ k → k ≤ j → key (d.get (a - 1)) ≤ key (d.get k)) →
      shiftLeft less j d = insertionInner less a j d := by
  intro j
  induction j with
  | zero => intro d _ _; rfl
  | succ j ih =>
    intro d haj hpred
    rw [shiftLeft, insertionInner]
    by_cases hlt : less (d.get (j + 1)) (d.get j) = true
    · by_cases ha : a ≤ j
      · have h1 : (!less (d.get (j + 1)) (d.get j)) = false := by simp [hlt]
        have h2 : (decide (j + 1 > a) && less (d.get (j + 1)) (d.get j)) = true := by
          simp [hlt]; omega
        rw [h1, h2]
        simp only [Bool.false_eq_true, if_false, if_true]
        apply ih _ ha
        intro ha0 k hk1 hk2
        have e0 : (swap d (j + 1) j).get (a - 1) = d.get (a - 1) :=
          swap_get_other d (j + 1) j (a - 1) (by omega) (by omega)
        rw [e0, swap_get]
        split_ifs
        · exact hpred ha0 j (by omega) (by omega)
        · exact hpred ha0 (j + 1) (by omega) (by omega)
        · exact hpred ha0 k hk1 (by omega)
      · have haj' : a = j + 1 := by omega
        have := hpred (by omega) (j + 1) (by omega) (by omega)
        rw [hk] at hlt
        have e : a - 1 = j := by omega
        rw [e] at this
        omega
    · have h1 : (!less (d.get (j + 1)) (d.get j)) = true := by simp [hlt]
      have h2 : (decide (j + 1 > a) && less (d.get (j + 1)) (d.get j)) = false := by
        simp [hlt]
      rw [h1, h2]
      simp

theorem shiftRight_perm (b : Nat) :
    ∀ (fuel j : Nat) (d : Mem α), 1 ≤ j → PermOn (j - 1) b d (shiftRight less b fuel j d) := by
  intro fuel
  induction fuel with
  | zero => intro j d _; exact PermOn.refl _ _ _
  | succ fuel ih =>
    intro j d hj
    rw [shiftRight]
    by_cases hlt : j < b
    · rw [if_pos hlt]
      by_cases hc : (!less (d.get j) (d.get (j - 1))) = true
      · rw [if_pos hc]; exact PermOn.refl _ _ _
      · rw [if_neg hc]
        exact (PermOn.swap d j (j - 1) ⟨by omega, by omega⟩ ⟨by omega, by omega⟩).trans
          ((ih (j + 1) _ (by omega)).mono (by omega) (Nat.le_refl _))
    · rw [if_neg hlt]; exact PermOn.refl _ _ _

theorem partialInsertionSortLoop_spec (hk : ∀ x y, less x y = true ↔ key x < key y)
    (a b : Nat) :
    ∀ (steps i : Nat) (d : Mem α), a < i → i ≤ b → SortedOn key d a i →
      (0 < a → ∀ k, a ≤ k → k < b → key (d.get (a - 1)) ≤ key (d.get k)) →
      PermOn a b d (partialInsertionSortLoop less a b steps i d).1 ∧
      ((partialInsertionSortLoop less a b steps i d).2 = true →
        SortedOn key (partialInsertionSortLoop less a b steps i d).1 a b) := by
  intro steps
  induction steps with
  | zero =>
    intro i d _ _ _ _
    simp only [partialInsertionSortLoop]
    exact ⟨PermOn.refl _ _ _, fun h => Bool.noConfusion h⟩
  | succ steps ih =>
    intro i d hai hib hs hpred
    rw [partialInsertionSortLoop]
    obtain ⟨r1, r2, r3, r4⟩ := scanSorted_spec less key hk d a b (b - i) i hai hib (by omega) hs
    generalize scanSorted less d b (b - i) i = i1 at r1 r2 r3 r4 ⊢
    simp only []
    by_cases hb : i1 = b
    · rw [if_pos hb]
      subst hb
      exact ⟨PermOn.refl _ _ _, fun _ => r3⟩
    · rw [if_neg hb]
      by_cases h50 : b - a < 50
      · rw [if_pos h50]
        exact ⟨PermOn.refl _ _ _, fun h => Bool.noConfusion h⟩
      · rw [if_neg h50]
        have p1 : PermOn a b d (swap d i1 (i1 - 1)) :=
          PermOn.swap d i1 (i1 - 1) ⟨by omega, by omega⟩ ⟨by omega, by omega⟩
        have s1 : SortedOn key (swap d i1 (i1 - 1)) a (i1 - 1) := by
          intro p q hp hpq hq
          rw [swap_get_other d i1 (i1 - 1) p (by omega) (by omega),
            swap_get_other d i1 (i1 - 1) q (by omega) (by omega)]
          exact r3 p q hp hpq (by omega)
        generalize swap d i1 (i1 - 1) = d1 at p1 s1 ⊢
        -- the shift to the left
        have hpred1 : 0 < a → ∀ k, a ≤ k → k < b → key (d1.get (a - 1)) ≤ key (d1.get k) := by
          intro ha0
          rw [p1.get_outside (a - 1) (by omega)]
          exact p1.forall (fun e => key (d.get (a - 1)) ≤ key e) (hpred ha0)
        obtain ⟨d2, hd2, p2, s2⟩ : ∃ d2,
            d2 = (if i1 - a ≥ 2 then shiftLeft less (i1 - 1) d1 else d1) ∧
            PermOn a b d1 d2 ∧ SortedOn key d2 a i1 := by
          refine ⟨_, rfl, ?_⟩
          by_cases h2 : i1 - a ≥ 2
          · rw [if_pos h2]
            rw [shiftLeft_eq less key hk a (i1 - 1) d1 (by omega)
              (fun ha0 k hk1 hk2 => hpred1 ha0 k hk1 (by omega))]
            obtain ⟨s, p⟩ := insertionInner_spec less key hk a (i1 - 1) (i1 - 1) d1 (by omega)
              (le_refl _) (fun p q hp hpq hq hpi hqi => s1 p q hp hpq (by omega))
              (fun q hq1 hq2 => by omega)
            have e : i1 - 1 + 1 = i1 := by omega
            rw [e] at s p
            exact ⟨p.mono (Nat.le_refl _) (by omega), s⟩
          · rw [if_neg h2]
            exact ⟨PermOn.refl _ _ _, fun p q hp hpq hq => by omega⟩
        rw [← hd2]
        obtain ⟨d3, hd3, p3, s3⟩ : ∃ d3,
            d3 = (if b - i1 ≥ 2 then shiftRight less b (b - (i1 + 1)) (i1 + 1) d2 else d2) ∧
            PermOn a b d2 d3 ∧ SortedOn key d3 a i1 := by
          refine ⟨_, rfl, ?_⟩
          by_cases h2 : b - i1 ≥ 2
          · rw [if_pos h2]
            have p := shiftRight_perm less b (b - (i1 + 1)) (i1 + 1) d2 (by omega)
            have e : i1 + 1 - 1 = i1 := by omega
            rw [e] at p
            refine ⟨p.mono (by omega) (Nat.le_refl _), ?_⟩
            intro x y hx hxy hy
            rw [p.get_outside x (by omega), p.get_outside y (by omega)]
            exact s2 x y hx hxy hy
          · rw [if_neg h2]
            exact ⟨PermOn.refl _ _ _, s2⟩
        rw [← hd3]
        have p13 : PermOn a b d d3 := (p1.trans p2).trans p3
        have hpred3 : 0 < a → ∀ k, a ≤ k → k < b → key (d3.get (a - 1)) ≤ key (d3.get k) := by
          intro ha0
          rw [p13.get_outside (a - 1) (by omega)]
          exact p13.forall (fun e => key (d.get (a - 1)) ≤ key e) (hpred ha0)
        obtain ⟨q1, q2⟩ := ih i1 d3 (by omega) (by omega) s3 hpred3
        exact ⟨p13.trans q1, q2⟩

theorem partialInsertionSortLessFunc_spec (hk : ∀ x y, less x y = true ↔ key x < key y)
    (d : Mem α) (a b : Nat) (hab : a < b)
    (hpred : 0 < a → ∀ k, a ≤ k → k < b → key (d.get (a - 1)) ≤ key (d.get k)) :
    PermOn a b d (partialInsertionSortLessFunc less d a b).1 ∧
    ((partialInsertionSortLessFunc less d a b).2 = true →
      SortedOn key (partialInsertionSortLessFunc less d a b).1 a b) :=
  partialInsertionSortLoop_spec less key hk a b 5 (a + 1) d (by omega) (by omega)
    (fun p q hp hpq hq => by omega) hpred

end PartialInsertionProofs
section RoundProofs

variable {α : Type} (less : α → α → Bool) (key : α → Int)

theorem pdqsortRound_spec (hk : ∀ x y, less x y = true ↔ key x < key y) (d : Mem α)
    (a b limit : Nat) (wasBalanced wasPartitioned : Bool)
    (hpred : 0 < a → ∀ k, a ≤ k → k < b → key (d.get (a - 1)) ≤ key (d.get k)) :
    RoundOk key d a b (pdqsortRound less d a b limit wasBalanced wasPartitioned) := by
  unfold pdqsortRound
  simp only []
  by_cases h12 : b - a ≤ 12
  · rw [if_pos h12]
    exact insertionSortLessFunc_spec less key hk d a b
  · rw [if_neg h12]
    by_cases hl0 : limit = 0
    · rw [if_pos hl0]
      exact heapSortLessFunc_spec less key hk d a b
    · rw [if_neg hl0]
      -- breaking patterns
      obtain ⟨d1, hd1, p1⟩ : ∃ d1,
          d1 = (if (!wasBalanced) = true then breakPatternsLessFunc d a b else d) ∧
          PermOn a b d d1 := by
        refine ⟨_, rfl, ?_⟩
        split_ifs
        · exact breakPatternsLessFunc_perm d a b
        · exact PermOn.refl _ _ _
      rw [← hd1]
      have hpiv := choosePivotLessFunc_range less d1 a b (by omega)
      generalize choosePivotLessFunc less d1 a b = ph at hpiv ⊢
      -- reversing a decreasing range
      obtain ⟨d2, hd2, p2⟩ : ∃ d2,
          d2 = (if ph.2 = sortedHint.decreasingHint then reverseRangeLessFunc d1 a b else d1) ∧
          PermOn a b d1 d2 := by
        refine ⟨_, rfl, ?_⟩
        split_ifs
        · exact reverseRangeLessFunc_perm d1 a b (by omega)
        · exact PermOn.refl _ _ _
      rw [← hd2]
      obtain ⟨pivot, hpivot, hpr⟩ : ∃ pivot,
          pivot = (if ph.2 = sortedHint.decreasingHint then (b - 1) - (ph.1 - a) else ph.1) ∧
          (a ≤ pivot ∧ pivot < b) := by
        refine ⟨_, rfl, ?_⟩
        split_ifs
        · omega
        · exact hpiv
      rw [← hpivot]
      have p02 : PermOn a b d d2 := p1.trans p2
      have hpred2 : 0 < a → ∀ k, a ≤ k → k < b → key (d2.get (a - 1)) ≤ key (d2.get k) := by
        intro ha0
        rw [p02.get_outside (a - 1) (by omega)]
        exact p02.forall (fun e => key (d.get (a - 1)) ≤ key e) (hpred ha0)
      -- the attempt at a few insertions
      obtain ⟨ps, hps, p3, s3⟩ : ∃ ps : Mem α × Bool,
          ps = (if (wasBalanced && wasPartitioned &&
              decide ((if ph.2 = sortedHint.decreasingHint then sortedHint.increasingHint
                else ph.2) = sortedHint.increasingHint)) = true
            then partialInsertionSortLessFunc less d2 a b else (d2, false)) ∧
          PermOn a b d2 ps.1 ∧ (ps.2 = true → SortedOn key ps.1 a b) := by
        refine ⟨_, rfl, ?_⟩
        by_cases hc : (wasBalanced && wasPartitioned &&
              decide ((if ph.2 = sortedHint.decreasingHint then sortedHint.increasingHint
                else ph.2) = sortedHint.increasingHint)) = true
        · rw [if_pos hc]
          exact partialInsertionSortLessFunc_spec less key hk d2 a b (by omega) hpred2
        · rw [if_neg hc]
          exact ⟨PermOn.refl _ _ _, fun h => Bool.noConfusion h⟩
      rw [← hps]
      have p03 : PermOn a b d ps.1 := p02.trans p3
      by_cases hdone : ps.2 = true
      · rw [if_pos hdone]
        exact ⟨s3 hdone, p03⟩
      · rw [if_neg hdone]
        have hpred3 : 0 < a → ∀ k, a ≤ k → k < b →
            key (ps.1.get (a - 1)) ≤ key (ps.1.get k) := by
          intro ha0
          rw [p03.get_outside (a - 1) (by omega)]
          exact p03.forall (fun e => key (d.get (a - 1)) ≤ key e) (hpred ha0)
        by_cases heq : (decide (a > 0) && !less (ps.1.get (a - 1)) (ps.1.get pivot)) = true
        · rw [if_pos heq]
          simp only [Bool.and_eq_true, decide_eq_true_eq, Bool.not_eq_true'] at heq
          obtain ⟨ha0, hle⟩ := heq
          have hle' := (less_false less key hk _ _).mp hle
          obtain ⟨e1, e2, e3, e4, e5⟩ :=
            partitionEqualLessFunc_spec less key hk ps.1 a b pivot hpr.1 hpr.2
          have hge : ∀ k, a ≤ k → k < b →
              key (ps.1.get pivot) ≤
                key ((partitionEqualLessFunc less ps.1 a b pivot).1.get k) :=
            e3.forall (fun e => key (ps.1.get pivot) ≤ key e)
              (fun k hk1 hk2 => by have := hpred3 ha0 k hk1 hk2; omega)
          refine ⟨e1, e2, p03.trans e3, ?_, ?_⟩
          · intro p q hp hpq hq
            have h1 := e4 p hp (by omega)
            have h2 := hge q (by omega) (by omega)
            have h3 := e4 q (by omega) hq
            omega
          · intro k m hk1 hk2 hm1 hm2
            have h1 := e4 k hk1 hk2
            have h2 := e5 m hm1 hm2
            omega
        · rw [if_neg heq]
          obtain ⟨t1, t2, t3, t4, t5⟩ :=
            partitionLessFunc_spec less key hk ps.1 a b pivot hpr.1 hpr.2
          exact ⟨t1, t2, p03.trans t3, t4, t5⟩

end RoundProofs
section PdqsortProofs

variable {α : Type} (less : α → α → Bool) (key : α → Int)

theorem sorted_of_parts (d' d2 : Mem α) (a mid b : Nat)
    (hlo : ∀ k, a ≤ k → k < mid → key (d'.get k) < key (d'.get mid))
    (hhi : ∀ k, mid < k → k < b → key (d'.get mid) ≤ key (d'.get k))
    (pL : ∀ k, a ≤ k → k < mid → ∃ m, (a ≤ m ∧ m < mid) ∧ d2.get k = d'.get m)
    (pR : ∀ k, mid < k → k < b → ∃ m, (mid < m ∧ m < b) ∧ d2.get k = d'.get m)
    (pM : d2.get mid = d'.get mid)
    (sL : SortedOn key d2 a mid) (sR : SortedOn key d2 (mid + 1) b) : SortedOn key d2 a b := by
  intro i j hi hij hj
  by_cases hjm : j < mid
  · exact sL i j hi hij hjm
  · by_cases him : mid < i
    · exact sR i j (by omega) hij hj
    · -- `i ≤ mid ≤ j`
      have hI : key (d2.get i) ≤ key (d'.get mid) := by
        by_cases hie : i = mid
        · rw [hie, pM]
        · obtain ⟨m, hm, e⟩ := pL i hi (by omega)
          rw [e]
          have := hlo m hm.1 hm.2
          omega
      have hJ : key (d'.get mid) ≤ key (d2.get j) := by
        by_cases hje : j = mid
        · rw [hje, pM]
        · obtain ⟨m, hm, e⟩ := pR j (by omega) hj
          rw [e]
          exact hhi m hm.1 hm.2
      omega

theorem pdqsortLessFunc_spec (hk : ∀ x y, less x y = true ↔ key x < key y) :
    ∀ (fuel : Nat) (d : Mem α) (a b limit : Nat) (wasBalanced wasPartitioned : Bool),
      b - a ≤ fuel →
      (0 < a → ∀ k, a ≤ k → k < b → key (d.get (a - 1)) ≤ key (d.get k)) →
      SortedOn key (pdqsortLessFunc less fuel d a b limit wasBalanced wasPartitioned) a b ∧
        PermOn a b d (pdqsortLessFunc less fuel d a b limit wasBalanced wasPartitioned) := by
  intro fuel
  induction fuel with
  | zero =>
    intro d a b limit wb wp hf _
    simp only [pdqsortLessFunc]
    exact ⟨fun i j hi hij hj => by omega, PermOn.refl _ _ _⟩
  | succ fuel ih =>
    intro d a b limit wb wp hf hpred
    rw [pdqsortLessFunc]
    have hr := pdqsortRound_spec less key hk d a b limit wb wp hpred
    generalize pdqsortRound less d a b limit wb wp = r at hr ⊢
    cases r with
    | done d' => exact hr
    | equal d' mid limit' =>
      obtain ⟨h1, h2, p, s, hx⟩ := hr
      simp only []
      obtain ⟨s2, p2⟩ := ih d' mid b limit' wb wp (by omega)
        (fun _ k hk1 hk2 => hx (mid - 1) k (by omega) (by omega) hk1 hk2)
      refine ⟨?_, p.trans (p2.mono (by omega) (Nat.le_refl _))⟩
      intro i j hi hij hj
      by_cases hjm : j < mid
      · rw [p2.get_outside i (by omega), p2.get_outside j (by omega)]
        exact s i j hi hij hjm
      · by_cases him : mid ≤ i
        · exact s2 i j him hij hj
        · rw [p2.get_outside i (by omega)]
          obtain ⟨m, hm, e⟩ := p2.exists_source j ⟨by omega, hj⟩
          rw [e]
          exact hx i m hi (by omega) hm.1 hm.2
    | split d' mid limit' ap =>
      obtain ⟨h1, h2, p, hlo, hhi⟩ := hr
      simp only []
      have hpred' : 0 < a → ∀ k, a ≤ k → k < b → key (d'.get (a - 1)) ≤ key (d'.get k) := by
        intro ha0
        rw [p.get_outside (a - 1) (by omega)]
        exact p.forall (fun e => key (d.get (a - 1)) ≤ key e) (hpred ha0)
      by_cases hlr : mid - a < b - mid
      · rw [if_pos hlr]
        obtain ⟨sA, pA⟩ := ih d' a mid limit' true true (by omega)
          (fun ha0 k hk1 hk2 => hpred' ha0 k hk1 (by omega))
        generalize pdqsortLessFunc less fuel d' a mid limit' true true = d1 at sA pA ⊢
        obtain ⟨sB, pB⟩ := ih d1 (mid + 1) b limit' (decide (mid - a ≥ (b - a) / 8)) ap
          (by omega)
          (by
            intro _ k hk1 hk2
            have e : mid + 1 - 1 = mid := by omega
            rw [e, pA.get_outside mid (by omega), pA.get_outside k (by omega)]
            exact hhi k (by omega) hk2)
        generalize pdqsortLessFunc less fuel d1 (mid + 1) b limit'
          (decide (mid - a ≥ (b - a) / 8)) ap = d2 at sB pB ⊢
        refine ⟨?_, p.trans ((pA.mono (Nat.le_refl _) (by omega)).trans
          (pB.mono (by omega) (Nat.le_refl _)))⟩
        apply sorted_of_parts key d' d2 a mid b hlo hhi
        · intro k hk1 hk2
          rw [pB.get_outside k (by omega)]
          exact pA.exists_source k ⟨hk1, hk2⟩
        · intro k hk1 hk2
          obtain ⟨m, hm, e⟩ := pB.exists_source k ⟨by omega, hk2⟩
          exact ⟨m, ⟨by omega, hm.2⟩, by rw [e, pA.get_outside m (by omega)]⟩
        · rw [pB.get_outside mid (by omega), pA.get_outside mid (by omega)]
        · intro i j hi hij hj
          rw [pB.get_outside i (by omega), pB.get_outside j (by omega)]
          exact sA i j hi hij hj
        · exact sB
      · rw [if_neg hlr]
        obtain ⟨sA, pA⟩ := ih d' (mid + 1) b limit' true true (by omega)
          (by
            intro _ k hk1 hk2
            have e : mid + 1 - 1 = mid := by omega
            rw [e]
            exact hhi k (by omega) hk2)
        generalize pdqsortLessFunc less fuel d' (mid + 1) b limit' true true = d1 at sA pA ⊢
        obtain ⟨sB, pB⟩ := ih d1 a mid limit' (decide (b - mid ≥ (b - a) / 8)) ap (by omega)
          (by
            intro ha0 k hk1 hk2
            rw [pA.get_outside (a - 1) (by omega), pA.get_outside k (by omega)]
            exact hpred' ha0 k hk1 (by omega))
        generalize pdqsortLessFunc less fuel d1 a mid limit'
          (decide (b - mid ≥ (b - a) / 8)) ap = d2 at sB pB ⊢
        refine ⟨?_, p.trans ((pA.mono (by omega) (Nat.le_refl _)).trans
          (pB.mono (Nat.le_refl _) (by omega)))⟩
        apply sorted_of_parts key d' d2 a mid b hlo hhi
        · intro k hk1 hk2
          obtain ⟨m, hm, e⟩ := pB.exists_source k ⟨hk1, hk2⟩
          exact ⟨m, hm, by rw [e, pA.get_outside m (by omega)]⟩
        · intro k hk1 hk2
          rw [pB.get_outside k (by omega)]
          obtain ⟨m, hm, e⟩ := pA.exists_source k ⟨by omega, hk2⟩
          exact ⟨m, ⟨by omega, hm.2⟩, e⟩
        · rw [pB.get_outside mid (by omega), pA.get_outside mid (by omega)]
        · exact sB
        · intro i j hi hij hj
          rw [pB.get_outside i (by omega), pB.get_outside j (by omega)]
          exact sA i j hi hij hj

end PdqsortProofs
section SliceProofs

variable {α : Type} (less : α → α → Bool) (key : α → Int)

theorem range_map_getD (l : List α) (e : α) :
    (List.range l.length).map (fun i => l.getD i e) = l := by
  apply List.ext_getElem
  · simp
  · intro i h1 h2
    simp only [List.getElem_map, List.getElem_range]
    exact List.getD_eq_getElem l e h2

theorem PermOn.map_range {d d' : Mem α} (n : Nat) (h : PermOn 0 n d d') :
    ((List.range n).map d'.get).Perm ((List.range n).map d.get) := by
  obtain ⟨σ, hσ, e⟩ := h
  have hfun : d'.get = d.get ∘ σ := funext e
  rw [hfun, ← List.map_map]
  apply List.Perm.map
  have hmem : ∀ k, k < n → σ k < n := by
    intro k hk
    by_contra hc
    have h1 := hσ (σ k) (by omega)
    have h2 : σ k = k := σ.injective h1
    omega
  have hmem' : ∀ k, k < n → σ.symm k < n := by
    intro k hk
    by_contra hc
    have h1 := hσ (σ.symm k) (by omega)
    rw [Equiv.apply_symm_apply] at h1
    omega
  apply (List.perm_ext_iff_of_nodup ((List.nodup_range n).map σ.injective)
    (List.nodup_range n)).mpr
  intro x
  simp only [List.mem_map, List.mem_range]
  constructor
  · rintro ⟨k, hk, rfl⟩; exact hmem k hk
  · intro hx; exact ⟨σ.symm x, hmem' x hx, by simp⟩

theorem SortedOn.pairwise_range {d : Mem α} (n : Nat) (h : SortedOn key d 0 n) :
    List.Pairwise (fun x y => key x ≤ key y) ((List.range n).map d.get) := by
  rw [List.pairwise_map]
  apply (List.pairwise_lt_range n).imp_of_mem
  intro i j hi hj hij
  exact h i j (Nat.zero_le _) hij (List.mem_range.mp hj)

theorem Slice_spec (hk : ∀ x y, less x y = true ↔ key x < key y) (x : List α) :
    (Slice less x).Perm x ∧ List.Pairwise (fun u v => key u ≤ key v) (Slice less x) := by
  cases x with
  | nil => simp [Slice]
  | cons e rest =>
    simp only [Slice]
    obtain ⟨s, p⟩ := pdqsortLessFunc_spec less key hk ((e :: rest).length + 1)
      ⟨fun i => (e :: rest).getD i e⟩ 0 (e :: rest).length (bitsLen (e :: rest).length) true true
      (by omega) (fun h => by omega)
    refine ⟨?_, s.pairwise_range key _⟩
    have := p.map_range (e :: rest).length
    rw [range_map_getD (e :: rest) e] at this
    exact this

/-! ### Sorted input -/

theorem insertionInner_sorted (hk : ∀ x y, less x y = true ↔ key x < key y) (d : Mem α)
    (a j : Nat) (h : a < j → key (d.get (j - 1)) ≤ key (d.get j)) :
    insertionInner less a j d = d := by
  cases j with
  | zero => rfl
  | succ j =>
    rw [insertionInner, if_neg]
    simp only [Bool.and_eq_true, decide_eq_true_eq, not_and]
    intro hgt hl
    rw [hk] at hl
    have := h (by omega)
    have e : j + 1 - 1 = j := by omega
    rw [e] at this
    omega

theorem insertionOuter_sorted (hk : ∀ x y, less x y = true ↔ key x < key y) (d : Mem α)
    (a b : Nat) (hs : SortedOn key d a b) :
    ∀ (n i : Nat), a < i → insertionOuter less a b n i d = d := by
  intro n
  induction n with
  | zero => intro i _; rfl
  | succ n ih =>
    intro i hi
    rw [insertionOuter]
    by_cases hlt : i < b
    · rw [if_pos hlt, insertionInner_sorted less key hk d a i
        (fun _ => hs (i - 1) i (by omega) (by omega) hlt)]
      exact ih (i + 1) (by omega)
    · rw [if_neg hlt]

theorem scanSorted_sorted (hk : ∀ x y, less x y = true ↔ key x < key y) (d : Mem α)
    (a b : Nat) (hs : SortedOn key d a b) :
    ∀ (fuel i : Nat), a < i → i ≤ b → b ≤ i + fuel → scanSorted less d b fuel i = b := by
  intro fuel
  induction fuel with
  | zero => intro i _ h2 h3; simp only [scanSorted]; omega
  | succ fuel ih =>
    intro i h1 h2 h3
    rw [scanSorted]
    by_cases hlt : i < b
    · have hle := hs (i - 1) i (by omega) (by omega) hlt
      have hc : (decide (i < b) && !less (d.get i) (d.get (i - 1))) = true := by
        simp only [Bool.and_eq_true, decide_eq_true_eq, Bool.not_eq_true']
        exact ⟨hlt, (less_false less key hk _ _).mpr hle⟩
      rw [if_pos hc]
      exact ih (i + 1) (by omega) (by omega) (by omega)
    · have hc : ¬ (decide (i < b) && !less (d.get i) (d.get (i - 1))) = true := by
        simp only [Bool.and_eq_true, decide_eq_true_eq, not_and]
        intro h; exact absurd h hlt
      rw [if_neg hc]
      omega

theorem partialInsertionSortLessFunc_sorted (hk : ∀ x y, less x y = true ↔ key x < key y)
    (d : Mem α) (a b : Nat) (hab : a < b) (hs : SortedOn key d a b) :
    partialInsertionSortLessFunc less d a b = (d, true) := by
  unfold partialInsertionSortLessFunc
  rw [partialInsertionSortLoop]
  simp only [scanSorted_sorted less key hk d a b hs (b - (a + 1)) (a + 1) (by omega) (by omega)
    (by omega), if_true]

theorem bitsLen_ne_zero (n : Nat) (h : 0 < n) : bitsLen n ≠ 0 := by
  unfold bitsLen
  cases n with
  | zero => omega
  | succ m =>
    rw [bitsLenAux]
    simp

theorem pdqsortRound_sorted (hk : ∀ x y, less x y = true ↔ key x < key y) (d : Mem α)
    (a b limit : Nat) (hl : limit ≠ 0) (hs : SortedOn key d a b) :
    pdqsortRound less d a b limit true true = Round.done d := by
  unfold pdqsortRound
  simp only []
  by_cases h12 : b - a ≤ 12
  · rw [if_pos h12]
    unfold insertionSortLessFunc
    rw [insertionOuter_sorted less key hk d a b hs _ _ (by omega)]
  · rw [if_neg h12, if_neg hl]
    have hh := choosePivotLessFunc_sorted less key hk d a b (by omega) hs
    have hp := partialInsertionSortLessFunc_sorted less key hk d a b (by omega) hs
    have hne : ¬ sortedHint.increasingHint = sortedHint.decreasingHint := by decide
    simp only [Bool.not_true, Bool.false_eq_true, if_false, hh, Bool.and_self, decide_True,
      if_true, if_neg hne, Bool.true_and, hp]

theorem Slice_sorted_id (hk : ∀ x y, less x y = true ↔ key x < key y) (x : List α)
    (h : List.Pairwise (fun u v => key u ≤ key v) x) : Slice less x = x := by
  cases x with
  | nil => rfl
  | cons e rest =>
    have hs : SortedOn key (⟨fun i => (e :: rest).getD i e⟩ : Mem α) 0 (e :: rest).length := by
      intro i j _ hij hj
      show key ((e :: rest).getD i e) ≤ key ((e :: rest).getD j e)
      rw [List.getD_eq_getElem _ e (by omega), List.getD_eq_getElem _ e hj]
      exact List.pairwise_iff_getElem.mp h i j (by omega) hj hij
    simp only [Slice]
    rw [pdqsortLessFunc, pdqsortRound_sorted less key hk _ 0 _ _
      (bitsLen_ne_zero _ (by simp)) hs]
    exact range_map_getD (e :: rest) e

end SliceProofs
/-! ### The claims on the sort -/

theorem after_iff_key (x y : CricutFile) :
    x.LastModified.After y.LastModified = true ↔ recencyKey x < recencyKey y := by
  unfold Time.After recencyKey
  simp only [decide_eq_true_eq]
  omega

theorem not_after_iff_key (x y : CricutFile) :
    y.LastModified.After x.LastModified = false ↔ recencyKey x ≤ recencyKey y := by
  unfold Time.After recencyKey
  simp only [decide_eq_false_iff_not]
  omega

theorem SortByLastModifiedDesc_pairwise (entries : List CricutFile) :
    (SortByLastModifiedDesc entries).Perm entries ∧
    List.Pairwise (fun a b => recencyKey a ≤ recencyKey b) (SortByLastModifiedDesc entries) :=
  Slice_spec _ recencyKey after_iff_key entries

theorem pairwise_of_chain (entries : List CricutFile)
    (h : List.Chain' (fun a b => b.LastModified.After a.LastModified = false) entries) :
    List.Pairwise (fun a b => recencyKey a ≤ recencyKey b) entries := by
  haveI : IsTrans CricutFile (fun a b => recencyKey a ≤ recencyKey b) :=
    ⟨fun _ _ _ h1 h2 => le_trans h1 h2⟩
  apply List.chain'_iff_pairwise.mp
  exact h.imp (fun {a b} hab => (not_after_iff_key a b).mp hab)

theorem SortByLastModifiedDesc_of_pairwise (entries : List CricutFile)
    (h : List.Pairwise (fun a b => recencyKey a ≤ recencyKey b) entries) :
    SortByLastModifiedDesc entries = entries :=
  Slice_sorted_id _ recencyKey after_iff_key entries h

/-- C4: `SortByLastModifiedDesc` leaves a permutation of its input (the same records, as often,
as many), in which no record is followed by one modified after it (most recent first); three
records of modification times `T1 < T2 < T3`, in whatever order, come out as `[T3, T2, T1]`. -/
theorem SortByLastModifiedDesc_sorted_perm (entries : List CricutFile) :
    (SortByLastModifiedDesc entries).Perm entries ∧
    (SortByLastModifiedDesc entries).length = entries.length ∧
    List.Chain' (fun a b => b.LastModified.After a.LastModified = false)
      (SortByLastModifiedDesc entries) ∧
    (∀ r1 r2 r3 : CricutFile,
      r2.LastModified.After r1.LastModified = true →
      r3.LastModified.After r2.LastModified = true →
      ∀ l : List CricutFile, l.Perm [r1, r2, r3] → SortByLastModifiedDesc l = [r3, r2, r1]) := by
  obtain ⟨hp, hs⟩ := SortByLastModifiedDesc_pairwise entries
  refine ⟨hp, hp.length_eq, ?_, ?_⟩
  · exact (hs.imp (fun {a b} hab => (not_after_iff_key a b).mpr hab)).chain'
  · intro r1 r2 r3 h12 h23 l hl
    rw [after_iff_key] at h12 h23
    obtain ⟨hp2, hs2⟩ := SortByLastModifiedDesc_pairwise l
    have hperm : (SortByLastModifiedDesc l).Perm [r3, r2, r1] := by
      refine (hp2.trans hl).trans ?_
      exact (List.reverse_perm [r1, r2, r3]).symm
    refine List.Perm.eq_of_sorted ?_ hs2 ?_ hperm
    · intro a b ha hb hab hba
      have ha' : a ∈ [r3, r2, r1] := hperm.subset ha
      simp only [List.mem_cons, List.mem_singleton, List.not_mem_nil, or_false] at ha' hb
      rcases ha' with rfl | rfl | rfl <;> rcases hb with rfl | rfl | rfl <;>
        first
        | rfl
        | (exfalso; omega)
    · simp only [List.pairwise_cons, List.mem_cons, List.mem_singleton, List.not_mem_nil,
        forall_eq_or_imp, forall_eq, List.Pairwise.nil, and_true, IsEmpty.forall_iff,
        implies_true]
      omega

/-- C4, on a sample: times 2, 5 and 3 come out as 5, 3, 2. -/
theorem SortByLastModifiedDesc_sorted_perm_witness :
    SortByLastModifiedDesc
        [⟨"c.png", "/d", "/d/c.png", ⟨2⟩⟩, ⟨"a.png", "/d", "/d/a.png", ⟨5⟩⟩,
         ⟨"b.png", "/d", "/d/b.png", ⟨3⟩⟩] =
      [⟨"a.png", "/d", "/d/a.png", ⟨5⟩⟩, ⟨"b.png", "/d", "/d/b.png", ⟨3⟩⟩,
       ⟨"c.png", "/d", "/d/c.png", ⟨2⟩⟩] :=
  (SortByLastModifiedDesc_sorted_perm []).2.2.2 ⟨"c.png", "/d", "/d/c.png", ⟨2⟩⟩
    ⟨"b.png", "/d", "/d/b.png", ⟨3⟩⟩ ⟨"a.png", "/d", "/d/a.png", ⟨5⟩⟩ (by decide) (by decide) _
    (List.Perm.cons _ (List.Perm.swap _ _ _))

/-- C9: on a sequence already in descending order of `LastModified`, equal times included,
`SortByLastModifiedDesc` changes nothing; so it is on the empty sequence and on its own
output. -/
theorem SortByLastModifiedDesc_idempotent (entries : List CricutFile)
    (h : List.Chain' (fun a b => b.LastModified.After a.LastModified = false) entries) :
    SortByLastModifiedDesc entries = entries ∧
    SortByLastModifiedDesc [] = [] ∧
    ∀ l, SortByLastModifiedDesc (SortByLastModifiedDesc l) = SortByLastModifiedDesc l :=
  ⟨SortByLastModifiedDesc_of_pairwise entries (pairwise_of_chain entries h), rfl,
    fun l => SortByLastModifiedDesc_of_pairwise _ (SortByLastModifiedDesc_pairwise l).2⟩

/-- C9, on a sample with two equal times: the sequence stays as it is. -/
theorem SortByLastModifiedDesc_idempotent_witness :
    List.Chain' (fun a b => b.LastModified.After a.LastModified = false) sampleEntries ∧
    SortByLastModifiedDesc sampleEntries = sampleEntries :=
  ⟨by simp [sampleEntries, Time.After],
    (SortByLastModifiedDesc_idempotent sampleEntries (by simp [sampleEntries, Time.After])).1⟩
end Cricut
